import Mathlib

/-!
Hotspot perf parser: frame decoder and cost-tree aggregation.

A shallow embedding of `src/parsers/perf/perfparser.cpp`.

* Bytes are elements of `Fin 256`.
* `QProcess` is the list of bytes that have arrived and are not read yet.
* `QBuffer buffer` is the memory at `buffer.buffer().data()` together with
  the size of the byte array, the read position and the status of the
  `QDataStream` reading from it.
* Pointers into a `FrameData` tree are paths of child indices from the root.
* Loops that the source runs without a bound take a fuel argument and
  return `none` when the fuel runs out.
-/

namespace PerfParser

/-- One byte. -/
abbrev Byte := Fin 256

/-! ## QDataStream -/

/-- The status of a `QDataStream`; only `Ok` and `ReadPastEnd` arise when reading. -/
inductive Status where
  | Ok
  | ReadPastEnd
  deriving DecidableEq, Repr

/-- A `QDataStream` on a read-only `QBuffer`: `dev` holds the bytes from the
read position of the buffer to its end, `version` is what `setVersion` was
given. -/
structure QDataStream where
  dev : List Byte
  status : Status
  version : Int
  deriving DecidableEq, Repr

/-- The operation `QDataStream::setStatus`: the first status other than `Ok` is kept. -/
def QDataStream.setStatus (s : QDataStream) (st : Status) : QDataStream :=
  if s.status = Status.Ok then { s with status := st } else s

/-- The operation `QDataStream::atEnd`: the device has no byte left. -/
def QDataStream.atEnd (s : QDataStream) : Bool := s.dev.isEmpty

/-- The operation `QDataStream::readBlock(data, len)`: the device hands out at most the bytes
it has; a short read moves the position to the end and sets `ReadPastEnd`.
The result is `some bytes` when all `len` bytes were there. -/
def readBlock (len : Nat) (s : QDataStream) : Option (List Byte) × QDataStream :=
  if len ≤ s.dev.length then
    (some (s.dev.take len), { s with dev := s.dev.drop len })
  else
    (none, ({ s with dev := [] } : QDataStream).setStatus Status.ReadPastEnd)

/-- The value of a big-endian byte sequence (the default byte order of a
`QDataStream`, which the parser never changes). -/
def fromBigEndian (bs : List Byte) : Nat :=
  bs.foldl (fun acc b => acc * 256 + b.val) 0

/-- The value of a little-endian byte sequence (`qFromLittleEndian`). -/
def fromLittleEndian : List Byte → Nat
  | [] => 0
  | b :: bs => b.val + 256 * fromLittleEndian bs

/-- Reinterpretation of an unsigned `w`-bit value as a signed one. -/
def toSigned (w : Nat) (v : Nat) : Int :=
  if v < 2 ^ (w - 1) then (v : Int) else (v : Int) - (2 ^ w : Nat)

/-- The operation `stream >> quintN` for a width of `len` bytes: `0` when the read falls short. -/
def readUInt (len : Nat) (s : QDataStream) : Nat × QDataStream :=
  match readBlock len s with
  | (some bs, s') => (fromBigEndian bs, s')
  | (none, s') => (0, s')

def readUInt8 (s : QDataStream) : Nat × QDataStream := readUInt 1 s
def readUInt32 (s : QDataStream) : Nat × QDataStream := readUInt 4 s

/-- The operation `stream >> quint64`: eight bytes; a stream of a version before 6 holds two
32-bit words instead, the low one first. -/
def readUInt64 (s : QDataStream) : Nat × QDataStream :=
  if s.version < 6 then
    let i2 := readUInt32 s
    let i1 := readUInt32 i2.2
    (i1.1 * 2 ^ 32 + i2.1, i1.2)
  else readUInt 8 s

def readInt8 (s : QDataStream) : Int × QDataStream :=
  let r := readUInt 1 s
  (toSigned 8 r.1, r.2)

def readInt32 (s : QDataStream) : Int × QDataStream :=
  let r := readUInt 4 s
  (toSigned 32 r.1, r.2)

/-- The operation `stream >> bool`: a `qint8` that is tested against zero. -/
def readBool (s : QDataStream) : Bool × QDataStream :=
  let r := readInt8 s
  (r.1 != 0, r.2)

/-- The operation `stream >> QByteArray`: a `quint32` length (`0xffffffff` for a null array)
and that many raw bytes; a short read clears the array and sets `ReadPastEnd`.
Qt reads the raw bytes in blocks of one megabyte; the position and the result
are those of one read. -/
def readByteArray (s : QDataStream) : List Byte × QDataStream :=
  let r := readUInt32 s
  if r.1 = 0xffffffff then ([], r.2)
  else
    match readBlock r.1 r.2 with
    | (some bs, s') => (bs, s')
    | (none, s') => ([], s')

/-- The element loop of `QtPrivate::readArrayBasedContainer`: an element whose
read leaves the status not `Ok` clears the container and ends the loop. -/
def readElements {α : Type} (readElem : QDataStream → α × QDataStream) :
    Nat → List α → QDataStream → List α × QDataStream
  | 0, acc, s => (acc, s)
  | n + 1, acc, s =>
    let r := readElem s
    if r.2.status ≠ Status.Ok then ([], r.2)
    else readElements readElem n (acc ++ [r.1]) r.2

/-- The operation `stream >> QVector<T>` and `stream >> QList<T>`
(`QtPrivate::readArrayBasedContainer`): the status is reset on entry and the
status found on entry, when it was not `Ok`, is put back on exit. -/
def readContainer {α : Type} (readElem : QDataStream → α × QDataStream)
    (s : QDataStream) : List α × QDataStream :=
  let n := readUInt32 { s with status := Status.Ok }
  let r := readElements readElem n.1 [] n.2
  (r.1, if s.status ≠ Status.Ok then { r.2 with status := s.status } else r.2)

/-! ## Records of the wire format -/

structure Record where
  pid : Nat := 0
  tid : Nat := 0
  time : Nat := 0
  deriving DecidableEq, Repr

def readRecord (s : QDataStream) : Record × QDataStream :=
  let pid := readUInt32 s
  let tid := readUInt32 pid.2
  let time := readUInt64 tid.2
  ({ pid := pid.1, tid := tid.1, time := time.1 }, time.2)

structure StringId where
  id : Int := -1
  deriving DecidableEq, Repr

def readStringId (s : QDataStream) : StringId × QDataStream :=
  let r := readInt32 s
  ({ id := r.1 }, r.2)

structure AttributesDefinition where
  id : Int := 0
  type : Nat := 0
  config : Nat := 0
  name : StringId := {}
  deriving DecidableEq, Repr

def readAttributesDefinition (s : QDataStream) : AttributesDefinition × QDataStream :=
  let id := readInt32 s
  let type := readUInt32 id.2
  let config := readUInt64 type.2
  let name := readStringId config.2
  ({ id := id.1, type := type.1, config := config.1, name := name.1 }, name.2)

structure Command extends Record where
  comm : StringId := {}
  deriving DecidableEq, Repr

def readCommand (s : QDataStream) : Command × QDataStream :=
  let r := readRecord s
  let comm := readStringId r.2
  ({ toRecord := r.1, comm := comm.1 }, comm.2)

structure ThreadStart where
  childPid : Nat := 0
  childTid : Nat := 0
  time : Nat := 0
  deriving DecidableEq, Repr

def readThreadStart (s : QDataStream) : ThreadStart × QDataStream :=
  let childPid := readUInt32 s
  let childTid := readUInt32 childPid.2
  let time := readUInt64 childTid.2
  ({ childPid := childPid.1, childTid := childTid.1, time := time.1 }, time.2)

structure ThreadEnd where
  childPid : Nat := 0
  childTid : Nat := 0
  time : Nat := 0
  deriving DecidableEq, Repr

def readThreadEnd (s : QDataStream) : ThreadEnd × QDataStream :=
  let childPid := readUInt32 s
  let childTid := readUInt32 childPid.2
  let time := readUInt64 childTid.2
  ({ childPid := childPid.1, childTid := childTid.1, time := time.1 }, time.2)

structure Location where
  address : Nat := 0
  file : StringId := {}
  pid : Nat := 0
  line : Int := 0
  column : Int := 0
  parentLocationId : Int := 0
  deriving DecidableEq, Repr

def readLocation (s : QDataStream) : Location × QDataStream :=
  let address := readUInt64 s
  let file := readStringId address.2
  let pid := readUInt32 file.2
  let line := readInt32 pid.2
  let column := readInt32 line.2
  let parentLocationId := readInt32 column.2
  ({ address := address.1, file := file.1, pid := pid.1, line := line.1,
     column := column.1, parentLocationId := parentLocationId.1 }, parentLocationId.2)

structure LocationDefinition where
  id : Int := 0
  location : Location := {}
  deriving DecidableEq, Repr

def readLocationDefinition (s : QDataStream) : LocationDefinition × QDataStream :=
  let id := readInt32 s
  let location := readLocation id.2
  ({ id := id.1, location := location.1 }, location.2)

structure Symbol where
  name : StringId := {}
  binary : StringId := {}
  isKernel : Bool := false
  deriving DecidableEq, Repr

def readSymbol (s : QDataStream) : Symbol × QDataStream :=
  let name := readStringId s
  let binary := readStringId name.2
  let isKernel := readBool binary.2
  ({ name := name.1, binary := binary.1, isKernel := isKernel.1 }, isKernel.2)

structure SymbolDefinition where
  id : Int := 0
  symbol : Symbol := {}
  deriving DecidableEq, Repr

def readSymbolDefinition (s : QDataStream) : SymbolDefinition × QDataStream :=
  let id := readInt32 s
  let symbol := readSymbol id.2
  ({ id := id.1, symbol := symbol.1 }, symbol.2)

structure Sample extends Record where
  frames : List Int := []
  guessedFrames : Nat := 0
  attributeId : Int := 0
  deriving DecidableEq, Repr

def readSample (s : QDataStream) : Sample × QDataStream :=
  let r := readRecord s
  let frames := readContainer readInt32 r.2
  let guessedFrames := readUInt8 frames.2
  let attributeId := readInt32 guessedFrames.2
  ({ toRecord := r.1, frames := frames.1, guessedFrames := guessedFrames.1,
     attributeId := attributeId.1 }, attributeId.2)

structure StringDefinition where
  id : Int := 0
  string : List Byte := []
  deriving DecidableEq, Repr

def readStringDefinition (s : QDataStream) : StringDefinition × QDataStream :=
  let id := readInt32 s
  let string := readByteArray id.2
  ({ id := id.1, string := string.1 }, string.2)

structure LostDefinition extends Record where
  deriving DecidableEq, Repr

def readLostDefinition (s : QDataStream) : LostDefinition × QDataStream :=
  let r := readRecord s
  ({ toRecord := r.1 }, r.2)

structure BuildId where
  pid : Nat := 0
  id : List Byte := []
  fileName : List Byte := []
  deriving DecidableEq, Repr

def readBuildId (s : QDataStream) : BuildId × QDataStream :=
  let pid := readUInt32 s
  let id := readByteArray pid.2
  let fileName := readByteArray id.2
  ({ pid := pid.1, id := id.1, fileName := fileName.1 }, fileName.2)

structure NumaNode where
  nodeId : Nat := 0
  memTotal : Nat := 0
  memFree : Nat := 0
  topology : List Byte := []
  deriving DecidableEq, Repr

def readNumaNode (s : QDataStream) : NumaNode × QDataStream :=
  let nodeId := readUInt32 s
  let memTotal := readUInt64 nodeId.2
  let memFree := readUInt64 memTotal.2
  let topology := readByteArray memFree.2
  ({ nodeId := nodeId.1, memTotal := memTotal.1, memFree := memFree.1,
     topology := topology.1 }, topology.2)

structure Pmu where
  type : Nat := 0
  name : List Byte := []
  deriving DecidableEq, Repr

def readPmu (s : QDataStream) : Pmu × QDataStream :=
  let type := readUInt32 s
  let name := readByteArray type.2
  ({ type := type.1, name := name.1 }, name.2)

structure GroupDesc where
  name : List Byte := []
  leaderIndex : Nat := 0
  numMembers : Nat := 0
  deriving DecidableEq, Repr

def readGroupDesc (s : QDataStream) : GroupDesc × QDataStream :=
  let name := readByteArray s
  let leaderIndex := readUInt32 name.2
  let numMembers := readUInt32 leaderIndex.2
  ({ name := name.1, leaderIndex := leaderIndex.1, numMembers := numMembers.1 },
   numMembers.2)

structure FeaturesDefinition where
  hostName : List Byte := []
  osRelease : List Byte := []
  version : List Byte := []
  arch : List Byte := []
  nrCpusOnline : Nat := 0
  nrCpusAvailable : Nat := 0
  cpuDesc : List Byte := []
  cpuId : List Byte := []
  totalMem : Nat := 0
  cmdline : List (List Byte) := []
  buildIds : List BuildId := []
  siblingCores : List (List Byte) := []
  siblingThreads : List (List Byte) := []
  numaTopology : List NumaNode := []
  pmuMappings : List Pmu := []
  groupDescs : List GroupDesc := []
  deriving DecidableEq, Repr

def readFeaturesDefinition (s : QDataStream) : FeaturesDefinition × QDataStream :=
  let hostName := readByteArray s
  let osRelease := readByteArray hostName.2
  let version := readByteArray osRelease.2
  let arch := readByteArray version.2
  let nrCpusOnline := readUInt32 arch.2
  let nrCpusAvailable := readUInt32 nrCpusOnline.2
  let cpuDesc := readByteArray nrCpusAvailable.2
  let cpuId := readByteArray cpuDesc.2
  let totalMem := readUInt64 cpuId.2
  let cmdline := readContainer readByteArray totalMem.2
  let buildIds := readContainer readBuildId cmdline.2
  let siblingCores := readContainer readByteArray buildIds.2
  let siblingThreads := readContainer readByteArray siblingCores.2
  let numaTopology := readContainer readNumaNode siblingThreads.2
  let pmuMappings := readContainer readPmu numaTopology.2
  let groupDescs := readContainer readGroupDesc pmuMappings.2
  ({ hostName := hostName.1, osRelease := osRelease.1, version := version.1,
     arch := arch.1, nrCpusOnline := nrCpusOnline.1,
     nrCpusAvailable := nrCpusAvailable.1, cpuDesc := cpuDesc.1, cpuId := cpuId.1,
     totalMem := totalMem.1, cmdline := cmdline.1, buildIds := buildIds.1,
     siblingCores := siblingCores.1, siblingThreads := siblingThreads.1,
     numaTopology := numaTopology.1, pmuMappings := pmuMappings.1,
     groupDescs := groupDescs.1 }, groupDescs.2)

/-! ## Strings -/

/-- The operation `QString::fromUtf8`, a function of the Qt library: the model decodes one
character per byte, which is exact for ASCII input. -/
def fromUtf8 (bs : List Byte) : String := String.mk (bs.map (fun b => Char.ofNat b.val))

/-- The operation `QString::number(n, 16)`: lower-case hexadecimal digits. -/
def numberHex (n : Nat) : String := String.mk (Nat.toDigits 16 n)

/-- The operation `QString::number(n)` for a signed integer. -/
def number (n : Int) : String := toString n

/-- The operation `QVector::value(i)`: the element at `i`, or a default-constructed value
when `i` is out of bounds. -/
def value {α : Type} [Inhabited α] (v : List α) (i : Int) : α :=
  if 0 ≤ i ∧ i < v.length then v.getD i.toNat default else default

/-! ## Cost trees -/

/-- Modelled from the spec: `FrameData` of `models/framedata.h` (the CostNode of
the data model): identity key, the two costs and the owned children. The
non-owning parent reference is the path by which a node is reached. -/
inductive FrameData where
  | mk (symbol binary location address : String) (selfCost inclusiveCost : Nat)
       (children : List FrameData)
  deriving Repr, Inhabited

namespace FrameData

def symbol : FrameData → String
  | mk s _ _ _ _ _ _ => s
def binary : FrameData → String
  | mk _ b _ _ _ _ _ => b
def location : FrameData → String
  | mk _ _ l _ _ _ _ => l
def address : FrameData → String
  | mk _ _ _ a _ _ _ => a
def selfCost : FrameData → Nat
  | mk _ _ _ _ sc _ _ => sc
def inclusiveCost : FrameData → Nat
  | mk _ _ _ _ _ ic _ => ic
def children : FrameData → List FrameData
  | mk _ _ _ _ _ _ cs => cs

/-- A default-constructed `FrameData`. -/
def empty : FrameData := mk "" "" "" "" 0 0 []

def setChildren : FrameData → List FrameData → FrameData
  | mk s b l a sc ic _, cs => mk s b l a sc ic cs

/-- Addition of `inc` to `inclusiveCost` and of `self` to `selfCost`. -/
def addCost (inc self : Nat) : FrameData → FrameData
  | mk s b l a sc ic cs => mk s b l a (sc + self) (ic + inc) cs

/-- The comparison of the row loop of the static `addFrame`. -/
def hasKey (row : FrameData) (symbol binary location address : String) : Bool :=
  row.symbol == symbol && row.binary == binary
    && row.location == location && row.address == address

/-- The row loop of the static `addFrame`: the index of the first child with
the given key. -/
def findRow (symbol binary location address : String) : List FrameData → Option Nat
  | [] => none
  | row :: rows =>
    if row.hasKey symbol binary location address then some 0
    else (findRow symbol binary location address rows).map (· + 1)

/-- Application of `f` to the `i`-th element of a list. -/
def modifyNth (f : FrameData → FrameData) : Nat → List FrameData → List FrameData
  | _, [] => []
  | 0, c :: cs => f c :: cs
  | i + 1, c :: cs => c :: modifyNth f i cs

/-- The node a path points to. -/
def getAt : FrameData → List Nat → Option FrameData
  | t, [] => some t
  | t, i :: p =>
    match t.children.get? i with
    | none => none
    | some c => getAt c p

/-- Application of `f` to the node a path points to. -/
def modifyAt (f : FrameData → FrameData) : List Nat → FrameData → FrameData
  | [], t => f t
  | i :: p, t => t.setChildren (modifyNth (modifyAt f p) i t.children)

/-- The static `PerfParserPrivate::addFrame(parent, symbol, binary, location,
address)` on the node `parent` of the tree `tree`: the result is the tree and
the returned pointer. -/
def addFrame (tree : FrameData) (parent : List Nat)
    (symbol binary location address : String) : FrameData × List Nat :=
  match tree.getAt parent with
  | none => (tree, parent)
  | some p =>
    match findRow symbol binary location address p.children with
    | some i => (tree, parent ++ [i])
    | none =>
      (tree.modifyAt
          (fun n => n.setChildren (n.children ++ [mk symbol binary location address 0 0 []]))
          parent,
        parent ++ [p.children.length])

end FrameData

/-! ## Registries -/

structure LocationData where
  parentLocationId : Int := -1
  location : String := ""
  address : String := ""
  deriving DecidableEq, Repr

/-- A default-constructed `LocationData` has no parent. -/
instance : Inhabited LocationData := ⟨{}⟩

structure SymbolData where
  symbol : String := ""
  binary : String := ""
  deriving DecidableEq, Repr

instance : Inhabited SymbolData := ⟨{}⟩

def SymbolData.isValid (s : SymbolData) : Bool :=
  !s.symbol.isEmpty || !s.binary.isEmpty

structure CallerCalleeLocation where
  symbol : String
  binary : String
  deriving DecidableEq, Repr

/-- The operation `CallerCalleeLocation::operator<`: the lexicographic order of `std::tie`. -/
def CallerCalleeLocation.lt (a b : CallerCalleeLocation) : Bool :=
  decide (a.symbol < b.symbol) || (!decide (b.symbol < a.symbol) && decide (a.binary < b.binary))

/-- Modelled from the spec: `SummaryData` of `models/summarydata.h` (the
SummaryRecord of the data model), with the fields the parser writes. -/
structure SummaryData where
  applicationRunningTime : Nat := 0
  threadCount : Nat := 0
  processCount : Nat := 0
  command : String := ""
  lostChunks : Nat := 0
  sampleCount : Nat := 0
  deriving DecidableEq, Repr

/-! ## The parser -/

inductive State where
  | HEADER
  | DATA_STREAM_VERSION
  | EVENT_HEADER
  | EVENT
  | PARSE_ERROR
  deriving DecidableEq, Repr

inductive EventType where
  | Sample
  | ThreadStart
  | ThreadEnd
  | Command
  | LocationDefinition
  | SymbolDefinition
  | AttributesDefinition
  | StringDefinition
  | LostDefinition
  | FeaturesDefinition
  | InvalidType
  deriving DecidableEq, Repr

/-- The numeric value of an enumerator. -/
def EventType.toInt : EventType → Int
  | .Sample => 0
  | .ThreadStart => 1
  | .ThreadEnd => 2
  | .Command => 3
  | .LocationDefinition => 4
  | .SymbolDefinition => 5
  | .AttributesDefinition => 6
  | .StringDefinition => 7
  | .LostDefinition => 8
  | .FeaturesDefinition => 9
  | .InvalidType => 10

/-- The operation `static_cast<EventType>(eventType)` for a value in the range of the
enumeration. -/
def EventType.ofInt (i : Int) : EventType :=
  if i = 0 then .Sample
  else if i = 1 then .ThreadStart
  else if i = 2 then .ThreadEnd
  else if i = 3 then .Command
  else if i = 4 then .LocationDefinition
  else if i = 5 then .SymbolDefinition
  else if i = 6 then .AttributesDefinition
  else if i = 7 then .StringDefinition
  else if i = 8 then .LostDefinition
  else if i = 9 then .FeaturesDefinition
  else .InvalidType

/-- The members of `PerfParserPrivate`.

`buffer` is the memory at `buffer.buffer().data()` (bytes that were never
written read as absent, and as zero where a value is formed from them),
`bufferSize` is `buffer.buffer().size()`, `bufferPos` is `buffer.pos()` and
`streamStatus` and `streamVersion` are the status and version of `stream`.
`process` holds the bytes `process.bytesAvailable()` counts. -/
structure PerfParserPrivate where
  state : State := State.HEADER
  eventSize : Nat := 0
  buffer : List Byte := []
  bufferSize : Nat := 0
  bufferPos : Nat := 0
  streamStatus : Status := Status.Ok
  streamVersion : Int := 0
  bottomUpResult : FrameData := FrameData.empty
  topDownResult : FrameData := FrameData.empty
  attributes : List AttributesDefinition := []
  symbols : List SymbolData := []
  locations : List LocationData := []
  strings : List String := []
  process : List Byte := []
  summaryResult : SummaryData := {}
  applicationStartTime : Nat := 0
  applicationEndTime : Nat := 0
  uniqueThreads : List Nat := []
  uniqueProcess : List Nat := []
  callerCalleeResult : FrameData := FrameData.empty

/-- The operation `QSet::insert`. -/
def setInsert (s : List Nat) (x : Nat) : List Nat :=
  if x ∈ s then s else s ++ [x]

namespace PerfParserPrivate

def addAttributes (d : PerfParserPrivate) (attributesDefinition : AttributesDefinition) :
    PerfParserPrivate :=
  { d with attributes := d.attributes ++ [attributesDefinition] }

def addCommand (d : PerfParserPrivate) (_command : Command) : PerfParserPrivate := d

/-- The first `Q_ASSERT` of `addLocation`. -/
def addLocationAssert (d : PerfParserPrivate) (location : LocationDefinition) : Bool :=
  decide ((d.locations.length : Int) = location.id)
    && decide ((d.symbols.length : Int) = location.id)

/-- The function `addLocation`; a `Q_ASSERT` does nothing in a build without debug checks. -/
def addLocation (d : PerfParserPrivate) (location : LocationDefinition) : PerfParserPrivate :=
  let locationString : String :=
    if location.location.file.id ≠ -1 then
      let s := value d.strings location.location.file.id
      if location.location.line ≠ -1 then s ++ ":" ++ number location.location.line
      else s
    else ""
  { d with
    locations := d.locations ++
      [{ parentLocationId := location.location.parentLocationId,
         location := locationString,
         address := numberHex location.location.address }],
    symbols := d.symbols ++ [{}] }

/-- The `Q_ASSERT` of `addSymbol`. -/
def addSymbolAssert (d : PerfParserPrivate) (symbol : SymbolDefinition) : Bool :=
  decide ((d.symbols.length : Int) > symbol.id)

/-- The assignment `symbols[symbol.id] = ...` of `addSymbol` has a defined
behaviour: the index is inside the table. The assertion excludes only an index
from the size on; for a negative index `QVector::operator[]` is as undefined. -/
def addSymbolDefined (d : PerfParserPrivate) (symbol : SymbolDefinition) : Bool :=
  decide (0 ≤ symbol.id ∧ symbol.id < (d.symbols.length : Int))

/-- The function `addSymbol` where `addSymbolDefined` holds; for an index outside the
table, where the source has no defined behaviour, the table is left as it is here
and `parseRecord` gives no result. -/
def addSymbol (d : PerfParserPrivate) (symbol : SymbolDefinition) : PerfParserPrivate :=
  let data : SymbolData :=
    { symbol := value d.strings symbol.symbol.name.id,
      binary := value d.strings symbol.symbol.binary.id }
  if 0 ≤ symbol.id then { d with symbols := d.symbols.set (Int.toNat symbol.id) data }
  else d

/-- The loop of `addFrame(FrameData* parent, qint32 id)` on the bottom-up tree
`tree`; `parent == &bottomUpResult` is `parent = []`. -/
def addFrameLoop (d : PerfParserPrivate) :
    Nat → FrameData → List Nat → Int → Bool → Option (FrameData × List Nat)
  | 0, _, _, _, _ => none
  | fuel + 1, tree, parent, id, skipNextFrame =>
    if id = -1 then some (tree, parent)
    else
      let location := value d.locations id
      if skipNextFrame then
        addFrameLoop d fuel tree parent location.parentLocationId false
      else
        let symbol := value d.symbols id
        let symbol' := if !symbol.isValid then value d.symbols location.parentLocationId
          else symbol
        let skipNextFrame' := !symbol.isValid
        let ret := FrameData.addFrame tree parent symbol'.symbol symbol'.binary
          location.location location.address
        let tree' := ret.1.modifyAt
          (FrameData.addCost 1 (if parent = [] then 1 else 0)) ret.2
        addFrameLoop d fuel tree' ret.2 location.parentLocationId skipNextFrame'

/-- The function `addFrame(FrameData* parent, qint32 id)`. Every iteration replaces `id` by
the parent of its location, so a walk that takes more than
`locations.size() + 1` iterations has met an id twice and never ends: the
result is `none` then. -/
def addFrame (d : PerfParserPrivate) (tree : FrameData) (parent : List Nat) (id : Int) :
    Option (FrameData × List Nat) :=
  addFrameLoop d (d.locations.length + 2) tree parent id false

/-- The `for` loop of `addSampleToBottomUp`. -/
def addFrames (d : PerfParserPrivate) :
    List Int → FrameData → List Nat → Option (FrameData × List Nat)
  | [], tree, parent => some (tree, parent)
  | id :: ids, tree, parent =>
    match addFrame d tree parent id with
    | none => none
    | some r => addFrames d ids r.1 r.2

def addSampleToBottomUp (d : PerfParserPrivate) (sample : Sample) : Option PerfParserPrivate :=
  match addFrames d sample.frames (d.bottomUpResult.addCost 1 0) [] with
  | none => none
  | some r => some { d with bottomUpResult := r.1 }

def addSampleToSummary (d : PerfParserPrivate) (sample : Sample) : PerfParserPrivate :=
  let d1 : PerfParserPrivate :=
    if sample.time < d.applicationStartTime ∨ d.applicationStartTime = 0 then
      { d with applicationStartTime := sample.time }
    else if sample.time > d.applicationEndTime ∨ d.applicationEndTime = 0 then
      { d with applicationEndTime := sample.time }
    else d
  { d1 with
    uniqueThreads := setInsert d1.uniqueThreads sample.tid,
    uniqueProcess := setInsert d1.uniqueProcess sample.pid,
    summaryResult := { d1.summaryResult with sampleCount := d1.summaryResult.sampleCount + 1 } }

def addSample (d : PerfParserPrivate) (sample : Sample) : Option PerfParserPrivate :=
  match addSampleToBottomUp d sample with
  | none => none
  | some d' => some (addSampleToSummary d' sample)

/-- The `Q_ASSERT` of `addString`. -/
def addStringAssert (d : PerfParserPrivate) (string : StringDefinition) : Bool :=
  decide (string.id = (d.strings.length : Int))

/-- The function `addString`; a `Q_ASSERT` does nothing in a build without debug checks. -/
def addString (d : PerfParserPrivate) (string : StringDefinition) : PerfParserPrivate :=
  { d with strings := d.strings ++ [fromUtf8 string.string] }

def addLost (d : PerfParserPrivate) (_lost : LostDefinition) : PerfParserPrivate :=
  { d with summaryResult := { d.summaryResult with lostChunks := d.summaryResult.lostChunks + 1 } }

/-- The operation `QByteArrayList::join(' ')`. -/
def joinArgs : List (List Byte) → List Byte
  | [] => []
  | [a] => a
  | a :: b :: rest => a ++ (32 : Byte) :: joinArgs (b :: rest)

/-- The call `args.removeFirst()` of `setFeatures` has a defined behaviour: the
list is not empty (Qt asserts it and erases the first element without a
check). -/
def setFeaturesDefined (features : FeaturesDefinition) : Bool :=
  !features.cmdline.isEmpty

/-- The function `setFeatures` where `setFeaturesDefined` holds; for an empty list,
where the source has no defined behaviour, the list is left empty here and
`parseRecord` gives no result. -/
def setFeatures (d : PerfParserPrivate) (features : FeaturesDefinition) : PerfParserPrivate :=
  let args := features.cmdline.drop 1
  let command := "perf " ++ fromUtf8 (joinArgs args)
  { d with summaryResult := { d.summaryResult with command := command } }

def calculateSummary (d : PerfParserPrivate) : PerfParserPrivate :=
  { d with summaryResult := { d.summaryResult with
      applicationRunningTime :=
        (d.applicationEndTime + 2 ^ 64 - d.applicationStartTime % 2 ^ 64) % 2 ^ 64,
      threadCount := d.uniqueThreads.length,
      processCount := d.uniqueProcess.length } }

/-! ### The derived trees

In the traversals below the parents of a row are the list `ancestors`, nearest
first, which ends with the top-level node. -/

/-- Modelled from the spec: `FrameData::initializeParents` of
`models/framedata.h`, which stamps the non-owning parent reference of every
node below `tree`; a top-level node gets none (the walk from a leaf ends at
the node for the sample's own symbol). The model stores no parent references:
the parents of a node are the nodes on the path to it, so the tree stays as
it is. -/
def initializeParents (tree : FrameData) : FrameData := tree

/-- The `while (node)` loop of the static `buildTopDownResult`: `nodes` is the
leaf followed by its parents, `isRow` is `node == &row`, `stack` points into
`topDownData`. -/
def topDownWalk (rowCost : Nat) :
    List FrameData → Bool → FrameData → List Nat → FrameData
  | [], _, topDownData, _ => topDownData
  | node :: parents, isRow, topDownData, stack =>
    let frame := FrameData.addFrame topDownData stack
      node.symbol node.binary node.location node.address
    let topDownData' := frame.1.modifyAt
      (FrameData.addCost rowCost (if isRow then 1 else 0)) frame.2
    topDownWalk rowCost parents false topDownData' frame.2

mutual
/-- The body of the row loop of the static `buildTopDownResult`. -/
def buildTopDownRow (ancestors : List FrameData) : FrameData → FrameData → FrameData
  | .mk s b l a sc ic [], topDownData =>
    topDownWalk ic (.mk s b l a sc ic [] :: ancestors) true topDownData []
  | .mk s b l a sc ic (c :: cs), topDownData =>
    buildTopDownRows (.mk s b l a sc ic (c :: cs) :: ancestors) (c :: cs) topDownData
/-- The static `buildTopDownResult(bottomUpData, topDownData)`. -/
def buildTopDownRows (ancestors : List FrameData) : List FrameData → FrameData → FrameData
  | [], topDownData => topDownData
  | row :: rows, topDownData =>
    buildTopDownRows ancestors rows (buildTopDownRow ancestors row topDownData)
end

def buildTopDownResult (d : PerfParserPrivate) : PerfParserPrivate :=
  let topDownData := buildTopDownRows [] d.bottomUpResult.children d.topDownResult
  { d with topDownResult := initializeParents topDownData }

/-- The loop of `std::lower_bound` on the range `[first, first + len)`. -/
def lowerBoundLoop (children : List FrameData) (needle : CallerCalleeLocation) :
    Nat → Nat → Nat → Nat
  | 0, first, _ => first
  | fuel + 1, first, len =>
    if 0 < len then
      let half := len / 2
      let middle := first + half
      let frame := children.getD middle FrameData.empty
      if CallerCalleeLocation.lt ⟨frame.symbol, frame.binary⟩ needle then
        lowerBoundLoop children needle fuel (middle + 1) (len - half - 1)
      else lowerBoundLoop children needle fuel first half
    else first

/-- The operation `std::lower_bound(children.begin(), children.end(), needle, comp)`. -/
def lowerBound (children : List FrameData) (needle : CallerCalleeLocation) : Nat :=
  lowerBoundLoop children needle (children.length + 1) 0 children.length

/-- The operation `QVector::insert(it, value)`. -/
def insertNth (i : Nat) (x : FrameData) (l : List FrameData) : List FrameData :=
  l.take i ++ x :: l.drop i

/-- The `while (node)` loop of the static `buildCallerCalleeResult`: `nodes` is
the leaf followed by its parents, so `!node->parent` holds at the last one. -/
def callerCalleeWalk :
    List FrameData → List CallerCalleeLocation → FrameData → FrameData
  | [], _, callerCalleeData => callerCalleeData
  | node :: parents, recursionGuard, callerCalleeData =>
    let needle : CallerCalleeLocation := ⟨node.symbol, node.binary⟩
    if !recursionGuard.contains needle then
      let children := callerCalleeData.children
      let it := lowerBound children needle
      let found := children.getD it FrameData.empty
      let children1 :=
        if it = children.length ∨
            (⟨found.symbol, found.binary⟩ : CallerCalleeLocation) ≠ needle
        then insertNth it (.mk node.symbol node.binary node.location node.address 0 0 []) children
        else children
      let children2 := FrameData.modifyNth
        (FrameData.addCost 1 (if parents.isEmpty then 1 else 0)) it children1
      callerCalleeWalk parents (recursionGuard ++ [needle])
        (callerCalleeData.setChildren children2)
    else callerCalleeWalk parents recursionGuard callerCalleeData

mutual
/-- The body of the row loop of the static `buildCallerCalleeResult`. -/
def buildCallerCalleeRow (ancestors : List FrameData) : FrameData → FrameData → FrameData
  | .mk s b l a sc ic [], callerCalleeData =>
    callerCalleeWalk (.mk s b l a sc ic [] :: ancestors) [] callerCalleeData
  | .mk s b l a sc ic (c :: cs), callerCalleeData =>
    buildCallerCalleeRows (.mk s b l a sc ic (c :: cs) :: ancestors) (c :: cs) callerCalleeData
/-- The static `buildCallerCalleeResult(bottomUpData, callerCalleeData)`. -/
def buildCallerCalleeRows (ancestors : List FrameData) :
    List FrameData → FrameData → FrameData
  | [], callerCalleeData => callerCalleeData
  | row :: rows, callerCalleeData =>
    buildCallerCalleeRows ancestors rows (buildCallerCalleeRow ancestors row callerCalleeData)
end

def buildCallerCalleeResult (d : PerfParserPrivate) : PerfParserPrivate :=
  { d with callerCalleeResult :=
      buildCallerCalleeRows [] d.bottomUpResult.children d.callerCalleeResult }

def finalize (d : PerfParserPrivate) : PerfParserPrivate :=
  let d1 := { d with bottomUpResult := initializeParents d.bottomUpResult }
  buildCallerCalleeResult (buildTopDownResult (calculateSummary d1))

/-! ### The decoder -/

/-- The bytes of the literal `"QPERFSTREAM"`. -/
def magic : List Byte := [81, 80, 69, 82, 70, 83, 84, 82, 69, 65, 77]

/-- The C string at the start of a memory area: the bytes before the first
zero byte. -/
def cString (mem : List Byte) : List Byte := mem.takeWhile (fun b => b ≠ 0)

/-- The operation `process.read(buffer.buffer().data(), maxlen)`: at most the available
bytes are moved to the start of the buffer memory; the bytes behind them stay
as they were. -/
def processRead (d : PerfParserPrivate) (maxlen : Nat) : PerfParserPrivate :=
  let bytes := d.process.take maxlen
  { d with process := d.process.drop maxlen, buffer := bytes ++ d.buffer.drop bytes.length }

/-- The operation `buffer.buffer().resize(size)`: the memory keeps what was written to it,
grows by zero bytes where it was shorter, and gets the terminating zero byte
behind the new size. Sizes from `2^31` on, which do not fit the `int`
argument, are outside this model. -/
def bufferResize (d : PerfParserPrivate) (size : Nat) : PerfParserPrivate :=
  let mem := d.buffer ++ List.replicate (size + 1 - d.buffer.length) 0
  { d with bufferSize := size, buffer := mem.set size 0 }

/-- The position and status `stream` is left with. -/
def setStream (d : PerfParserPrivate) (s : QDataStream) : PerfParserPrivate :=
  { d with bufferPos := d.bufferSize - s.dev.length, streamStatus := s.status }

/-- The handler of the record of kind `t` that is read from `s` has a defined
behaviour. -/
def recordDefined (d : PerfParserPrivate) (s : QDataStream) :
    EventType → Bool
  | .SymbolDefinition => d.addSymbolDefined (readSymbolDefinition s).1
  | .FeaturesDefinition => setFeaturesDefined (readFeaturesDefinition s).1
  | _ => true

/-- The `switch` of `parseEvent`: the record is read from the stream and handed
to its handler. The result is `none` when the handler does not return (a
Sample whose walk never ends) or has no defined behaviour (`addSymbol` with an
index outside the table, `setFeatures` with an empty `cmdline`). -/
def parseRecord (d : PerfParserPrivate) (s : QDataStream) :
    EventType → Option (QDataStream × PerfParserPrivate)
  | .Sample =>
    let sample := readSample s
    (addSample d sample.1).map (fun d' => (sample.2, d'))
  | .ThreadStart =>
    let threadStart := readThreadStart s
    some (threadStart.2, d)
  | .ThreadEnd =>
    let threadEnd := readThreadEnd s
    some (threadEnd.2, d)
  | .Command =>
    let command := readCommand s
    some (command.2, addCommand d command.1)
  | .LocationDefinition =>
    let locationDefinition := readLocationDefinition s
    some (locationDefinition.2, addLocation d locationDefinition.1)
  | .SymbolDefinition =>
    let symbolDefinition := readSymbolDefinition s
    if addSymbolDefined d symbolDefinition.1 then
      some (symbolDefinition.2, addSymbol d symbolDefinition.1)
    else none
  | .AttributesDefinition =>
    let attributesDefinition := readAttributesDefinition s
    some (attributesDefinition.2, addAttributes d attributesDefinition.1)
  | .StringDefinition =>
    let stringDefinition := readStringDefinition s
    some (stringDefinition.2, addString d stringDefinition.1)
  | .LostDefinition =>
    let lostDefinition := readLostDefinition s
    some (lostDefinition.2, addLost d lostDefinition.1)
  | .FeaturesDefinition =>
    let featuresDefinition := readFeaturesDefinition s
    if setFeaturesDefined featuresDefinition.1 then
      some (featuresDefinition.2, setFeatures d featuresDefinition.1)
    else none
  | .InvalidType => some (s, d)

/-- The function `parseEvent`: the result is `none` when a handler does not return or
has no defined behaviour. -/
def parseEvent (d : PerfParserPrivate) : Option (Bool × PerfParserPrivate) :=
  let stream : QDataStream :=
    { dev := d.buffer.take d.bufferSize, status := Status.Ok, version := d.streamVersion }
  let eventType := readInt8 stream
  if eventType.1 < 0 ∨ eventType.1 ≥ EventType.InvalidType.toInt then
    some (false, { setStream d eventType.2 with state := State.PARSE_ERROR })
  else
    match parseRecord d eventType.2 (EventType.ofInt eventType.1) with
    | none => none
    | some r =>
      if !r.1.atEnd then some (false, setStream r.2 r.1)
      else some (true, setStream r.2 r.1)

/-- The function `tryParse`: the result is `none` when `parseEvent` does not return. -/
def tryParse (d : PerfParserPrivate) : Option (Bool × PerfParserPrivate) :=
  let bytesAvailable := d.process.length
  match d.state with
  | .HEADER =>
    if bytesAvailable ≥ magic.length + 1 then
      let d1 := processRead d (magic.length + 1)
      if cString d1.buffer ≠ magic then
        some (false, { d1 with state := State.PARSE_ERROR })
      else
        some (true, { d1 with state := State.DATA_STREAM_VERSION })
    else some (false, d)
  | .DATA_STREAM_VERSION =>
    if bytesAvailable ≥ 4 then
      let d1 := processRead d 4
      let dataStreamVersion := toSigned 32 (fromLittleEndian (d1.buffer.take 4))
      some (true, { d1 with streamVersion := dataStreamVersion, state := State.EVENT_HEADER })
    else some (false, d)
  | .EVENT_HEADER =>
    if bytesAvailable ≥ d.eventSize then
      let d1 := processRead d 4
      some (true, { d1 with eventSize := fromLittleEndian (d1.buffer.take 4),
                            state := State.EVENT })
    else some (false, d)
  | .EVENT =>
    if bytesAvailable ≥ d.eventSize then
      let d1 := processRead (bufferResize d d.eventSize) d.eventSize
      match parseEvent d1 with
      | none => none
      | some r =>
        if !r.1 then some (false, { r.2 with state := State.PARSE_ERROR })
        else some (true, { r.2 with state := State.EVENT_HEADER })
    else some (false, d)
  | .PARSE_ERROR => some (false, d)

end PerfParserPrivate

/-! ## The handlers of `PerfParser::startParseFile` -/

/-- The signals of `PerfParser`. -/
inductive Signal where
  | bottomUpDataAvailable (data : FrameData)
  | topDownDataAvailable (data : FrameData)
  | summaryDataAvailable (data : SummaryData)
  | callerCalleeDataAvailable (data : FrameData)
  | parsingFinished
  | parsingFailed (errorMessage : String)

/-- Arrival of bytes on the output channel of the process. -/
def received (d : PerfParserPrivate) (bytes : List Byte) : PerfParserPrivate :=
  { d with process := d.process ++ bytes }

/-- The `readyRead` handler: `while (d.tryParse())`. The result is `none` when
the loop is still running after `fuel` calls or a call does not return. -/
def readyRead : Nat → PerfParserPrivate → Option PerfParserPrivate
  | 0, _ => none
  | fuel + 1, d =>
    match d.tryParse with
    | none => none
    | some r => if r.1 then readyRead fuel r.2 else some r.2

/-- The value of `EXIT_SUCCESS`. -/
def EXIT_SUCCESS : Int := 0

/-- The `finished` handler: the signals it emits, in order. -/
def finished (d : PerfParserPrivate) (exitCode : Int) : List Signal :=
  if exitCode = EXIT_SUCCESS then
    let d' := d.finalize
    [Signal.bottomUpDataAvailable d'.bottomUpResult,
     Signal.topDownDataAvailable d'.topDownResult,
     Signal.summaryDataAvailable d'.summaryResult,
     Signal.callerCalleeDataAvailable d'.callerCalleeResult,
     Signal.parsingFinished]
  else
    [Signal.parsingFailed
      ("The hotspot-perfparser binary exited with code " ++ toString exitCode ++ ".")]

/-- The parse session: every chunk that arrives is followed by the `readyRead`
handler. -/
def feed (fuel : Nat) : PerfParserPrivate → List (List Byte) → Option PerfParserPrivate
  | d, [] => some d
  | d, chunk :: chunks =>
    match readyRead fuel (received d chunk) with
    | none => none
    | some d' => feed fuel d' chunks

/-- A list of signals carries the four results. -/
def publishesResults (signals : List Signal) : Bool :=
  signals.any (fun s => match s with | .bottomUpDataAvailable _ => true | _ => false)
    && signals.any (fun s => match s with | .topDownDataAvailable _ => true | _ => false)
    && signals.any (fun s => match s with | .summaryDataAvailable _ => true | _ => false)
    && signals.any (fun s => match s with | .callerCalleeDataAvailable _ => true | _ => false)

/-- A list of signals carries one of the trees. -/
def publishesTree (signals : List Signal) : Bool :=
  signals.any (fun s => match s with
    | .bottomUpDataAvailable _ => true
    | .topDownDataAvailable _ => true
    | .callerCalleeDataAvailable _ => true
    | _ => false)

/-- The stream with `extra` appended to its device. -/
def QDataStream.app (s : QDataStream) (extra : List Byte) : QDataStream :=
  { s with dev := s.dev ++ extra }

/-- A well-behaved reader: it never moves backwards, it ends with status `Ok`
only when it started with it, and then bytes appended to the device stay
unread behind the same result. -/
def Reads {α : Type} (R : QDataStream → α × QDataStream) : Prop :=
  ∀ s, (R s).2.dev.length ≤ s.dev.length ∧
    ((R s).2.status = Status.Ok →
      s.status = Status.Ok ∧ ∀ e, R (s.app e) = ((R s).1, (R s).2.app e))

/-- The decoder with other contents of the buffer and of the process. -/
def withInput (d : PerfParserPrivate) (buffer : List Byte) (bufferSize : Nat)
    (process : List Byte) (eventSize : Nat) : PerfParserPrivate :=
  { d with buffer := buffer, bufferSize := bufferSize, process := process,
           eventSize := eventSize }

/-- The decoder with the frame read into the buffer: the two statements of the
EVENT case of `tryParse` that come before `parseEvent`. -/
def frameRead (d : PerfParserPrivate) : PerfParserPrivate :=
  PerfParserPrivate.processRead (PerfParserPrivate.bufferResize d d.eventSize) d.eventSize

/-- The sum of `inclusiveCost` over the immediate children of a node. -/
def childCostSum (t : FrameData) : Nat := (t.children.map FrameData.inclusiveCost).sum

mutual
/-- The sum of `inclusiveCost` over the leaves below and including a row. -/
def leafCostSum : FrameData → Nat
  | .mk _ _ _ _ _ ic [] => ic
  | .mk _ _ _ _ _ _ (c :: cs) => leafCostSumRows (c :: cs)
/-- The sum of `inclusiveCost` over the leaves of a list of rows. -/
def leafCostSumRows : List FrameData → Nat
  | [] => 0
  | row :: rows => leafCostSum row + leafCostSumRows rows
end

/-- The fold of a sequence of samples into the bottom-up tree and the summary. -/
def addSamples : PerfParserPrivate → List Sample → Option PerfParserPrivate
  | d, [] => some d
  | d, sample :: samples =>
    match d.addSample sample with
    | none => none
    | some d' => addSamples d' samples

/-- The list `ids` is the chain of locations that starts at `id`: every id is a
registered location with a valid symbol, each is the parent of the one before,
and the last has no parent. -/
def isChain (locations : List LocationData) (symbols : List SymbolData) :
    Int → List Int → Bool
  | id, [] => id == -1
  | id, i :: rest =>
    id == i && decide (0 ≤ i) && decide (i < locations.length)
      && (value symbols i).isValid
      && isChain locations symbols (value locations i).parentLocationId rest

/-- The single path that `n` samples of one chain of locations leave below a
node: one child per location, innermost first, each with inclusive cost `n`,
and with self cost `n` at the top of the path, `0` below. -/
def chainNodes (locations : List LocationData) (symbols : List SymbolData) (n : Nat) :
    Bool → List Int → List FrameData
  | _, [] => []
  | top, i :: rest =>
    if n = 0 then []
    else
      [FrameData.mk (value symbols i).symbol (value symbols i).binary
        (value locations i).location (value locations i).address
        (if top then n else 0) n (chainNodes locations symbols n false rest)]

/-- The id the loop of `addFrame` goes on with after an iteration on `id`. -/
def parentOf (d : PerfParserPrivate) (id : Int) : Int :=
  (value d.locations id).parentLocationId

/-- One visit of the loop of `addFrame(FrameData* parent, qint32 id)`: the
static `addFrame` below `parent` with the labels of `location`, the increment
of `inclusiveCost` and, below the root, of `selfCost`; the result is the tree
and the pointer to the node. -/
def visit (tree : FrameData) (parent : List Nat) (symbol : SymbolData)
    (location : LocationData) : FrameData × List Nat :=
  let ret := FrameData.addFrame tree parent symbol.symbol symbol.binary
    location.location location.address
  (ret.1.modifyAt (FrameData.addCost 1 (if parent = [] then 1 else 0)) ret.2, ret.2)

/-- A registry with a symbol-less location 0 (label `t`) whose parent, location
1 (label `f`), has the symbol `foo`. -/
def trampolineRegistry : PerfParserPrivate :=
  { locations := [{ parentLocationId := 1, address := "t" },
                  { parentLocationId := -1, address := "f" }],
    symbols := [{}, { symbol := "foo" }] }

/-! ## Walks along identity keys -/

/-- The identity key of a node: symbol, binary, location label and address
label. -/
structure FrameKey where
  symbol : String
  binary : String
  location : String
  address : String
  deriving DecidableEq, Repr

namespace FrameData

def key (t : FrameData) : FrameKey := ⟨t.symbol, t.binary, t.location, t.address⟩

/-- The row loop of the static `addFrame` for the key `k`. -/
def findKey (k : FrameKey) (rows : List FrameData) : Option Nat :=
  findRow k.symbol k.binary k.location k.address rows

/-- A cursor walk along the keys `ks`: for every key in turn the static
`addFrame` below the cursor, `inc` added to the `inclusiveCost` of the node it
returns and, at the first key only, `self` added to its `selfCost`; the node is
the next cursor. The loops of `addFrame(parent, id)` and of the static
`buildTopDownResult` are such walks. -/
def walk (inc : Nat) : Nat → List FrameKey → FrameData → List Nat → FrameData × List Nat
  | _, [], tree, cursor => (tree, cursor)
  | self, k :: ks, tree, cursor =>
    let ret := addFrame tree cursor k.symbol k.binary k.location k.address
    walk inc 0 ks (ret.1.modifyAt (addCost inc self) ret.2) ret.2

/-- The effect of a walk along the keys `ks` on the node the cursor starts at:
the child with the first key is looked up or appended, gets the cost, and the
rest of the keys is walked below it. -/
def insertPath (inc : Nat) : Nat → List FrameKey → FrameData → FrameData
  | _, [], t => t
  | self, k :: ks, t =>
    match findKey k t.children with
    | some i =>
      t.setChildren (modifyNth (fun c => insertPath inc 0 ks (c.addCost inc self)) i t.children)
    | none =>
      t.setChildren (t.children ++
        [insertPath inc 0 ks (mk k.symbol k.binary k.location k.address self inc [])])

/-- The node at the end of the path of keys `path` below `t`: at every level
the first child with the key, as the row loop of the static `addFrame` finds
it. -/
def find : FrameData → List FrameKey → Option FrameData
  | t, [] => some t
  | t, k :: ks =>
    match findKey k t.children with
    | some i =>
      match t.children.get? i with
      | some c => find c ks
      | none => none
    | none => none

/-- The `inclusiveCost` of the node at the end of a path of keys, 0 when the
tree has no such node. -/
def inclusiveAt (t : FrameData) (path : List FrameKey) : Nat :=
  match t.find path with
  | some n => n.inclusiveCost
  | none => 0

/-- The `selfCost` of the node at the end of a path of keys, 0 when the tree
has no such node. -/
def selfAt (t : FrameData) (path : List FrameKey) : Nat :=
  match t.find path with
  | some n => n.selfCost
  | none => 0

end FrameData

/-- The keys of the nodes that the loop of `addFrame(FrameData* parent, qint32
id)` visits, in the order of the visits: the loop without the tree. -/
def visitedKeys (d : PerfParserPrivate) : Nat → Int → Bool → Option (List FrameKey)
  | 0, _, _ => none
  | fuel + 1, id, skipNextFrame =>
    if id = -1 then some []
    else
      let location := value d.locations id
      if skipNextFrame then visitedKeys d fuel location.parentLocationId false
      else
        let symbol := value d.symbols id
        let symbol' := if !symbol.isValid then value d.symbols location.parentLocationId
          else symbol
        (visitedKeys d fuel location.parentLocationId (!symbol.isValid)).map
          (fun ks => ⟨symbol'.symbol, symbol'.binary, location.location, location.address⟩ :: ks)

/-- The keys of the nodes that the `for` loop of `addSampleToBottomUp` visits
for the frame list `ids`, in the order of the visits. -/
def sampleKeys (d : PerfParserPrivate) : List Int → Option (List FrameKey)
  | [] => some []
  | id :: ids =>
    match visitedKeys d (d.locations.length + 2) id false with
    | none => none
    | some ks => (sampleKeys d ids).map (fun rest => ks ++ rest)

mutual
/-- The walks of the static `buildTopDownResult` for the leaves below and
including a row: for every leaf the keys of the leaf and of its parents,
nearest first, with the `inclusiveCost` of the leaf. -/
def leafPaths (ancestors : List FrameKey) : FrameData → List (List FrameKey × Nat)
  | .mk s b l a _ ic [] => [(⟨s, b, l, a⟩ :: ancestors, ic)]
  | .mk s b l a _ _ (c :: cs) => leafPathsRows (⟨s, b, l, a⟩ :: ancestors) (c :: cs)
/-- The walks of the static `buildTopDownResult` for the leaves of a list of
rows. -/
def leafPathsRows (ancestors : List FrameKey) : List FrameData → List (List FrameKey × Nat)
  | [] => []
  | row :: rows => leafPaths ancestors row ++ leafPathsRows ancestors rows
end

namespace FrameData

/-- The child of `t` that the row loop of the static `addFrame` finds for `k`. -/
def childAt (t : FrameData) (k : FrameKey) : Option FrameData :=
  (findKey k t.children).bind (fun i => t.children.get? i)

/-- One of the two costs of a node: `inclusiveCost` for `true`, `selfCost` for
`false`. -/
def costOf (b : Bool) (t : FrameData) : Nat := if b then t.inclusiveCost else t.selfCost

/-- The cost at the end of a path of keys, 0 when the tree has no such node. -/
def costAt (b : Bool) (t : FrameData) (path : List FrameKey) : Nat :=
  match t.find path with
  | some n => costOf b n
  | none => 0

end FrameData

/-- A registry of two locations without parents: 0 is `foo`, 1 is `main`. -/
def twoRoots : PerfParserPrivate :=
  { locations := [{ parentLocationId := -1, address := "f" },
                  { parentLocationId := -1, address := "m" }],
    symbols := [{ symbol := "foo" }, { symbol := "main" }] }

namespace FrameData

mutual
/-- No two children of one node share the identity key, for the node `t` and
all nodes below it. -/
def distinctKeys : FrameData → Bool
  | .mk _ _ _ _ _ _ cs => decide ((cs.map key).Nodup) && distinctKeysRows cs
/-- The invariant `distinctKeys` for every row of a list. -/
def distinctKeysRows : List FrameData → Bool
  | [] => true
  | c :: cs => distinctKeys c && distinctKeysRows cs
end

end FrameData

/-- The tree after the walks `walks` in turn: each is a path of keys with the
cost that is added to `inclusiveCost` along it, and adds 1 to the `selfCost` of
its first node. -/
def insertPaths (walks : List (List FrameKey × Nat)) (topDownData : FrameData) : FrameData :=
  walks.foldl (fun t w => FrameData.insertPath w.2 1 w.1 t) topDownData

/-- The sum of the costs of the walks that pass through `path`, that is, of
which `path` is a prefix. -/
def passingCost (walks : List (List FrameKey × Nat)) (path : List FrameKey) : Nat :=
  ((walks.filter (fun w => path <+: w.1)).map (fun w => w.2)).sum

/-- The number of the walks of which `path` is the first key alone. -/
def startingAt (walks : List (List FrameKey × Nat)) (path : List FrameKey) : Nat :=
  (walks.filter (fun w => decide (w.1 ≠ []) && decide (path = w.1.take 1))).length

/-- The keys of the nodes on the path `p` below `t`, the nearest to `t` first. -/
def keyPath : FrameData → List Nat → List FrameKey
  | _, [] => []
  | t, i :: p =>
    match t.children.get? i with
    | some c => c.key :: keyPath c p
    | none => []

/-- A registry with the call chain `main` → `foo`: location 0 is `foo`, its
parent, location 1, is `main`. -/
def callChain : PerfParserPrivate :=
  { locations := [{ parentLocationId := 1, address := "f" },
                  { parentLocationId := -1, address := "m" }],
    symbols := [{ symbol := "foo" }, { symbol := "main" }] }

/-- A decoder with a bottom-up tree of three samples of `foo`: two called from
`main`, one from `start`. -/
def mirrorExample : PerfParserPrivate :=
  { bottomUpResult := .mk "" "" "" "" 0 3
      [.mk "foo" "" "" "f" 3 3 [.mk "main" "" "" "m" 0 2 [], .mk "start" "" "" "s" 0 1 []]] }

/-- The pair of symbol and binary by which the caller-callee table is keyed. -/
def FrameData.pair (c : FrameData) : CallerCalleeLocation := ⟨c.symbol, c.binary⟩

/-- The sum of a cost (`inclusiveCost` for `true`, `selfCost` for `false`) over
the rows with the pair `needle`. -/
def costOfPair (b : Bool) (rows : List FrameData) (needle : CallerCalleeLocation) : Nat :=
  ((rows.filter (fun c => decide (c.pair = needle))).map (FrameData.costOf b)).sum

/-- The `inclusiveCost` that the caller-callee table `t` has for the pair
`needle`: the sum over its entries with that pair. -/
def callerCalleeCost (t : FrameData) (needle : CallerCalleeLocation) : Nat :=
  costOfPair true t.children needle

/-- The `selfCost` that the caller-callee table `t` has for the pair `needle`:
the sum over its entries with that pair. -/
def callerCalleeSelfCost (t : FrameData) (needle : CallerCalleeLocation) : Nat :=
  costOfPair false t.children needle

/-- A registry with the recursive call chain `A` → `A` → `B`: location 0 is
`B`, its parent 1 is `A`, whose parent 2 is `A` again. -/
def recursiveChain : PerfParserPrivate :=
  { locations := [{ parentLocationId := 1, address := "b" },
                  { parentLocationId := 2, address := "a1" },
                  { parentLocationId := -1, address := "a2" }],
    symbols := [{ symbol := "B" }, { symbol := "A" }, { symbol := "A" }] }

/-- A registry with the call chain `A` → `B` → `A`: location 0 is `A`, its
parent 1 is `B`, whose parent 2 is `A`. -/
def recursiveSelf : PerfParserPrivate :=
  { locations := [{ parentLocationId := 1, address := "a1" },
                  { parentLocationId := 2, address := "b" },
                  { parentLocationId := -1, address := "a2" }],
    symbols := [{ symbol := "A" }, { symbol := "B" }, { symbol := "A" }] }

/-- A registry with a symbol-less location 0, labelled `entry.S:1` at address
`t`, whose parent, location 1, is `foo` with the label `foo.c:10` at address
`f`. -/
def trampolineLabels : PerfParserPrivate :=
  { locations := [{ parentLocationId := 1, location := "entry.S:1", address := "t" },
                  { parentLocationId := -1, location := "foo.c:10", address := "f" }],
    symbols := [{}, { symbol := "foo", binary := "app" }] }

/-- A call of one of the three functions that fill the registries. -/
inductive RegistryCall where
  | string (definition : StringDefinition)
  | location (definition : LocationDefinition)
  | symbol (definition : SymbolDefinition)

/-- The decoder after a call. -/
def RegistryCall.apply (d : PerfParserPrivate) : RegistryCall → PerfParserPrivate
  | .string definition => d.addString definition
  | .location definition => d.addLocation definition
  | .symbol definition => d.addSymbol definition

/-- The id precondition of a call: the `Q_ASSERT`s of the function; for a
symbol the index that `QVector::operator[]` needs is not negative either. -/
def RegistryCall.ok (d : PerfParserPrivate) : RegistryCall → Bool
  | .string definition => d.addStringAssert definition
  | .location definition => d.addLocationAssert definition
  | .symbol definition => d.addSymbolAssert definition && decide (0 ≤ definition.id)

/-- The decoder after a sequence of calls. -/
def applyCalls (d : PerfParserPrivate) : List RegistryCall → PerfParserPrivate
  | [] => d
  | call :: calls => applyCalls (call.apply d) calls

/-- Every call of a sequence satisfies its id precondition when it is made. -/
def callsOk (d : PerfParserPrivate) : List RegistryCall → Bool
  | [] => true
  | call :: calls => call.ok d && callsOk (call.apply d) calls

namespace FrameData

mutual
/-- The test `P` holds of the node `t` and of every node below it. -/
def allNodes (P : FrameData → Bool) : FrameData → Bool
  | .mk s b l a sc ic cs => P (.mk s b l a sc ic cs) && allNodesRows P cs
/-- The test `P` holds of every row of a list and of every node below them. -/
def allNodesRows (P : FrameData → Bool) : List FrameData → Bool
  | [] => true
  | c :: cs => allNodes P c && allNodesRows P cs
end

/-- The `inclusiveCost` of a node is at least the sum over its children. -/
def dominates (t : FrameData) : Bool :=
  decide ((t.children.map inclusiveCost).sum ≤ t.inclusiveCost)

/-- The `selfCost` of a node is 0. -/
def selfFree (t : FrameData) : Bool := decide (t.selfCost = 0)

/-- The shape of the self costs of the bottom-up tree: below the root, self
cost equals inclusive cost; further down it is 0. -/
def selfShape (t : FrameData) : Prop :=
  ∀ c ∈ t.children, c.selfCost = c.inclusiveCost ∧ ∀ g ∈ c.children, allNodes selfFree g = true

end FrameData

/-- The length of the parent chain of `id`: the number of ids that the loop of
`addFrame(FrameData* parent, qint32 id)` meets before it meets `-1`; `none`
when that takes more than `fuel` steps. -/
def chainLength (d : PerfParserPrivate) : Nat → Int → Option Nat
  | 0, _ => none
  | fuel + 1, id =>
    if id = -1 then some 0 else (chainLength d fuel (parentOf d id)).map (fun n => n + 1)

/-- A registry whose location 0 is its own parent. -/
def selfParent : PerfParserPrivate :=
  { locations := [{ parentLocationId := 0, address := "f" }],
    symbols := [{ symbol := "f" }] }

/-- A registry with the call chain `main` → `foo` in which the parent has the
smaller id: location 0 is `main`, location 1 is `foo` with the parent 0. -/
def orderedChain : PerfParserPrivate :=
  { locations := [{ parentLocationId := -1, address := "m" },
                  { parentLocationId := 0, address := "f" }],
    symbols := [{ symbol := "main" }, { symbol := "foo" }] }

/-- The rows are strictly increasing in the order of
`CallerCalleeLocation::operator<` on their pairs of symbol and binary. -/
def strictlySorted (rows : List FrameData) : Prop :=
  (rows.map FrameData.pair).Pairwise (fun a b => CallerCalleeLocation.lt a b = true)

instance (rows : List FrameData) : Decidable (strictlySorted rows) := by
  unfold strictlySorted
  infer_instance

namespace FrameData

mutual
/-- The number of nodes with an empty symbol and an empty binary among the
node `t` and the nodes below it. -/
def emptyNodes : FrameData → Nat
  | .mk s b _ _ _ _ cs => (if s = "" ∧ b = "" then 1 else 0) + emptyNodesRows cs
/-- The number of nodes with an empty symbol and an empty binary among the rows
of a list and the nodes below them. -/
def emptyNodesRows : List FrameData → Nat
  | [] => 0
  | c :: cs => emptyNodes c + emptyNodesRows cs
end

end FrameData

/-- A registry with two symbol-less locations in a row: location 0 (address
`c`) has the parent 1 (address `t`), whose parent 2 (address `f`) is `foo`. -/
def doubleTrampoline : PerfParserPrivate :=
  { locations := [{ parentLocationId := 1, address := "c" },
                  { parentLocationId := 2, address := "t" },
                  { parentLocationId := -1, address := "f" }],
    symbols := [{}, {}, { symbol := "foo" }] }

/-! # Properties -/

/-! ## The frame decoder -/

theorem tryParse_of_error (d : PerfParserPrivate) (h : d.state = State.PARSE_ERROR) :
    d.tryParse = some (false, d) := by
  simp [PerfParserPrivate.tryParse, h]

theorem readyRead_of_error (fuel : Nat) (d : PerfParserPrivate)
    (h : d.state = State.PARSE_ERROR) : readyRead (fuel + 1) d = some d := by
  simp [readyRead, tryParse_of_error d h]

theorem feed_of_error (fuel : Nat) (chunks : List (List Byte)) :
    ∀ d : PerfParserPrivate, d.state = State.PARSE_ERROR →
      feed (fuel + 1) d chunks = some { d with process := d.process ++ chunks.flatten } := by
  induction chunks with
  | nil => intro d _; simp [feed]
  | cons c cs ih =>
    intro d h
    have h1 : (received d c).state = State.PARSE_ERROR := h
    rw [feed, readyRead_of_error fuel _ h1]
    simp only []
    rw [ih _ h1]
    simp [received, List.append_assoc]

/-- The C string at the start of a memory area is `m`, a sequence without a
zero byte, exactly when the area is `m` or `m` followed by a zero byte. -/
theorem cString_eq_iff (m : List Byte) (hm : ∀ b ∈ m, b ≠ 0) :
    ∀ l : List Byte,
      PerfParserPrivate.cString l = m ↔ (l = m ∨ ∃ rest, l = m ++ 0 :: rest) := by
  induction m with
  | nil =>
    intro l
    cases l with
    | nil => simp [PerfParserPrivate.cString]
    | cons b bs =>
      by_cases hb : b = 0
      · subst hb; simp [PerfParserPrivate.cString]
      · simp [PerfParserPrivate.cString, hb]
  | cons a m ih =>
    intro l
    have ha : a ≠ 0 := hm a (List.mem_cons_self _ _)
    have ih' := ih (fun b hb => hm b (List.mem_cons_of_mem _ hb))
    cases l with
    | nil => simp [PerfParserPrivate.cString]
    | cons b bs =>
      by_cases hb : b = 0
      · subst hb
        simp [PerfParserPrivate.cString, Ne.symm ha]
      · have := ih' bs
        simp only [PerfParserPrivate.cString] at this ⊢
        simp only [List.takeWhile_cons, hb, ne_eq, not_false_eq_true, decide_True, ite_true,
          List.cons.injEq, List.cons_append]
        constructor
        · rintro ⟨rfl, h2⟩
          rcases this.mp h2 with h3 | ⟨rest, h3⟩
          · left; exact ⟨rfl, h3⟩
          · right; exact ⟨rest, rfl, h3⟩
        · rintro (⟨rfl, h3⟩ | ⟨rest, rfl, h3⟩)
          · exact ⟨rfl, this.mpr (Or.inl h3)⟩
          · exact ⟨rfl, this.mpr (Or.inr ⟨rest, h3⟩)⟩

/-- Twelve bytes read to the start of the buffer memory compare equal to the
magic exactly when they are the magic and a zero byte. -/
theorem cString_header (bs mem : List Byte) (h : bs.length = 12) :
    PerfParserPrivate.cString (bs ++ mem) = PerfParserPrivate.magic ↔
      bs = PerfParserPrivate.magic ++ [0] := by
  have hz : ∀ b ∈ PerfParserPrivate.magic, b ≠ 0 := by
    intro b hb
    simp only [PerfParserPrivate.magic, List.mem_cons, List.mem_singleton, List.not_mem_nil,
      or_false] at hb
    rcases hb with rfl | rfl | rfl | rfl | rfl | rfl | rfl | rfl | rfl | rfl | rfl <;> decide
  rw [cString_eq_iff PerfParserPrivate.magic hz]
  constructor
  · rintro (h1 | ⟨rest, h1⟩)
    · have := congrArg List.length h1
      simp [PerfParserPrivate.magic, h] at this
      omega
    · have h2 := congrArg (List.take 12) h1
      rw [List.take_left' h] at h2
      rw [h2]
      simp [PerfParserPrivate.magic]
  · intro h1
    right
    exact ⟨mem, by rw [h1]; simp⟩

/-- C4: in state HEADER with at least 12 bytes buffered `tryParse` consumes
exactly 12 bytes; when they are "QPERFSTREAM" and a zero byte it moves to
DATA_STREAM_VERSION and reports progress, for every other 12 bytes it moves to
PARSE_ERROR and reports no progress. With fewer than 12 bytes buffered it
consumes nothing, stays in HEADER and reports no progress. -/
theorem tryParse_header (d : PerfParserPrivate) (h : d.state = State.HEADER) :
    (12 ≤ d.process.length →
      ∃ r, d.tryParse = some r ∧ r.2.process = d.process.drop 12 ∧
        (d.process.take 12 = PerfParserPrivate.magic ++ [0] →
          r.1 = true ∧ r.2.state = State.DATA_STREAM_VERSION) ∧
        (d.process.take 12 ≠ PerfParserPrivate.magic ++ [0] →
          r.1 = false ∧ r.2.state = State.PARSE_ERROR)) ∧
    (d.process.length < 12 → d.tryParse = some (false, d) ∧ d.state = State.HEADER) := by
  constructor
  · intro hlen
    have hl : (d.process.take 12).length = 12 := by simp [List.length_take, hlen]
    have hmin : min 12 d.process.length = 12 := Nat.min_eq_left hlen
    have hc := cString_header (d.process.take 12) (d.buffer.drop 12) hl
    have hge : d.process.length ≥ PerfParserPrivate.magic.length + 1 := by
      simpa [PerfParserPrivate.magic] using hlen
    by_cases hm : d.process.take 12 = PerfParserPrivate.magic ++ [0]
    · refine ⟨(true, { PerfParserPrivate.processRead d 12 with
          state := State.DATA_STREAM_VERSION }), ?_, rfl, fun _ => ⟨rfl, rfl⟩,
          fun h' => absurd hm h'⟩
      have hc' := hc.mpr hm
      simp only [PerfParserPrivate.tryParse, h, hge, if_true]
      have : PerfParserPrivate.magic.length + 1 = 12 := by decide
      rw [this]
      simp [PerfParserPrivate.processRead, hc', hmin]
    · refine ⟨(false, { PerfParserPrivate.processRead d 12 with
          state := State.PARSE_ERROR }), ?_, rfl, fun h' => absurd h' hm,
          fun _ => ⟨rfl, rfl⟩⟩
      have hc' : PerfParserPrivate.cString (d.process.take 12 ++ d.buffer.drop 12) ≠
          PerfParserPrivate.magic := fun h' => hm (hc.mp h')
      simp only [PerfParserPrivate.tryParse, h, hge, if_true]
      have : PerfParserPrivate.magic.length + 1 = 12 := by decide
      rw [this]
      simp [PerfParserPrivate.processRead, hc', hmin]
  · intro hlen
    refine ⟨?_, h⟩
    have hge : ¬ d.process.length ≥ PerfParserPrivate.magic.length + 1 := by
      simp [PerfParserPrivate.magic]; omega
    simp only [PerfParserPrivate.tryParse, h, hge, if_false]

theorem tryParse_header_witness :
    ({ process := PerfParserPrivate.magic ++ [0] } : PerfParserPrivate).state = State.HEADER ∧
    ∃ r, ({ process := PerfParserPrivate.magic ++ [0] } : PerfParserPrivate).tryParse = some r ∧
      r.1 = true ∧ r.2.state = State.DATA_STREAM_VERSION ∧ r.2.process = [] := by
  refine ⟨rfl, ?_⟩
  obtain ⟨r, h1, h2, h3, _⟩ :=
    (tryParse_header { process := PerfParserPrivate.magic ++ [0] } rfl).1 (by decide)
  exact ⟨r, h1, (h3 rfl).1, (h3 rfl).2, h2⟩

/-- C5: PARSE_ERROR is absorbing. In that state `tryParse` reports no progress
and returns the decoder as it was, bytes, registries, trees and summary
included; the `readyRead` loop ends at once; and whatever chunks arrive, after
the handler has run on each of them the decoder differs from the one at the
start only by the unread bytes that have piled up. -/
theorem tryParse_error_absorbing (d : PerfParserPrivate) (h : d.state = State.PARSE_ERROR) :
    d.tryParse = some (false, d) ∧
    (∀ fuel, readyRead (fuel + 1) d = some d) ∧
    (∀ fuel chunks, feed (fuel + 1) d chunks =
      some { d with process := d.process ++ chunks.flatten }) ∧
    (∀ fuel chunks d', feed (fuel + 1) d chunks = some d' → d'.state = State.PARSE_ERROR) := by
  refine ⟨tryParse_of_error d h, fun fuel => readyRead_of_error fuel d h,
    fun fuel chunks => feed_of_error fuel chunks d h, ?_⟩
  intro fuel chunks d' h'
  rw [feed_of_error fuel chunks d h] at h'
  cases h'
  exact h

theorem tryParse_error_absorbing_witness :
    ({ state := State.PARSE_ERROR, process := [1, 2, 3] } : PerfParserPrivate).state
        = State.PARSE_ERROR ∧
    feed 1 { state := State.PARSE_ERROR, process := [1, 2, 3] } [[4], [5, 6]] =
      some { state := State.PARSE_ERROR, process := [1, 2, 3, 4, 5, 6] } :=
  ⟨rfl, (tryParse_error_absorbing
    { state := State.PARSE_ERROR, process := [1, 2, 3] } rfl).2.2.1 0 [[4], [5, 6]]⟩

/-- In EVENT_HEADER the transition fires exactly when the number of buffered
bytes reaches `eventSize`, the length of the frame before. -/
theorem tryParse_event_header (d : PerfParserPrivate) (h : d.state = State.EVENT_HEADER) :
    (d.eventSize ≤ d.process.length →
      d.tryParse = some (true, { PerfParserPrivate.processRead d 4 with
        eventSize := fromLittleEndian ((PerfParserPrivate.processRead d 4).buffer.take 4),
        state := State.EVENT })) ∧
    (d.process.length < d.eventSize → d.tryParse = some (false, d)) := by
  constructor
  · intro hlen
    have : d.process.length ≥ d.eventSize := hlen
    simp only [PerfParserPrivate.tryParse, h, this, if_true]
  · intro hlen
    have : ¬ d.process.length ≥ d.eventSize := by omega
    simp only [PerfParserPrivate.tryParse, h, this, if_false]

/-- C7, the code at the failing input: the stream starts with the magic and the
version 17, and the first chunk ends two bytes into the length of the first
frame. With two bytes buffered in EVENT_HEADER the loop reads them, forms the
length from them and from what the buffer held before, and waits in EVENT for
the frame: nothing is buffered any more. -/
theorem tryParse_event_header_short_read :
    (feed 10 {} [[81, 80, 69, 82, 70, 83, 84, 82, 69, 65, 77, 0, 17, 0, 0, 0, 30, 0]]).map
      (fun d => (d.state, d.eventSize, d.process)) = some (State.EVENT, 30, []) ∧
    (({ state := State.EVENT_HEADER, eventSize := 0, process := [30, 0] } :
      PerfParserPrivate).tryParse).map (fun r => (r.1, r.2.state, r.2.process)) =
        some (true, State.EVENT, []) := by
  constructor <;> decide

/-- C8, the code at the failing input: one chunk holds the magic, the version,
a StringDefinition frame of 29 bytes and a LostDefinition frame of 17 bytes.
The loop stops in EVENT_HEADER with the whole second frame, 21 bytes, still
buffered and not dispatched: the count of lost chunks is 0. -/
theorem readyRead_leaves_complete_frame :
    (feed 10 {} [[81, 80, 69, 82, 70, 83, 84, 82, 69, 65, 77, 0, 17, 0, 0, 0,
        29, 0, 0, 0, 7, 0, 0, 0, 0, 0, 0, 0, 20, 97, 97, 97, 97, 97, 97, 97, 97, 97, 97,
        97, 97, 97, 97, 97, 97, 97, 97, 97, 97,
        17, 0, 0, 0, 8, 0, 0, 0, 1, 0, 0, 0, 1, 0, 0, 0, 0, 0, 0, 0, 100]]).map
      (fun d => (d.state, d.eventSize, d.process, d.summaryResult.lostChunks)) =
    some (State.EVENT_HEADER, 29,
      [17, 0, 0, 0, 8, 0, 0, 0, 1, 0, 0, 0, 1, 0, 0, 0, 0, 0, 0, 0, 100], 0) := by
  decide

/-! ## Registry ids -/

/-- C2, the code at the failing input: after the magic and the version come
`StringDefinition{id=5, "main"}` and `LocationDefinition{id=3}` while both
tables are empty. Both assertions are false there, both tables are extended,
the decoder stays out of PARSE_ERROR and the results are published on exit
code 0. -/
theorem definitions_with_wrong_id_appended :
    PerfParserPrivate.addStringAssert {} { id := 5, string := [109, 97, 105, 110] } = false ∧
    PerfParserPrivate.addLocationAssert {} { id := 3 } = false ∧
    (feed 10 {} [[81, 80, 69, 82, 70, 83, 84, 82, 69, 65, 77, 0, 17, 0, 0, 0,
        13, 0, 0, 0, 7, 0, 0, 0, 5, 0, 0, 0, 4, 109, 97, 105, 110,
        33, 0, 0, 0, 4, 0, 0, 0, 3, 0, 0, 0, 0, 0, 0, 4, 0, 255, 255, 255, 255,
        0, 0, 0, 1, 255, 255, 255, 255, 0, 0, 0, 0, 255, 255, 255, 255]]).map
      (fun d => (d.state, d.strings, d.locations.length, d.symbols.length,
        publishesResults (finished d EXIT_SUCCESS))) =
    some (State.EVENT_HEADER, ["main"], 1, 1, true) := by
  refine ⟨by decide, by decide, by decide⟩

/-! ## Completion -/

/-- C1, counterexample: twelve bytes that are not the magic put the decoder in
PARSE_ERROR, and on exit code 0 the handler still publishes the four results,
the trees among them. -/
theorem finished_publishes_after_bad_magic :
    (feed 3 {} [List.replicate 12 88]).map
      (fun d => (d.state, publishesResults (finished d EXIT_SUCCESS),
        publishesTree (finished d EXIT_SUCCESS))) =
    some (State.PARSE_ERROR, true, true) := by
  decide

/-- C1, amended: the completion handler publishes the four results exactly
when the exit code is `EXIT_SUCCESS`, whatever state the decoder is in; on
every other exit code it emits `parsingFailed` alone and no tree. -/
theorem finished_publishes_iff (d : PerfParserPrivate) (exitCode : Int) :
    (publishesResults (finished d exitCode) = true ↔ exitCode = EXIT_SUCCESS) ∧
    (publishesTree (finished d exitCode) = true ↔ exitCode = EXIT_SUCCESS) ∧
    (exitCode ≠ EXIT_SUCCESS → ∃ msg, finished d exitCode = [Signal.parsingFailed msg]) := by
  by_cases h : exitCode = EXIT_SUCCESS
  · simp [finished, h, publishesResults, publishesTree]
  · simp [finished, h, publishesResults, publishesTree]

/-! ## The event codec -/

theorem readBlock_length (len : Nat) (s : QDataStream) :
    (readBlock len s).2.dev.length ≤ s.dev.length := by
  unfold readBlock
  split_ifs
  · simp
  · simp [QDataStream.setStatus]; split_ifs <;> simp

theorem readBlock_ok (len : Nat) (s : QDataStream)
    (h : (readBlock len s).2.status = Status.Ok) :
    s.status = Status.Ok ∧ len ≤ s.dev.length ∧
      ∀ e, readBlock len (s.app e) = ((readBlock len s).1, (readBlock len s).2.app e) := by
  unfold readBlock at h ⊢
  by_cases hl : len ≤ s.dev.length
  · simp only [hl, if_true] at h ⊢
    refine ⟨h, trivial, fun e => ?_⟩
    have hl' : len ≤ (s.app e).dev.length := by
      simp [QDataStream.app]; omega
    simp only [hl', if_true]
    simp [QDataStream.app, List.take_append_of_le_length hl, List.drop_append_of_le_length hl]
  · exfalso
    rw [if_neg hl] at h
    by_cases h1 : s.status = Status.Ok
    · simp [QDataStream.setStatus, h1] at h
    · have h2 : (({ s with dev := [] } : QDataStream).setStatus Status.ReadPastEnd).status =
          s.status := by simp [QDataStream.setStatus, h1]
      have h' : (({ s with dev := [] } : QDataStream).setStatus Status.ReadPastEnd).status =
          Status.Ok := h
      rw [h2] at h'
      exact h1 h'

theorem reads_readUInt (len : Nat) : Reads (readUInt len) := by
  intro s
  constructor
  · have := readBlock_length len s
    unfold readUInt
    split <;> rename_i heq <;> rw [heq] at this <;> exact this
  · intro h
    have hb : (readBlock len s).2.status = Status.Ok := by
      unfold readUInt at h
      split at h <;> rename_i heq <;> rw [heq] <;> exact h
    obtain ⟨h1, _, h3⟩ := readBlock_ok len s hb
    refine ⟨h1, fun e => ?_⟩
    unfold readUInt
    rw [h3 e]
    cases hr : readBlock len s with
    | mk o s' => cases o <;> rfl

theorem Reads.map {α β : Type} {R : QDataStream → α × QDataStream} (h : Reads R)
    (g : α → β) : Reads (fun s => (g (R s).1, (R s).2)) := by
  intro s
  refine ⟨(h s).1, fun hs => ⟨((h s).2 hs).1, fun e => ?_⟩⟩
  simp only [((h s).2 hs).2 e]

theorem Reads.seq {α β γ : Type} {R1 : QDataStream → α × QDataStream}
    {R2 : QDataStream → β × QDataStream} (h1 : Reads R1) (h2 : Reads R2) (f : α → β → γ) :
    Reads (fun s => (f (R1 s).1 (R2 (R1 s).2).1, (R2 (R1 s).2).2)) := by
  intro s
  refine ⟨le_trans (h2 _).1 (h1 s).1, fun hs => ?_⟩
  obtain ⟨hs1, e2⟩ := (h2 _).2 hs
  obtain ⟨hs0, e1⟩ := (h1 s).2 hs1
  refine ⟨hs0, fun e => ?_⟩
  simp only [e1 e, e2 e]

theorem reads_readUInt8 : Reads readUInt8 := reads_readUInt 1
theorem reads_readUInt32 : Reads readUInt32 := reads_readUInt 4
theorem reads_readUInt64 : Reads readUInt64 := by
  intro s
  by_cases hv : s.version < 6
  · have a1 := reads_readUInt32 s
    have a2 := reads_readUInt32 (readUInt32 s).2
    refine ⟨by simp only [readUInt64, hv, if_true]; exact le_trans a2.1 a1.1, fun h => ?_⟩
    simp only [readUInt64, hv, if_true] at h
    obtain ⟨h1, e2⟩ := a2.2 h
    obtain ⟨h0, e1⟩ := a1.2 h1
    refine ⟨h0, fun e => ?_⟩
    have hv' : (s.app e).version < 6 := hv
    simp only [readUInt64, hv, hv', if_true, e1 e, e2 e]
  · have a1 := reads_readUInt 8 s
    refine ⟨by simp only [readUInt64, hv, if_false]; exact a1.1, fun h => ?_⟩
    simp only [readUInt64, hv, if_false] at h
    obtain ⟨h0, e1⟩ := a1.2 h
    refine ⟨h0, fun e => ?_⟩
    have hv' : ¬ (s.app e).version < 6 := hv
    simp only [readUInt64, hv, hv', if_false, e1 e]
theorem reads_readInt8 : Reads readInt8 := (reads_readUInt 1).map (toSigned 8)
theorem reads_readInt32 : Reads readInt32 := (reads_readUInt 4).map (toSigned 32)
theorem reads_readBool : Reads readBool := reads_readInt8.map (fun v => v != 0)

theorem reads_readByteArray : Reads readByteArray := by
  intro s
  have hu := reads_readUInt32 s
  constructor
  · unfold readByteArray
    simp only []
    split_ifs
    · exact hu.1
    · have := readBlock_length (readUInt32 s).1 (readUInt32 s).2
      split <;> rename_i heq <;> rw [heq] at this <;> exact le_trans this hu.1
  · intro h
    unfold readByteArray at h ⊢
    simp only [] at h ⊢
    by_cases hn : (readUInt32 s).1 = 0xffffffff
    · simp only [hn, if_true] at h ⊢
      obtain ⟨h0, e1⟩ := hu.2 h
      refine ⟨h0, fun e => ?_⟩
      simp only [e1 e, hn, if_true]
    · simp only [hn, if_false] at h ⊢
      have hb : (readBlock (readUInt32 s).1 (readUInt32 s).2).2.status = Status.Ok := by
        split at h <;> rename_i heq <;> rw [heq] <;> exact h
      obtain ⟨h1, _, h3⟩ := readBlock_ok _ _ hb
      obtain ⟨h0, e1⟩ := hu.2 h1
      refine ⟨h0, fun e => ?_⟩
      simp only [e1 e, hn, if_false, h3 e]
      cases hr : readBlock (readUInt32 s).1 (readUInt32 s).2 with
      | mk o s' => cases o <;> rfl

theorem readElements_length {α : Type} {R : QDataStream → α × QDataStream} (hR : Reads R) :
    ∀ n acc s, (readElements R n acc s).2.dev.length ≤ s.dev.length := by
  intro n
  induction n with
  | zero => intro acc s; simp [readElements]
  | succ n ih =>
    intro acc s
    simp only [readElements]
    split_ifs
    · exact (hR s).1
    · exact le_trans (ih _ _) (hR s).1

theorem readElements_ok {α : Type} {R : QDataStream → α × QDataStream} (hR : Reads R) :
    ∀ n acc s, (readElements R n acc s).2.status = Status.Ok →
      s.status = Status.Ok ∧
        ∀ e, readElements R n acc (s.app e) =
          ((readElements R n acc s).1, (readElements R n acc s).2.app e) := by
  intro n
  induction n with
  | zero => intro acc s h; exact ⟨h, fun e => rfl⟩
  | succ n ih =>
    intro acc s h
    simp only [readElements] at h ⊢
    by_cases hs : (R s).2.status = Status.Ok
    · simp only [hs, ne_eq, not_true_eq_false, if_false] at h ⊢
      obtain ⟨_, e2⟩ := ih _ _ h
      obtain ⟨h0, e1⟩ := (hR s).2 hs
      refine ⟨h0, fun e => ?_⟩
      rw [e1 e]
      have hse : ((R s).2.app e).status = Status.Ok := hs
      simp only [hse, ne_eq, not_true_eq_false, if_false]
      exact e2 e
    · rw [if_pos hs] at h
      exact absurd h hs

theorem reads_readContainer {α : Type} {R : QDataStream → α × QDataStream} (hR : Reads R) :
    Reads (readContainer R) := by
  intro s
  constructor
  · unfold readContainer
    simp only []
    have h1 := (reads_readUInt32 { s with status := Status.Ok }).1
    have h2 := readElements_length hR (readUInt32 { s with status := Status.Ok }).1 []
      (readUInt32 { s with status := Status.Ok }).2
    split_ifs <;> exact le_trans h2 h1
  · intro h
    unfold readContainer at h ⊢
    simp only [] at h ⊢
    by_cases hs : s.status = Status.Ok
    · have hss : ({ s with status := Status.Ok } : QDataStream) = s := by
        cases s; simp_all
      simp only [hs, ne_eq, not_true_eq_false, if_false, hss] at h ⊢
      obtain ⟨h1, e2⟩ := readElements_ok hR _ _ _ h
      obtain ⟨_, e1⟩ := (reads_readUInt32 s).2 h1
      refine ⟨trivial, fun e => ?_⟩
      have hse : ({ s.app e with status := Status.Ok } : QDataStream) = s.app e := by
        cases s; simp_all [QDataStream.app]
      have hst : (s.app e).status = Status.Ok := hs
      simp only [hse, hst, ne_eq, not_true_eq_false, if_false, e1 e, e2 e]
    · rw [if_pos hs] at h
      exact absurd h hs

theorem reads_readRecord : Reads readRecord := by
  intro s
  have a1 := reads_readUInt32 s
  have a2 := reads_readUInt32 ((readUInt32 s).2)
  have a3 := reads_readUInt64 ((readUInt32 (readUInt32 s).2).2)
  refine ⟨by simp only [readRecord]; exact (le_trans a3.1 (le_trans a2.1 a1.1)), fun h => ?_⟩
  simp only [readRecord] at h
  obtain ⟨h2, e3⟩ := a3.2 h
  obtain ⟨h1, e2⟩ := a2.2 h2
  obtain ⟨h0, e1⟩ := a1.2 h1
  refine ⟨h0, fun e => ?_⟩
  simp only [readRecord, e1 e, e2 e, e3 e]

theorem reads_readStringId : Reads readStringId := by
  intro s
  have a1 := reads_readInt32 s
  refine ⟨by simp only [readStringId]; exact a1.1, fun h => ?_⟩
  simp only [readStringId] at h
  obtain ⟨h0, e1⟩ := a1.2 h
  refine ⟨h0, fun e => ?_⟩
  simp only [readStringId, e1 e]

theorem reads_readAttributesDefinition : Reads readAttributesDefinition := by
  intro s
  have a1 := reads_readInt32 s
  have a2 := reads_readUInt32 ((readInt32 s).2)
  have a3 := reads_readUInt64 ((readUInt32 (readInt32 s).2).2)
  have a4 := reads_readStringId ((readUInt64 (readUInt32 (readInt32 s).2).2).2)
  refine ⟨by simp only [readAttributesDefinition]; exact (le_trans a4.1 (le_trans a3.1 (le_trans
      a2.1 a1.1))), fun h => ?_⟩
  simp only [readAttributesDefinition] at h
  obtain ⟨h3, e4⟩ := a4.2 h
  obtain ⟨h2, e3⟩ := a3.2 h3
  obtain ⟨h1, e2⟩ := a2.2 h2
  obtain ⟨h0, e1⟩ := a1.2 h1
  refine ⟨h0, fun e => ?_⟩
  simp only [readAttributesDefinition, e1 e, e2 e, e3 e, e4 e]

theorem reads_readCommand : Reads readCommand := by
  intro s
  have a1 := reads_readRecord s
  have a2 := reads_readStringId ((readRecord s).2)
  refine ⟨by simp only [readCommand]; exact (le_trans a2.1 a1.1), fun h => ?_⟩
  simp only [readCommand] at h
  obtain ⟨h1, e2⟩ := a2.2 h
  obtain ⟨h0, e1⟩ := a1.2 h1
  refine ⟨h0, fun e => ?_⟩
  simp only [readCommand, e1 e, e2 e]

theorem reads_readThreadStart : Reads readThreadStart := by
  intro s
  have a1 := reads_readUInt32 s
  have a2 := reads_readUInt32 ((readUInt32 s).2)
  have a3 := reads_readUInt64 ((readUInt32 (readUInt32 s).2).2)
  refine ⟨by simp only [readThreadStart]; exact (le_trans a3.1 (le_trans a2.1 a1.1)), fun h => ?_⟩
  simp only [readThreadStart] at h
  obtain ⟨h2, e3⟩ := a3.2 h
  obtain ⟨h1, e2⟩ := a2.2 h2
  obtain ⟨h0, e1⟩ := a1.2 h1
  refine ⟨h0, fun e => ?_⟩
  simp only [readThreadStart, e1 e, e2 e, e3 e]

theorem reads_readThreadEnd : Reads readThreadEnd := by
  intro s
  have a1 := reads_readUInt32 s
  have a2 := reads_readUInt32 ((readUInt32 s).2)
  have a3 := reads_readUInt64 ((readUInt32 (readUInt32 s).2).2)
  refine ⟨by simp only [readThreadEnd]; exact (le_trans a3.1 (le_trans a2.1 a1.1)), fun h => ?_⟩
  simp only [readThreadEnd] at h
  obtain ⟨h2, e3⟩ := a3.2 h
  obtain ⟨h1, e2⟩ := a2.2 h2
  obtain ⟨h0, e1⟩ := a1.2 h1
  refine ⟨h0, fun e => ?_⟩
  simp only [readThreadEnd, e1 e, e2 e, e3 e]

theorem reads_readLocation : Reads readLocation := by
  intro s
  have a1 := reads_readUInt64 s
  have a2 := reads_readStringId ((readUInt64 s).2)
  have a3 := reads_readUInt32 ((readStringId (readUInt64 s).2).2)
  have a4 := reads_readInt32 ((readUInt32 (readStringId (readUInt64 s).2).2).2)
  have a5 := reads_readInt32 ((readInt32 (readUInt32 (readStringId (readUInt64 s).2).2).2).2)
  have a6 := reads_readInt32 ((readInt32 (readInt32 (readUInt32 (readStringId (readUInt64
      s).2).2).2).2).2)
  refine ⟨by simp only [readLocation]; exact (le_trans a6.1 (le_trans a5.1 (le_trans a4.1 (le_trans
      a3.1 (le_trans a2.1 a1.1))))), fun h => ?_⟩
  simp only [readLocation] at h
  obtain ⟨h5, e6⟩ := a6.2 h
  obtain ⟨h4, e5⟩ := a5.2 h5
  obtain ⟨h3, e4⟩ := a4.2 h4
  obtain ⟨h2, e3⟩ := a3.2 h3
  obtain ⟨h1, e2⟩ := a2.2 h2
  obtain ⟨h0, e1⟩ := a1.2 h1
  refine ⟨h0, fun e => ?_⟩
  simp only [readLocation, e1 e, e2 e, e3 e, e4 e, e5 e, e6 e]

theorem reads_readLocationDefinition : Reads readLocationDefinition := by
  intro s
  have a1 := reads_readInt32 s
  have a2 := reads_readLocation ((readInt32 s).2)
  refine ⟨by simp only [readLocationDefinition]; exact (le_trans a2.1 a1.1), fun h => ?_⟩
  simp only [readLocationDefinition] at h
  obtain ⟨h1, e2⟩ := a2.2 h
  obtain ⟨h0, e1⟩ := a1.2 h1
  refine ⟨h0, fun e => ?_⟩
  simp only [readLocationDefinition, e1 e, e2 e]

theorem reads_readSymbol : Reads readSymbol := by
  intro s
  have a1 := reads_readStringId s
  have a2 := reads_readStringId ((readStringId s).2)
  have a3 := reads_readBool ((readStringId (readStringId s).2).2)
  refine ⟨by simp only [readSymbol]; exact (le_trans a3.1 (le_trans a2.1 a1.1)), fun h => ?_⟩
  simp only [readSymbol] at h
  obtain ⟨h2, e3⟩ := a3.2 h
  obtain ⟨h1, e2⟩ := a2.2 h2
  obtain ⟨h0, e1⟩ := a1.2 h1
  refine ⟨h0, fun e => ?_⟩
  simp only [readSymbol, e1 e, e2 e, e3 e]

theorem reads_readSymbolDefinition : Reads readSymbolDefinition := by
  intro s
  have a1 := reads_readInt32 s
  have a2 := reads_readSymbol ((readInt32 s).2)
  refine ⟨by simp only [readSymbolDefinition]; exact (le_trans a2.1 a1.1), fun h => ?_⟩
  simp only [readSymbolDefinition] at h
  obtain ⟨h1, e2⟩ := a2.2 h
  obtain ⟨h0, e1⟩ := a1.2 h1
  refine ⟨h0, fun e => ?_⟩
  simp only [readSymbolDefinition, e1 e, e2 e]

theorem reads_readSample : Reads readSample := by
  intro s
  have a1 := reads_readRecord s
  have a2 := reads_readContainer reads_readInt32 ((readRecord s).2)
  have a3 := reads_readUInt8 ((readContainer readInt32 (readRecord s).2).2)
  have a4 := reads_readInt32 ((readUInt8 (readContainer readInt32 (readRecord s).2).2).2)
  refine ⟨by simp only [readSample]; exact (le_trans a4.1 (le_trans a3.1 (le_trans a2.1 a1.1))),
      fun h => ?_⟩
  simp only [readSample] at h
  obtain ⟨h3, e4⟩ := a4.2 h
  obtain ⟨h2, e3⟩ := a3.2 h3
  obtain ⟨h1, e2⟩ := a2.2 h2
  obtain ⟨h0, e1⟩ := a1.2 h1
  refine ⟨h0, fun e => ?_⟩
  simp only [readSample, e1 e, e2 e, e3 e, e4 e]

theorem reads_readStringDefinition : Reads readStringDefinition := by
  intro s
  have a1 := reads_readInt32 s
  have a2 := reads_readByteArray ((readInt32 s).2)
  refine ⟨by simp only [readStringDefinition]; exact (le_trans a2.1 a1.1), fun h => ?_⟩
  simp only [readStringDefinition] at h
  obtain ⟨h1, e2⟩ := a2.2 h
  obtain ⟨h0, e1⟩ := a1.2 h1
  refine ⟨h0, fun e => ?_⟩
  simp only [readStringDefinition, e1 e, e2 e]

theorem reads_readLostDefinition : Reads readLostDefinition := by
  intro s
  have a1 := reads_readRecord s
  refine ⟨by simp only [readLostDefinition]; exact a1.1, fun h => ?_⟩
  simp only [readLostDefinition] at h
  obtain ⟨h0, e1⟩ := a1.2 h
  refine ⟨h0, fun e => ?_⟩
  simp only [readLostDefinition, e1 e]

theorem reads_readBuildId : Reads readBuildId := by
  intro s
  have a1 := reads_readUInt32 s
  have a2 := reads_readByteArray ((readUInt32 s).2)
  have a3 := reads_readByteArray ((readByteArray (readUInt32 s).2).2)
  refine ⟨by simp only [readBuildId]; exact (le_trans a3.1 (le_trans a2.1 a1.1)), fun h => ?_⟩
  simp only [readBuildId] at h
  obtain ⟨h2, e3⟩ := a3.2 h
  obtain ⟨h1, e2⟩ := a2.2 h2
  obtain ⟨h0, e1⟩ := a1.2 h1
  refine ⟨h0, fun e => ?_⟩
  simp only [readBuildId, e1 e, e2 e, e3 e]

theorem reads_readNumaNode : Reads readNumaNode := by
  intro s
  have a1 := reads_readUInt32 s
  have a2 := reads_readUInt64 ((readUInt32 s).2)
  have a3 := reads_readUInt64 ((readUInt64 (readUInt32 s).2).2)
  have a4 := reads_readByteArray ((readUInt64 (readUInt64 (readUInt32 s).2).2).2)
  refine ⟨by simp only [readNumaNode]; exact (le_trans a4.1 (le_trans a3.1 (le_trans a2.1 a1.1))),
      fun h => ?_⟩
  simp only [readNumaNode] at h
  obtain ⟨h3, e4⟩ := a4.2 h
  obtain ⟨h2, e3⟩ := a3.2 h3
  obtain ⟨h1, e2⟩ := a2.2 h2
  obtain ⟨h0, e1⟩ := a1.2 h1
  refine ⟨h0, fun e => ?_⟩
  simp only [readNumaNode, e1 e, e2 e, e3 e, e4 e]

theorem reads_readPmu : Reads readPmu := by
  intro s
  have a1 := reads_readUInt32 s
  have a2 := reads_readByteArray ((readUInt32 s).2)
  refine ⟨by simp only [readPmu]; exact (le_trans a2.1 a1.1), fun h => ?_⟩
  simp only [readPmu] at h
  obtain ⟨h1, e2⟩ := a2.2 h
  obtain ⟨h0, e1⟩ := a1.2 h1
  refine ⟨h0, fun e => ?_⟩
  simp only [readPmu, e1 e, e2 e]

theorem reads_readGroupDesc : Reads readGroupDesc := by
  intro s
  have a1 := reads_readByteArray s
  have a2 := reads_readUInt32 ((readByteArray s).2)
  have a3 := reads_readUInt32 ((readUInt32 (readByteArray s).2).2)
  refine ⟨by simp only [readGroupDesc]; exact (le_trans a3.1 (le_trans a2.1 a1.1)), fun h => ?_⟩
  simp only [readGroupDesc] at h
  obtain ⟨h2, e3⟩ := a3.2 h
  obtain ⟨h1, e2⟩ := a2.2 h2
  obtain ⟨h0, e1⟩ := a1.2 h1
  refine ⟨h0, fun e => ?_⟩
  simp only [readGroupDesc, e1 e, e2 e, e3 e]

theorem reads_readFeaturesDefinition : Reads readFeaturesDefinition := by
  intro s
  have a1 := reads_readByteArray s
  have a2 := reads_readByteArray ((readByteArray s).2)
  have a3 := reads_readByteArray ((readByteArray (readByteArray s).2).2)
  have a4 := reads_readByteArray ((readByteArray (readByteArray (readByteArray s).2).2).2)
  have a5 := reads_readUInt32 ((readByteArray (readByteArray (readByteArray (readByteArray
      s).2).2).2).2)
  have a6 := reads_readUInt32 ((readUInt32 (readByteArray (readByteArray (readByteArray
      (readByteArray s).2).2).2).2).2)
  have a7 := reads_readByteArray ((readUInt32 (readUInt32 (readByteArray (readByteArray
      (readByteArray (readByteArray s).2).2).2).2).2).2)
  have a8 := reads_readByteArray ((readByteArray (readUInt32 (readUInt32 (readByteArray
      (readByteArray (readByteArray (readByteArray s).2).2).2).2).2).2).2)
  have a9 := reads_readUInt64 ((readByteArray (readByteArray (readUInt32 (readUInt32 (readByteArray
      (readByteArray (readByteArray (readByteArray s).2).2).2).2).2).2).2).2)
  have a10 := reads_readContainer reads_readByteArray ((readUInt64 (readByteArray (readByteArray
      (readUInt32 (readUInt32 (readByteArray (readByteArray (readByteArray (readByteArray
      s).2).2).2).2).2).2).2).2).2)
  have a11 := reads_readContainer reads_readBuildId ((readContainer readByteArray (readUInt64
      (readByteArray (readByteArray (readUInt32 (readUInt32 (readByteArray (readByteArray
      (readByteArray (readByteArray s).2).2).2).2).2).2).2).2).2).2)
  have a12 := reads_readContainer reads_readByteArray ((readContainer readBuildId (readContainer
      readByteArray (readUInt64 (readByteArray (readByteArray (readUInt32 (readUInt32
      (readByteArray (readByteArray (readByteArray (readByteArray
      s).2).2).2).2).2).2).2).2).2).2).2)
  have a13 := reads_readContainer reads_readByteArray ((readContainer readByteArray (readContainer
      readBuildId (readContainer readByteArray (readUInt64 (readByteArray (readByteArray
      (readUInt32 (readUInt32 (readByteArray (readByteArray (readByteArray (readByteArray
      s).2).2).2).2).2).2).2).2).2).2).2).2)
  have a14 := reads_readContainer reads_readNumaNode ((readContainer readByteArray (readContainer
      readByteArray (readContainer readBuildId (readContainer readByteArray (readUInt64
      (readByteArray (readByteArray (readUInt32 (readUInt32 (readByteArray (readByteArray
      (readByteArray (readByteArray s).2).2).2).2).2).2).2).2).2).2).2).2).2)
  have a15 := reads_readContainer reads_readPmu ((readContainer readNumaNode (readContainer
      readByteArray (readContainer readByteArray (readContainer readBuildId (readContainer
      readByteArray (readUInt64 (readByteArray (readByteArray (readUInt32 (readUInt32
      (readByteArray (readByteArray (readByteArray (readByteArray
      s).2).2).2).2).2).2).2).2).2).2).2).2).2).2)
  have a16 := reads_readContainer reads_readGroupDesc ((readContainer readPmu (readContainer
      readNumaNode (readContainer readByteArray (readContainer readByteArray (readContainer
      readBuildId (readContainer readByteArray (readUInt64 (readByteArray (readByteArray
      (readUInt32 (readUInt32 (readByteArray (readByteArray (readByteArray (readByteArray
      s).2).2).2).2).2).2).2).2).2).2).2).2).2).2).2)
  refine ⟨by simp only [readFeaturesDefinition]; exact (le_trans a16.1 (le_trans a15.1 (le_trans
      a14.1 (le_trans a13.1 (le_trans a12.1 (le_trans a11.1 (le_trans a10.1 (le_trans a9.1
      (le_trans a8.1 (le_trans a7.1 (le_trans a6.1 (le_trans a5.1 (le_trans a4.1 (le_trans a3.1
      (le_trans a2.1 a1.1))))))))))))))), fun h => ?_⟩
  simp only [readFeaturesDefinition] at h
  obtain ⟨h15, e16⟩ := a16.2 h
  obtain ⟨h14, e15⟩ := a15.2 h15
  obtain ⟨h13, e14⟩ := a14.2 h14
  obtain ⟨h12, e13⟩ := a13.2 h13
  obtain ⟨h11, e12⟩ := a12.2 h12
  obtain ⟨h10, e11⟩ := a11.2 h11
  obtain ⟨h9, e10⟩ := a10.2 h10
  obtain ⟨h8, e9⟩ := a9.2 h9
  obtain ⟨h7, e8⟩ := a8.2 h8
  obtain ⟨h6, e7⟩ := a7.2 h7
  obtain ⟨h5, e6⟩ := a6.2 h6
  obtain ⟨h4, e5⟩ := a5.2 h5
  obtain ⟨h3, e4⟩ := a4.2 h4
  obtain ⟨h2, e3⟩ := a3.2 h3
  obtain ⟨h1, e2⟩ := a2.2 h2
  obtain ⟨h0, e1⟩ := a1.2 h1
  refine ⟨h0, fun e => ?_⟩
  simp only [readFeaturesDefinition, e1 e, e2 e, e3 e, e4 e, e5 e, e6 e, e7 e, e8 e, e9 e, e10 e,
      e11 e, e12 e, e13 e, e14 e, e15 e, e16 e]

theorem addSample_state (d d' : PerfParserPrivate) (sample : Sample)
    (h : d.addSample sample = some d') : d'.state = d.state := by
  unfold PerfParserPrivate.addSample PerfParserPrivate.addSampleToBottomUp at h
  cases hf : PerfParserPrivate.addFrames d sample.frames (d.bottomUpResult.addCost 1 0) [] with
  | none => simp [hf] at h
  | some r =>
    simp only [hf, Option.some.injEq] at h
    subst h
    simp only [PerfParserPrivate.addSampleToSummary]
    split_ifs <;> rfl

theorem parseRecord_symbol (d : PerfParserPrivate) (s : QDataStream)
    (r : QDataStream × PerfParserPrivate)
    (h : d.parseRecord s EventType.SymbolDefinition = some r) :
    d.addSymbolDefined (readSymbolDefinition s).1 = true ∧
      (readSymbolDefinition s).2 = r.1 ∧ d.addSymbol (readSymbolDefinition s).1 = r.2 := by
  rw [PerfParserPrivate.parseRecord] at h
  cases hd : d.addSymbolDefined (readSymbolDefinition s).1 with
  | false =>
    rw [hd, if_neg Bool.false_ne_true] at h
    cases h
  | true =>
    rw [hd, if_pos rfl] at h
    obtain ⟨rs, rd⟩ := r
    simp only [Option.some.injEq, Prod.mk.injEq] at h
    exact ⟨rfl, h.1, h.2⟩

theorem parseRecord_features (d : PerfParserPrivate) (s : QDataStream)
    (r : QDataStream × PerfParserPrivate)
    (h : d.parseRecord s EventType.FeaturesDefinition = some r) :
    PerfParserPrivate.setFeaturesDefined (readFeaturesDefinition s).1 = true ∧
      (readFeaturesDefinition s).2 = r.1 ∧
      d.setFeatures (readFeaturesDefinition s).1 = r.2 := by
  rw [PerfParserPrivate.parseRecord] at h
  cases hd : PerfParserPrivate.setFeaturesDefined (readFeaturesDefinition s).1 with
  | false =>
    rw [hd, if_neg Bool.false_ne_true] at h
    cases h
  | true =>
    rw [hd, if_pos rfl] at h
    obtain ⟨rs, rd⟩ := r
    simp only [Option.some.injEq, Prod.mk.injEq] at h
    exact ⟨rfl, h.1, h.2⟩

theorem parseRecord_state (d : PerfParserPrivate) (s : QDataStream) (t : EventType)
    (r : QDataStream × PerfParserPrivate) (h : d.parseRecord s t = some r) :
    r.2.state = d.state := by
  cases t
  case SymbolDefinition =>
    rw [← (parseRecord_symbol d s r h).2.2]
    simp only [PerfParserPrivate.addSymbol]
    split_ifs <;> rfl
  case FeaturesDefinition =>
    rw [← (parseRecord_features d s r h).2.2]
    rfl
  case Sample =>
    simp only [PerfParserPrivate.parseRecord, Option.map_eq_some'] at h
    obtain ⟨d', h1, h2⟩ := h
    subst h2
    exact addSample_state d d' _ h1
  all_goals
    simp only [PerfParserPrivate.parseRecord, Option.some.injEq] at h
    subst h
    rfl

theorem readInt8_cons (b : Byte) (rest : List Byte) (v : Int) :
    readInt8 { dev := b :: rest, status := Status.Ok, version := v } =
      (toSigned 8 b.val, { dev := rest, status := Status.Ok, version := v }) := by
  simp [readInt8, readUInt, readBlock, fromBigEndian]

/-- C6: `parseEvent` on a frame whose first byte is `b`, read as a signed
8-bit tag. It leaves through the invalid-event-type exit, which is the one
place where it sets PARSE_ERROR itself, exactly when the tag is not in 0..9;
then it returns false and changes nothing but the state and the read position
of the stream: registries, trees and summary are those of before. For a tag
in 0..9 a call that returns leaves the state as it was. -/
theorem parseEvent_tag (d : PerfParserPrivate) (b : Byte) (rest : List Byte)
    (hp : d.buffer.take d.bufferSize = b :: rest) (hs : d.state = State.EVENT) :
    ((∃ r, d.parseEvent = some r ∧ r.2.state = State.PARSE_ERROR) ↔
      ¬ (0 ≤ toSigned 8 b.val ∧ toSigned 8 b.val ≤ 9)) ∧
    (¬ (0 ≤ toSigned 8 b.val ∧ toSigned 8 b.val ≤ 9) →
      d.parseEvent = some (false,
        { d with bufferPos := d.bufferSize - rest.length, streamStatus := Status.Ok,
                 state := State.PARSE_ERROR })) ∧
    (0 ≤ toSigned 8 b.val ∧ toSigned 8 b.val ≤ 9 →
      ∀ r, d.parseEvent = some r → r.2.state = State.EVENT) := by
  have hbad : ¬ (0 ≤ toSigned 8 b.val ∧ toSigned 8 b.val ≤ 9) →
      d.parseEvent = some (false,
        { d with bufferPos := d.bufferSize - rest.length, streamStatus := Status.Ok,
                 state := State.PARSE_ERROR }) := by
    intro hb
    have hb' : toSigned 8 b.val < 0 ∨ toSigned 8 b.val ≥ EventType.InvalidType.toInt := by
      simp only [EventType.toInt]; omega
    simp only [PerfParserPrivate.parseEvent, hp, readInt8_cons, hb', if_true,
      PerfParserPrivate.setStream]
  have hgood : 0 ≤ toSigned 8 b.val ∧ toSigned 8 b.val ≤ 9 →
      ∀ r, d.parseEvent = some r → r.2.state = State.EVENT := by
    intro hb r hr
    have hb' : ¬ (toSigned 8 b.val < 0 ∨ toSigned 8 b.val ≥ EventType.InvalidType.toInt) := by
      simp only [EventType.toInt]; omega
    simp only [PerfParserPrivate.parseEvent, hp, readInt8_cons, hb', if_false] at hr
    cases hrec : d.parseRecord { dev := rest, status := Status.Ok, version := d.streamVersion }
        (EventType.ofInt (toSigned 8 b.val)) with
    | none => simp [hrec] at hr
    | some q =>
      have hq := parseRecord_state d _ _ q hrec
      simp only [hrec] at hr
      split_ifs at hr <;>
      · simp only [Option.some.injEq] at hr
        subst hr
        simp [PerfParserPrivate.setStream, hq, hs]
  refine ⟨⟨?_, ?_⟩, hbad, hgood⟩
  · rintro ⟨r, hr, hst⟩ hb
    have := hgood hb r hr
    rw [this] at hst
    cases hst
  · intro hb
    exact ⟨_, hbad hb, rfl⟩


theorem parseEvent_tag_witness :
    (({ state := State.EVENT, buffer := [200], bufferSize := 1 } : PerfParserPrivate).buffer.take
      1 = [200]) ∧
    ({ state := State.EVENT, buffer := [200], bufferSize := 1 } : PerfParserPrivate).parseEvent =
      some (false, { state := State.PARSE_ERROR, buffer := [200], bufferSize := 1,
                     bufferPos := 1 }) :=
  ⟨rfl, (parseEvent_tag { state := State.EVENT, buffer := [200], bufferSize := 1 } 200 []
    rfl rfl).2.1 (by decide)⟩

theorem addFrameLoop_congr (d d' : PerfParserPrivate) (hl : d'.locations = d.locations)
    (hs : d'.symbols = d.symbols) :
    ∀ fuel tree parent id skip,
      d'.addFrameLoop fuel tree parent id skip = d.addFrameLoop fuel tree parent id skip := by
  intro fuel
  induction fuel with
  | zero => intros; rfl
  | succ n ih =>
    intro tree parent id skip
    simp only [PerfParserPrivate.addFrameLoop, hl, hs, ih]

theorem addFrames_congr (d d' : PerfParserPrivate) (hl : d'.locations = d.locations)
    (hs : d'.symbols = d.symbols) :
    ∀ ids tree parent, d'.addFrames ids tree parent = d.addFrames ids tree parent := by
  intro ids
  induction ids with
  | nil => intros; rfl
  | cons id ids ih =>
    intro tree parent
    simp only [PerfParserPrivate.addFrames, PerfParserPrivate.addFrame, hl,
      addFrameLoop_congr d d' hl hs, ih]

theorem addSample_withInput (d : PerfParserPrivate) (sample : Sample) (buffer : List Byte)
    (bufferSize : Nat) (process : List Byte) (eventSize : Nat) :
    (withInput d buffer bufferSize process eventSize).addSample sample =
      (d.addSample sample).map (fun d' => withInput d' buffer bufferSize process eventSize) := by
  unfold PerfParserPrivate.addSample PerfParserPrivate.addSampleToBottomUp
  rw [addFrames_congr d (withInput d buffer bufferSize process eventSize) rfl rfl]
  have hb : (withInput d buffer bufferSize process eventSize).bottomUpResult =
    d.bottomUpResult := rfl
  rw [hb]
  cases PerfParserPrivate.addFrames d sample.frames (d.bottomUpResult.addCost 1 0) [] with
  | none => rfl
  | some r =>
    simp only [Option.map_some', Option.some.injEq]
    simp only [PerfParserPrivate.addSampleToSummary, withInput]
    split_ifs <;> rfl

/-- The handlers read and write neither the buffer nor the process. -/
theorem parseRecord_withInput (d : PerfParserPrivate) (s : QDataStream) (t : EventType)
    (buffer : List Byte) (bufferSize : Nat) (process : List Byte) (eventSize : Nat) :
    (withInput d buffer bufferSize process eventSize).parseRecord s t =
      (d.parseRecord s t).map
        (fun r => (r.1, withInput r.2 buffer bufferSize process eventSize)) := by
  cases t
  case Sample =>
    simp only [PerfParserPrivate.parseRecord, addSample_withInput, Option.map_map,
      Function.comp_def]
  case SymbolDefinition =>
    rw [PerfParserPrivate.parseRecord, PerfParserPrivate.parseRecord]
    rw [show (withInput d buffer bufferSize process eventSize).addSymbolDefined
      (readSymbolDefinition s).1 = d.addSymbolDefined (readSymbolDefinition s).1 from rfl]
    cases d.addSymbolDefined (readSymbolDefinition s).1 with
    | false => rfl
    | true =>
      simp only [if_true, Option.map_some', PerfParserPrivate.addSymbol, withInput]
      split_ifs <;> simp only []
  case FeaturesDefinition =>
    rw [PerfParserPrivate.parseRecord, PerfParserPrivate.parseRecord]
    generalize readFeaturesDefinition s = f
    cases PerfParserPrivate.setFeaturesDefined f.1 <;> rfl
  all_goals
    simp only [PerfParserPrivate.parseRecord, Option.map_some', withInput,
      PerfParserPrivate.addCommand, PerfParserPrivate.addLocation,
      PerfParserPrivate.addAttributes, PerfParserPrivate.addString,
      PerfParserPrivate.addLost]

theorem parseRecord_frame (d : PerfParserPrivate) (s : QDataStream) (t : EventType)
    (r : QDataStream × PerfParserPrivate) (h : d.parseRecord s t = some r) :
    r.2.state = d.state ∧ r.2.bufferSize = d.bufferSize ∧ r.2.buffer = d.buffer ∧
      r.2.process = d.process ∧ r.2.eventSize = d.eventSize := by
  cases t
  case Sample =>
    simp only [PerfParserPrivate.parseRecord, Option.map_eq_some'] at h
    obtain ⟨d', h1, h2⟩ := h
    subst h2
    generalize (readSample s).1 = sample at h1
    dsimp only
    unfold PerfParserPrivate.addSample PerfParserPrivate.addSampleToBottomUp at h1
    cases hf : PerfParserPrivate.addFrames d sample.frames
        (d.bottomUpResult.addCost 1 0) [] with
    | none => simp [hf] at h1
    | some r =>
      simp only [hf, Option.some.injEq] at h1
      subst h1
      simp only [PerfParserPrivate.addSampleToSummary]
      split_ifs <;> exact ⟨rfl, rfl, rfl, rfl, rfl⟩
  case SymbolDefinition =>
    rw [← (parseRecord_symbol d s r h).2.2]
    generalize (readSymbolDefinition s).1 = symbol
    simp only [PerfParserPrivate.addSymbol]
    split_ifs <;> exact ⟨rfl, rfl, rfl, rfl, rfl⟩
  case FeaturesDefinition =>
    rw [← (parseRecord_features d s r h).2.2]
    exact ⟨rfl, rfl, rfl, rfl, rfl⟩
  all_goals
    simp only [PerfParserPrivate.parseRecord, Option.some.injEq] at h
    subst h
    simp only [PerfParserPrivate.addCommand, PerfParserPrivate.addLocation,
      PerfParserPrivate.addAttributes, PerfParserPrivate.addString,
      PerfParserPrivate.addLost, and_self]

/-- The record readers behind `parseRecord` are well-behaved. -/
theorem parseRecord_reads (d : PerfParserPrivate) (s : QDataStream) (t : EventType)
    (r : QDataStream × PerfParserPrivate) (h : d.parseRecord s t = some r) :
    r.1.dev.length ≤ s.dev.length ∧
      (r.1.status = Status.Ok →
        ∀ e, d.parseRecord (s.app e) t = some (r.1.app e, r.2)) := by
  obtain ⟨rs, rd⟩ := r
  cases t
  case Sample =>
    simp only [PerfParserPrivate.parseRecord, Option.map_eq_some', Prod.mk.injEq] at h
    obtain ⟨d', h1, h2, h3⟩ := h
    subst h2 h3
    have hr := reads_readSample s
    dsimp only
    refine ⟨hr.1, fun hs e => ?_⟩
    simp only [PerfParserPrivate.parseRecord, (hr.2 hs).2 e, h1, Option.map_some']
  case ThreadStart =>
    simp only [PerfParserPrivate.parseRecord, Option.some.injEq, Prod.mk.injEq] at h
    obtain ⟨h2, h3⟩ := h
    subst h2 h3
    have hr := reads_readThreadStart s
    dsimp only
    refine ⟨hr.1, fun hs e => ?_⟩
    simp only [PerfParserPrivate.parseRecord, (hr.2 hs).2 e]
  case ThreadEnd =>
    simp only [PerfParserPrivate.parseRecord, Option.some.injEq, Prod.mk.injEq] at h
    obtain ⟨h2, h3⟩ := h
    subst h2 h3
    have hr := reads_readThreadEnd s
    dsimp only
    refine ⟨hr.1, fun hs e => ?_⟩
    simp only [PerfParserPrivate.parseRecord, (hr.2 hs).2 e]
  case Command =>
    simp only [PerfParserPrivate.parseRecord, Option.some.injEq, Prod.mk.injEq] at h
    obtain ⟨h2, h3⟩ := h
    subst h2 h3
    have hr := reads_readCommand s
    dsimp only
    refine ⟨hr.1, fun hs e => ?_⟩
    simp only [PerfParserPrivate.parseRecord, (hr.2 hs).2 e]
  case LocationDefinition =>
    simp only [PerfParserPrivate.parseRecord, Option.some.injEq, Prod.mk.injEq] at h
    obtain ⟨h2, h3⟩ := h
    subst h2 h3
    have hr := reads_readLocationDefinition s
    dsimp only
    refine ⟨hr.1, fun hs e => ?_⟩
    simp only [PerfParserPrivate.parseRecord, (hr.2 hs).2 e]
  case SymbolDefinition =>
    obtain ⟨hd, h2, h3⟩ := parseRecord_symbol d s _ h
    dsimp only at h2 h3
    subst h2 h3
    have hr := reads_readSymbolDefinition s
    dsimp only
    refine ⟨hr.1, fun hs e => ?_⟩
    simp only [PerfParserPrivate.parseRecord, (hr.2 hs).2 e, hd, if_true]
  case AttributesDefinition =>
    simp only [PerfParserPrivate.parseRecord, Option.some.injEq, Prod.mk.injEq] at h
    obtain ⟨h2, h3⟩ := h
    subst h2 h3
    have hr := reads_readAttributesDefinition s
    dsimp only
    refine ⟨hr.1, fun hs e => ?_⟩
    simp only [PerfParserPrivate.parseRecord, (hr.2 hs).2 e]
  case StringDefinition =>
    simp only [PerfParserPrivate.parseRecord, Option.some.injEq, Prod.mk.injEq] at h
    obtain ⟨h2, h3⟩ := h
    subst h2 h3
    have hr := reads_readStringDefinition s
    dsimp only
    refine ⟨hr.1, fun hs e => ?_⟩
    simp only [PerfParserPrivate.parseRecord, (hr.2 hs).2 e]
  case LostDefinition =>
    simp only [PerfParserPrivate.parseRecord, Option.some.injEq, Prod.mk.injEq] at h
    obtain ⟨h2, h3⟩ := h
    subst h2 h3
    have hr := reads_readLostDefinition s
    dsimp only
    refine ⟨hr.1, fun hs e => ?_⟩
    simp only [PerfParserPrivate.parseRecord, (hr.2 hs).2 e]
  case FeaturesDefinition =>
    obtain ⟨hd, h2, h3⟩ := parseRecord_features d s _ h
    dsimp only at h2 h3
    subst h2 h3
    have hr := reads_readFeaturesDefinition s
    dsimp only
    refine ⟨hr.1, fun hs e => ?_⟩
    simp only [PerfParserPrivate.parseRecord, (hr.2 hs).2 e, hd, if_true]
  case InvalidType =>
    simp only [PerfParserPrivate.parseRecord, Option.some.injEq, Prod.mk.injEq] at h
    obtain ⟨h2, h3⟩ := h
    subst h2 h3
    exact ⟨le_refl _, fun _ e => rfl⟩

theorem frameRead_payload (d : PerfParserPrivate) (hlen : d.eventSize ≤ d.process.length) :
    (frameRead d).buffer.take (frameRead d).bufferSize = d.process.take d.eventSize := by
  have h1 : (d.process.take d.eventSize).length = d.eventSize := by
    simp [List.length_take, hlen]
  simp only [frameRead, PerfParserPrivate.processRead, PerfParserPrivate.bufferResize]
  exact List.take_left' h1

theorem frameRead_eq (d : PerfParserPrivate) :
    frameRead d = withInput d (frameRead d).buffer d.eventSize
      (d.process.drop d.eventSize) d.eventSize := rfl

theorem tryParse_event (d : PerfParserPrivate) (hs : d.state = State.EVENT)
    (hlen : d.eventSize ≤ d.process.length) (q : Bool × PerfParserPrivate)
    (hq : (frameRead d).parseEvent = some q) :
    d.tryParse = some (q.1,
      { q.2 with state := if q.1 then State.EVENT_HEADER else State.PARSE_ERROR }) := by
  have : d.process.length ≥ d.eventSize := hlen
  unfold frameRead at hq
  simp only [PerfParserPrivate.tryParse, hs, this, if_true, hq]
  cases q.1 <;> rfl

theorem toSigned_tag (b : Byte) (h : b.val ≤ 9) : toSigned 8 b.val = (b.val : Int) := by
  have : b.val < 2 ^ (8 - 1) := by norm_num; omega
  simp only [toSigned, this, if_true]

/-- The result of `parseEvent` on a frame with a valid tag, in terms of `parseRecord`. -/
theorem parseEvent_valid (d : PerfParserPrivate) (b : Byte) (rest : List Byte)
    (hp : d.buffer.take d.bufferSize = b :: rest) (htag : b.val ≤ 9) :
    d.parseEvent =
      (d.parseRecord { dev := rest, status := Status.Ok, version := d.streamVersion }
        (EventType.ofInt b.val)).map
        (fun r => (r.1.atEnd, PerfParserPrivate.setStream r.2 r.1)) := by
  have hb' : ¬ ((b.val : Int) < 0 ∨ (b.val : Int) ≥ EventType.InvalidType.toInt) := by
    simp only [EventType.toInt]; omega
  simp only [PerfParserPrivate.parseEvent, hp, readInt8_cons, toSigned_tag b htag, hb',
    if_false]
  cases d.parseRecord { dev := rest, status := Status.Ok, version := d.streamVersion }
      (EventType.ofInt b.val) with
  | none => rfl
  | some r =>
    simp only [Option.map_some']
    cases r.1.atEnd <;> rfl

/-- A handler other than that of a Sample returns exactly when its behaviour is
defined. -/
theorem parseRecord_total (d : PerfParserPrivate) (s : QDataStream) (t : EventType)
    (ht : t ≠ EventType.Sample) :
    (∃ r, d.parseRecord s t = some r) ↔ d.recordDefined s t = true := by
  cases t
  case Sample => exact absurd rfl ht
  case SymbolDefinition =>
    constructor
    · rintro ⟨r, hr⟩
      exact (parseRecord_symbol d s r hr).1
    · intro hd
      have hd' : d.addSymbolDefined (readSymbolDefinition s).1 = true := hd
      exact ⟨_, by rw [PerfParserPrivate.parseRecord, hd', if_pos rfl]⟩
  case FeaturesDefinition =>
    constructor
    · rintro ⟨r, hr⟩
      exact (parseRecord_features d s r hr).1
    · intro hd
      have hd' : PerfParserPrivate.setFeaturesDefined (readFeaturesDefinition s).1 = true := hd
      exact ⟨_, by rw [PerfParserPrivate.parseRecord, hd', if_pos rfl]⟩
  all_goals exact ⟨fun _ => rfl, fun _ => ⟨_, rfl⟩⟩

theorem ofInt_ne_sample (v : Nat) (h0 : v ≠ 0) :
    EventType.ofInt (v : Int) ≠ EventType.Sample := by
  have h : ¬ ((v : Int) = 0) := by omega
  simp only [EventType.ofInt, h, if_false]
  split_ifs <;> simp

/-- What `parseRecord` does on the decoder with the frame read into the buffer,
in terms of the decoder before the read. -/
theorem parseRecord_frameRead (d : PerfParserPrivate) (s : QDataStream) (t : EventType) :
    (frameRead d).parseRecord s t =
      (d.parseRecord s t).map (fun r => (r.1, withInput r.2 (frameRead d).buffer d.eventSize
        (d.process.drop d.eventSize) d.eventSize)) :=
  (congrArg (fun x => PerfParserPrivate.parseRecord x s t) (frameRead_eq d)).trans
    (parseRecord_withInput d s t _ _ _ _)

theorem parseRecord_eventSize (d : PerfParserPrivate) (s : QDataStream) (t : EventType)
    (n : Nat) :
    ({ d with eventSize := n } : PerfParserPrivate).parseRecord s t =
      (d.parseRecord s t).map (fun r => (r.1, withInput r.2 d.buffer d.bufferSize d.process n)) :=
  parseRecord_withInput d s t d.buffer d.bufferSize d.process n

/-- C3, amended: a frame with a valid type tag is read into the buffer and
handed to `parseEvent`. When `parseEvent` returns, it returns true exactly
when the read position is at the end of the frame and false exactly when
bytes of the frame are left over, and `tryParse` then moves to EVENT_HEADER
with progress, respectively to PARSE_ERROR without. For a record kind other
than Sample `parseEvent` returns exactly when the handler has a defined
behaviour: `addSymbol` needs an index inside the symbol table and
`setFeatures` a `cmdline` that is not empty. And when it returns true on a
frame that held every field of its record (the stream status is `Ok`), the
same bytes under a declared length that is `k` bytes longer are rejected:
`tryParse` ends in PARSE_ERROR with the read position where the record ended. -/
theorem tryParse_event_frame_length (d : PerfParserPrivate) (b : Byte) (rest : List Byte)
    (hs : d.state = State.EVENT) (hlen : d.eventSize ≤ d.process.length)
    (hp : d.process.take d.eventSize = b :: rest) (htag : b.val ≤ 9) :
    (∀ q, (frameRead d).parseEvent = some q →
      ((q.1 = true ↔ q.2.bufferPos = d.eventSize) ∧
        (q.1 = false ↔ q.2.bufferPos < d.eventSize)) ∧
      d.tryParse = some (q.1,
        { q.2 with state := if q.1 then State.EVENT_HEADER else State.PARSE_ERROR })) ∧
    (b.val ≠ 0 →
      ((∃ q, (frameRead d).parseEvent = some q) ↔
        d.recordDefined { dev := rest, status := Status.Ok, version := d.streamVersion }
          (EventType.ofInt b.val) = true)) ∧
    (∀ q, (frameRead d).parseEvent = some q → q.1 = true → q.2.streamStatus = Status.Ok →
      ∀ k, 0 < k → d.eventSize + k ≤ d.process.length →
        ∃ d', ({ d with eventSize := d.eventSize + k } : PerfParserPrivate).tryParse =
            some (false, d') ∧
          d'.state = State.PARSE_ERROR ∧ d'.bufferPos = d.eventSize) := by
  have hp1 : (frameRead d).buffer.take (frameRead d).bufferSize = b :: rest := by
    rw [frameRead_payload d hlen, hp]
  have hev := parseEvent_valid (frameRead d) b rest hp1 htag
  rw [show (frameRead d).streamVersion = d.streamVersion from rfl] at hev
  have hn : d.eventSize = rest.length + 1 := by
    have := congrArg List.length hp
    simpa [List.length_take, hlen] using this
  refine ⟨?_, ?_, ?_⟩
  · intro q hq
    refine ⟨?_, tryParse_event d hs hlen q hq⟩
    rw [hev] at hq
    obtain ⟨r, hr, rfl⟩ := Option.map_eq_some'.mp hq
    have hl := (parseRecord_reads _ _ _ r hr).1
    have hf := (parseRecord_frame _ _ _ r hr).2.1
    have hl' : r.1.dev.length ≤ rest.length := hl
    have hbs : r.2.bufferSize = d.eventSize := hf
    dsimp only [PerfParserPrivate.setStream]
    rw [hbs]
    cases hdev : r.1.dev with
    | nil => simp [QDataStream.atEnd, hdev]
    | cons x xs =>
      rw [hdev] at hl'
      simp only [QDataStream.atEnd, hdev, List.isEmpty_cons, List.length_cons]
      constructor
      · constructor
        · intro h; cases h
        · intro h; omega
      · constructor
        · intro _; omega
        · intro _; trivial
  · intro hb0
    rw [hev, ← parseRecord_total d _ _ (ofInt_ne_sample b.val hb0), parseRecord_frameRead]
    constructor
    · rintro ⟨q, hq⟩
      obtain ⟨r, hr, -⟩ := Option.map_eq_some'.mp hq
      obtain ⟨r0, hr0, -⟩ := Option.map_eq_some'.mp hr
      exact ⟨r0, hr0⟩
    · rintro ⟨r, hr⟩
      exact ⟨_, by rw [hr]; rfl⟩
  · intro q hq hq1 hst k hk hlenk
    rw [hev, parseRecord_frameRead] at hq
    obtain ⟨r, hr, rfl⟩ := Option.map_eq_some'.mp hq
    obtain ⟨r0, hr0, hr0'⟩ := Option.map_eq_some'.mp hr
    subst hr0'
    have hend : r0.1.dev = [] := by
      have : r0.1.atEnd = true := hq1
      simpa [QDataStream.atEnd] using this
    have hok : r0.1.status = Status.Ok := hst
    have hext := (parseRecord_reads d _ _ r0 hr0).2 hok ((d.process.drop d.eventSize).take k)
    have hxl : ((d.process.drop d.eventSize).take k).length = k := by
      simp [List.length_take, List.length_drop]; omega
    -- the longer frame
    have hpe : ({ d with eventSize := d.eventSize + k } : PerfParserPrivate).process.take
        (d.eventSize + k) = b :: (rest ++ (d.process.drop d.eventSize).take k) := by
      show d.process.take (d.eventSize + k) = _
      rw [List.take_add, hp]
      rfl
    have hpe1 := (frameRead_payload { d with eventSize := d.eventSize + k } hlenk).trans hpe
    have heve := parseEvent_valid (frameRead { d with eventSize := d.eventSize + k }) b _
      hpe1 htag
    rw [show (frameRead { d with eventSize := d.eventSize + k }).streamVersion =
      d.streamVersion from rfl] at heve
    rw [parseRecord_frameRead, parseRecord_eventSize] at heve
    have hext' : d.parseRecord
        { dev := rest ++ (d.process.drop d.eventSize).take k, status := Status.Ok,
          version := d.streamVersion }
        (EventType.ofInt b.val) = some (r0.1.app ((d.process.drop d.eventSize).take k), r0.2) :=
      hext
    rw [hext'] at heve
    simp only [Option.map_some'] at heve
    have hat : (r0.1.app ((d.process.drop d.eventSize).take k)).atEnd = false := by
      cases hx : (d.process.drop d.eventSize).take k with
      | nil => rw [hx] at hxl; simp at hxl; omega
      | cons x xs => simp [QDataStream.atEnd, QDataStream.app, hend]
    have htp := tryParse_event { d with eventSize := d.eventSize + k } hs hlenk _ heve
    simp only [hat, Bool.false_eq_true, if_false] at htp
    refine ⟨_, htp, rfl, ?_⟩
    simp only [PerfParserPrivate.setStream, withInput, QDataStream.app, hend, List.nil_append,
      hxl]
    omega


theorem tryParse_event_frame_length_witness :
    (({ state := State.EVENT, eventSize := 17,
        process := [8, 0, 0, 0, 1, 0, 0, 0, 1, 0, 0, 0, 0, 0, 0, 0, 100, 7] } :
        PerfParserPrivate).state = State.EVENT) ∧
    ∃ d', ({ state := State.EVENT, eventSize := 17 + 1,
              process := [8, 0, 0, 0, 1, 0, 0, 0, 1, 0, 0, 0, 0, 0, 0, 0, 100, 7] } :
        PerfParserPrivate).tryParse = some (false, d') ∧
      d'.state = State.PARSE_ERROR ∧ d'.bufferPos = 17 := by
  refine ⟨rfl, ?_⟩
  have h := tryParse_event_frame_length
    { state := State.EVENT, eventSize := 17,
      process := [8, 0, 0, 0, 1, 0, 0, 0, 1, 0, 0, 0, 0, 0, 0, 0, 100, 7] }
    8 [0, 0, 0, 1, 0, 0, 0, 1, 0, 0, 0, 0, 0, 0, 0, 100] rfl (by decide) rfl (by decide)
  obtain ⟨q, hq⟩ := (h.2.1 (by decide)).mpr rfl
  have hq' : ((frameRead { state := State.EVENT, eventSize := 17,
                           process := [8, 0, 0, 0, 1, 0, 0, 0, 1, 0, 0, 0, 0, 0, 0, 0, 100, 7]
                         }).parseEvent).map
      (fun q => (q.1, q.2.streamStatus)) = some (true, Status.Ok) := by decide
  rw [hq] at hq'
  simp only [Option.map_some', Option.some.injEq, Prod.mk.injEq] at hq'
  exact h.2.2 q hq hq'.1 hq'.2 1 (by decide) (by decide)

/-- C3, counterexample: a LostDefinition frame of three bytes, the tag and two
of the sixteen bytes of its record. The stream reads past the end, and yet
`parseEvent` returns true, the lost chunk is counted and `tryParse` goes on to
EVENT_HEADER. -/
theorem parseEvent_accepts_short_frame :
    ((frameRead { state := State.EVENT, eventSize := 3, process := [8, 0, 0] }).parseEvent).map
      (fun q => (q.1, q.2.streamStatus)) = some (true, Status.ReadPastEnd) ∧
    (({ state := State.EVENT, eventSize := 3, process := [8, 0, 0] } :
      PerfParserPrivate).tryParse).map
      (fun r => (r.1, r.2.state, r.2.summaryResult.lostChunks)) =
        some (true, State.EVENT_HEADER, 1) := by
  constructor <;> decide

/-! ## Cost trees -/

namespace FrameData

@[simp] theorem children_setChildren (t : FrameData) (cs : List FrameData) :
    (t.setChildren cs).children = cs := by cases t; rfl

@[simp] theorem inclusiveCost_setChildren (t : FrameData) (cs : List FrameData) :
    (t.setChildren cs).inclusiveCost = t.inclusiveCost := by cases t; rfl

@[simp] theorem inclusiveCost_addCost (t : FrameData) (inc self : Nat) :
    (t.addCost inc self).inclusiveCost = t.inclusiveCost + inc := by cases t; rfl

@[simp] theorem children_addCost (t : FrameData) (inc self : Nat) :
    (t.addCost inc self).children = t.children := by cases t; rfl

theorem setChildren_children (t : FrameData) : t.setChildren t.children = t := by
  cases t; rfl

theorem modifyNth_of_le (f : FrameData → FrameData) :
    ∀ (i : Nat) (cs : List FrameData), cs.length ≤ i → modifyNth f i cs = cs := by
  intro i cs
  induction cs generalizing i with
  | nil => intro _; cases i <;> rfl
  | cons c cs ih =>
    intro h
    cases i with
    | zero => simp at h
    | succ i => simp only [modifyNth]; rw [ih i (by simpa using h)]

theorem modifyNth_congr (f g : FrameData → FrameData) :
    ∀ (i : Nat) (cs : List FrameData), (∀ c, cs.get? i = some c → f c = g c) →
      modifyNth f i cs = modifyNth g i cs := by
  intro i cs
  induction cs generalizing i with
  | nil => intro _; cases i <;> rfl
  | cons c cs ih =>
    intro h
    cases i with
    | zero => simp only [modifyNth]; rw [h c rfl]
    | succ i => simp only [modifyNth]; rw [ih i (fun c' hc' => h c' (by simpa using hc'))]

theorem modifyNth_id : ∀ (i : Nat) (cs : List FrameData), modifyNth id i cs = cs := by
  intro i cs
  induction cs generalizing i with
  | nil => cases i <;> rfl
  | cons c cs ih =>
    cases i with
    | zero => rfl
    | succ i => simp only [modifyNth]; rw [ih i]

theorem modifyNth_modifyNth (f g : FrameData → FrameData) :
    ∀ (i : Nat) (cs : List FrameData),
      modifyNth f i (modifyNth g i cs) = modifyNth (f ∘ g) i cs := by
  intro i cs
  induction cs generalizing i with
  | nil => cases i <;> rfl
  | cons c cs ih =>
    cases i with
    | zero => rfl
    | succ i => simp only [modifyNth]; rw [ih i]

theorem get?_modifyNth (f : FrameData → FrameData) :
    ∀ (i : Nat) (cs : List FrameData), (modifyNth f i cs).get? i = (cs.get? i).map f := by
  intro i cs
  induction cs generalizing i with
  | nil => cases i <;> rfl
  | cons c cs ih =>
    cases i with
    | zero => rfl
    | succ i => simpa [modifyNth] using ih i

theorem length_modifyNth (f : FrameData → FrameData) :
    ∀ (i : Nat) (cs : List FrameData), (modifyNth f i cs).length = cs.length := by
  intro i cs
  induction cs generalizing i with
  | nil => cases i <;> rfl
  | cons c cs ih =>
    cases i with
    | zero => rfl
    | succ i => simp [modifyNth, ih i]

/-- A modification that keeps `inclusiveCost` keeps the costs of a list. -/
theorem map_inclusiveCost_modifyNth (f : FrameData → FrameData)
    (hf : ∀ c, (f c).inclusiveCost = c.inclusiveCost) :
    ∀ (i : Nat) (cs : List FrameData),
      (modifyNth f i cs).map inclusiveCost = cs.map inclusiveCost := by
  intro i cs
  induction cs generalizing i with
  | nil => cases i <;> rfl
  | cons c cs ih =>
    cases i with
    | zero => simp [modifyNth, hf]
    | succ i => simp [modifyNth, ih i]

theorem sum_inclusiveCost_modifyNth_addCost (inc self : Nat) :
    ∀ (i : Nat) (cs : List FrameData), i < cs.length →
      ((modifyNth (addCost inc self) i cs).map inclusiveCost).sum =
        (cs.map inclusiveCost).sum + inc := by
  intro i cs
  induction cs generalizing i with
  | nil => intro h; simp at h
  | cons c cs ih =>
    intro h
    cases i with
    | zero => simp [modifyNth]; omega
    | succ i =>
      have := ih i (by simpa using h)
      simp only [modifyNth, List.map_cons, List.sum_cons, this]
      omega

theorem getAt_nil (t : FrameData) : t.getAt [] = some t := by
  cases t; rfl

theorem getAt_cons (t : FrameData) (i : Nat) (p : List Nat) :
    t.getAt (i :: p) = (t.children.get? i).bind (fun c => c.getAt p) := by
  rw [getAt]
  cases t.children.get? i <;> rfl

theorem modifyAt_nil (f : FrameData → FrameData) (t : FrameData) : modifyAt f [] t = f t := rfl

theorem modifyAt_nil_fun (f : FrameData → FrameData) : modifyAt f [] = f :=
  funext (fun _ => rfl)

theorem modifyAt_cons (f : FrameData → FrameData) (i : Nat) (p : List Nat) (t : FrameData) :
    modifyAt f (i :: p) t = t.setChildren (modifyNth (modifyAt f p) i t.children) := rfl

theorem modifyAt_append (f : FrameData → FrameData) :
    ∀ (p q : List Nat) (t : FrameData),
      modifyAt f (p ++ q) t = modifyAt (modifyAt f q) p t := by
  intro p
  induction p with
  | nil => intro q t; rfl
  | cons i p ih =>
    intro q t
    simp only [List.cons_append, modifyAt_cons]
    congr 1
    exact modifyNth_congr _ _ _ _ (fun c _ => ih q c)

theorem modifyAt_modifyAt (f g : FrameData → FrameData) :
    ∀ (p : List Nat) (t : FrameData),
      modifyAt f p (modifyAt g p t) = modifyAt (f ∘ g) p t := by
  intro p
  induction p with
  | nil => intro t; rfl
  | cons i p ih =>
    intro t
    simp only [modifyAt_cons, children_setChildren, modifyNth_modifyNth]
    cases t
    simp only [setChildren, children]
    congr 1
    exact modifyNth_congr _ _ _ _ (fun c _ => ih c)

theorem modifyAt_congr (f g : FrameData → FrameData) :
    ∀ (p : List Nat) (t sub : FrameData), t.getAt p = some sub → f sub = g sub →
      modifyAt f p t = modifyAt g p t := by
  intro p
  induction p with
  | nil =>
    intro t sub h hfg
    rw [getAt_nil] at h
    cases h
    exact hfg
  | cons i p ih =>
    intro t sub h hfg
    rw [getAt_cons] at h
    simp only [modifyAt_cons]
    congr 1
    apply modifyNth_congr
    intro c hc
    rw [hc] at h
    exact ih c sub h hfg

theorem modifyAt_id_of_getAt (f : FrameData → FrameData) (p : List Nat) (t sub : FrameData)
    (h : t.getAt p = some sub) (hf : f sub = sub) : modifyAt f p t = t := by
  have h1 := modifyAt_congr f id p t sub h hf
  rw [h1]
  clear h h1 hf
  induction p generalizing t with
  | nil => rfl
  | cons i p ih =>
    simp only [modifyAt_cons]
    have : modifyNth (modifyAt id p) i t.children = modifyNth id i t.children :=
      modifyNth_congr _ _ _ _ (fun c _ => ih c)
    rw [this, modifyNth_id, setChildren_children]

theorem modifyAt_of_getAt_none (f : FrameData → FrameData) :
    ∀ (p : List Nat) (t : FrameData), t.getAt p = none → modifyAt f p t = t := by
  intro p
  induction p with
  | nil => intro t h; rw [getAt_nil] at h; cases h
  | cons i p ih =>
    intro t h
    rw [getAt_cons] at h
    simp only [modifyAt_cons]
    have : modifyNth (modifyAt f p) i t.children = modifyNth id i t.children := by
      apply modifyNth_congr
      intro c hc
      rw [hc] at h
      exact ih c h
    rw [this, modifyNth_id, setChildren_children]

theorem getAt_append :
    ∀ (p q : List Nat) (t : FrameData),
      t.getAt (p ++ q) = (t.getAt p).bind (fun s => s.getAt q) := by
  intro p
  induction p with
  | nil => intro q t; rw [getAt_nil]; rfl
  | cons i p ih =>
    intro q t
    simp only [List.cons_append, getAt_cons]
    cases t.children.get? i with
    | none => rfl
    | some c => exact ih q c

theorem getAt_modifyAt (f : FrameData → FrameData) :
    ∀ (p : List Nat) (t : FrameData), (modifyAt f p t).getAt p = (t.getAt p).map f := by
  intro p
  induction p with
  | nil => intro t; simp [getAt_nil, modifyAt_nil]
  | cons i p ih =>
    intro t
    simp only [modifyAt_cons, getAt_cons, children_setChildren, get?_modifyNth]
    cases t.children.get? i with
    | none => rfl
    | some c => exact ih c

end FrameData

namespace FrameData

theorem findRow_lt (symbol binary location address : String) :
    ∀ (cs : List FrameData) (i : Nat),
      findRow symbol binary location address cs = some i → i < cs.length := by
  intro cs
  induction cs with
  | nil => intro i h; simp [findRow] at h
  | cons c cs ih =>
    intro i h
    simp only [findRow] at h
    split_ifs at h
    · cases h; simp
    · cases hf : findRow symbol binary location address cs with
      | none => simp [hf] at h
      | some j =>
        simp only [hf, Option.map_some', Option.some.injEq] at h
        subst h
        have := ih j hf
        simp; omega

/-- A change below the children of a node keeps the costs of its children. -/
theorem childCostSum_modifyAt_deep (f : FrameData → FrameData) (i j : Nat) (p : List Nat)
    (t : FrameData) : childCostSum (modifyAt f (i :: j :: p) t) = childCostSum t := by
  simp only [childCostSum, modifyAt_cons, children_setChildren]
  rw [map_inclusiveCost_modifyNth]
  intro c
  rw [modifyAt_cons, inclusiveCost_setChildren]

/-- A change of a child that keeps its cost keeps the costs of the children. -/
theorem childCostSum_modifyAt_child (f : FrameData → FrameData)
    (hf : ∀ c, (f c).inclusiveCost = c.inclusiveCost) (i : Nat) (p : List Nat)
    (t : FrameData) : childCostSum (modifyAt f (i :: p) t) = childCostSum t := by
  cases p with
  | nil =>
    simp only [childCostSum, modifyAt_cons, children_setChildren, modifyAt_nil_fun]
    rw [map_inclusiveCost_modifyNth _ hf]
  | cons j p => exact childCostSum_modifyAt_deep f i j p t

/-- The static `addFrame` below a node that is not the root keeps the costs
of the children of the root. -/
theorem childCostSum_addFrame (t : FrameData) (i : Nat) (p : List Nat)
    (symbol binary location address : String) :
    childCostSum (addFrame t (i :: p) symbol binary location address).1 = childCostSum t := by
  unfold addFrame
  cases t.getAt (i :: p) with
  | none => rfl
  | some sub =>
    simp only []
    cases findRow symbol binary location address sub.children with
    | none =>
      simp only []
      exact childCostSum_modifyAt_child _ (fun c => by simp) i p t
    | some j => rfl

/-- The pointer the static `addFrame` returns lies one level below `parent`,
unless `parent` does not point into the tree. -/
theorem addFrame_snd (t : FrameData) (parent : List Nat)
    (symbol binary location address : String) :
    (t.getAt parent = none ∧
        addFrame t parent symbol binary location address = (t, parent)) ∨
      ∃ j, (addFrame t parent symbol binary location address).2 = parent ++ [j] := by
  unfold addFrame
  cases t.getAt parent with
  | none => left; exact ⟨rfl, rfl⟩
  | some sub =>
    right
    simp only []
    cases findRow symbol binary location address sub.children with
    | none => exact ⟨_, rfl⟩
    | some j => exact ⟨_, rfl⟩

end FrameData

/-- The walk of the top-down builder below a node that is not the root keeps
the costs of the children of the root. -/
theorem childCostSum_topDownWalk_below (rowCost : Nat) :
    ∀ (nodes : List FrameData) (isRow : Bool) (topDownData : FrameData) (i : Nat)
      (p : List Nat),
      childCostSum (PerfParserPrivate.topDownWalk rowCost nodes isRow topDownData (i :: p)) =
        childCostSum topDownData := by
  intro nodes
  induction nodes with
  | nil => intros; rfl
  | cons node parents ih =>
    intro isRow topDownData i p
    simp only [PerfParserPrivate.topDownWalk]
    have h1 := FrameData.childCostSum_addFrame topDownData i p node.symbol node.binary
      node.location node.address
    rcases FrameData.addFrame_snd topDownData (i :: p) node.symbol node.binary
      node.location node.address with ⟨hnone, heq⟩ | ⟨j, hj⟩
    · rw [heq]
      simp only []
      rw [FrameData.modifyAt_of_getAt_none _ _ _ hnone, ih]
    · rw [hj, List.cons_append, ih]
      cases p with
      | nil =>
        rw [List.nil_append, FrameData.childCostSum_modifyAt_deep, h1]
      | cons k p =>
        rw [List.cons_append, FrameData.childCostSum_modifyAt_deep, h1]

/-- The walk of the top-down builder from the root adds the cost of the leaf
to the costs of the children of the root. -/
theorem childCostSum_topDownWalk (rowCost : Nat) (node : FrameData) (parents : List FrameData)
    (isRow : Bool) (topDownData : FrameData) :
    childCostSum
        (PerfParserPrivate.topDownWalk rowCost (node :: parents) isRow topDownData []) =
      childCostSum topDownData + rowCost := by
  simp only [PerfParserPrivate.topDownWalk, FrameData.addFrame, FrameData.getAt_nil]
  cases hf : FrameData.findRow node.symbol node.binary node.location node.address
      topDownData.children with
  | none =>
    simp only [List.nil_append, FrameData.modifyAt_nil]
    rw [childCostSum_topDownWalk_below]
    simp only [childCostSum, FrameData.modifyAt_cons, FrameData.modifyAt_nil_fun,
      FrameData.children_setChildren]
    rw [FrameData.sum_inclusiveCost_modifyNth_addCost _ _ _ _ (by simp)]
    simp [FrameData.inclusiveCost]
  | some j =>
    simp only [List.nil_append]
    rw [childCostSum_topDownWalk_below]
    simp only [childCostSum, FrameData.modifyAt_cons, FrameData.modifyAt_nil_fun,
      FrameData.children_setChildren]
    rw [FrameData.sum_inclusiveCost_modifyNth_addCost _ _ _ _ (FrameData.findRow_lt _ _ _ _ _ _ hf)]

mutual
theorem childCostSum_buildTopDownRow (ancestors : List FrameData) :
    ∀ (row topDownData : FrameData),
      childCostSum (PerfParserPrivate.buildTopDownRow ancestors row topDownData) =
        childCostSum topDownData + leafCostSum row
  | .mk s b l a sc ic [], topDownData => by
    rw [PerfParserPrivate.buildTopDownRow, childCostSum_topDownWalk, leafCostSum]
  | .mk s b l a sc ic (c :: cs), topDownData => by
    rw [PerfParserPrivate.buildTopDownRow, leafCostSum]
    exact childCostSum_buildTopDownRows _ (c :: cs) topDownData
theorem childCostSum_buildTopDownRows (ancestors : List FrameData) :
    ∀ (rows : List FrameData) (topDownData : FrameData),
      childCostSum (PerfParserPrivate.buildTopDownRows ancestors rows topDownData) =
        childCostSum topDownData + leafCostSumRows rows
  | [], topDownData => by
    rw [PerfParserPrivate.buildTopDownRows, leafCostSumRows]; rfl
  | row :: rows, topDownData => by
    rw [PerfParserPrivate.buildTopDownRows, leafCostSumRows,
      childCostSum_buildTopDownRows ancestors rows,
      childCostSum_buildTopDownRow ancestors row]
    omega
end


/-- C9, counterexample: with locations 0 (symbol A) and 1 (symbol B), both
without parent, the samples with frames [0] and [0, 1] give the bottom-up tree
root → A → B. Its root has inclusive cost 2, its one leaf B has inclusive
cost 1, and the children of the top-down root sum up to 1. A sample without
frames gives root cost 1 and a top-down root without children. -/
theorem topDown_root_cost_not_sample_count :
    (addSamples
        { locations := [{ parentLocationId := -1, address := "1" },
                        { parentLocationId := -1, address := "2" }],
          symbols := [{ symbol := "A" }, { symbol := "B" }] }
        [{ frames := [0] }, { frames := [0, 1] }]).map
      (fun d => (d.finalize.bottomUpResult.inclusiveCost,
        childCostSum d.finalize.topDownResult)) = some (2, 1) ∧
    (addSamples {} [{ frames := [] }]).map
      (fun d => (d.finalize.bottomUpResult.inclusiveCost,
        childCostSum d.finalize.topDownResult)) = some (1, 0) := by
  constructor <;> decide!

/-! ## The bottom-up tree of one call chain -/

theorem hasKey_self (s b l a : String) (sc ic : Nat) (cs : List FrameData) :
    (FrameData.mk s b l a sc ic cs).hasKey s b l a = true := by
  simp [FrameData.hasKey, FrameData.symbol, FrameData.binary, FrameData.location,
    FrameData.address]

theorem chainNodes_zero (locations : List LocationData) (symbols : List SymbolData)
    (top : Bool) (ids : List Int) : chainNodes locations symbols 0 top ids = [] := by
  cases ids <;> simp [chainNodes]

/-- One walk of `addFrame` along a chain of locations, below a node whose
children are the path of `n` earlier walks: the children become the path of
`n + 1` walks. -/
theorem addFrameLoop_chain (d : PerfParserPrivate) (n : Nat) :
    ∀ (ids : List Int) (id : Int) (fuel : Nat) (tree : FrameData) (parent : List Nat)
      (sub : FrameData),
      isChain d.locations d.symbols id ids = true → ids.length < fuel →
      tree.getAt parent = some sub →
      sub.children = chainNodes d.locations d.symbols n (decide (parent = [])) ids →
      d.addFrameLoop fuel tree parent id false =
        some (tree.modifyAt (fun s => s.setChildren
            (chainNodes d.locations d.symbols (n + 1) (decide (parent = [])) ids)) parent,
          parent ++ List.replicate ids.length 0) := by
  intro ids
  induction ids with
  | nil =>
    intro id fuel tree parent sub hc hf hg hs
    simp only [isChain, beq_iff_eq] at hc
    subst hc
    cases fuel with
    | zero => simp at hf
    | succ fuel =>
      simp only [PerfParserPrivate.addFrameLoop, if_true, chainNodes, List.length_nil,
        List.replicate_zero, List.append_nil]
      rw [FrameData.modifyAt_id_of_getAt _ parent tree sub hg]
      simp only [chainNodes] at hs
      rw [← hs, FrameData.setChildren_children]
  | cons i rest ih =>
    intro id fuel tree parent sub hc hf hg hs
    simp only [isChain, Bool.and_eq_true, beq_iff_eq, decide_eq_true_eq] at hc
    obtain ⟨⟨⟨⟨rfl, h0⟩, _⟩, hv⟩, hrest⟩ := hc
    cases fuel with
    | zero => simp at hf
    | succ fuel =>
      have hf' : rest.length < fuel := by simpa using hf
      have hne : id ≠ -1 := by omega
      have hpar : decide (parent ++ [0] = []) = false := by simp
      simp only [PerfParserPrivate.addFrameLoop, hne, if_false, hv, Bool.not_true,
        Bool.false_eq_true]
      simp only [FrameData.addFrame, hg]
      by_cases hn : n = 0
      · subst hn
        rw [chainNodes_zero] at hs
        simp only [hs, FrameData.findRow, List.nil_append, List.length_nil]
        rw [ih _ fuel _ (parent ++ [0])
          ((FrameData.mk (value d.symbols id).symbol (value d.symbols id).binary
            (value d.locations id).location (value d.locations id).address 0 0 []).addCost 1
              (if parent = [] then 1 else 0)) hrest hf']
        · simp only [hpar, List.length_cons, List.replicate_succ, List.append_assoc,
            List.singleton_append, Option.some.injEq, Prod.mk.injEq, and_true]
          rw [FrameData.modifyAt_modifyAt, FrameData.modifyAt_append,
            FrameData.modifyAt_modifyAt]
          apply FrameData.modifyAt_congr _ _ parent tree sub hg
          cases sub
          simp only [FrameData.children] at hs
          subst hs
          by_cases hp : parent = [] <;>
            simp [hp, Function.comp, FrameData.modifyAt_cons, FrameData.modifyAt_nil_fun,
              FrameData.setChildren, FrameData.children, FrameData.modifyNth,
              FrameData.addCost, chainNodes]
        · rw [FrameData.getAt_modifyAt, FrameData.getAt_append, FrameData.getAt_modifyAt, hg]
          simp [FrameData.getAt_cons, FrameData.getAt_nil, hs]
        · rw [hpar, chainNodes_zero]
          simp [FrameData.addCost, FrameData.children]
      · simp only [chainNodes, hn, if_false] at hs
        simp only [hs, FrameData.findRow, hasKey_self, if_true]
        rw [ih _ fuel _ (parent ++ [0])
          ((FrameData.mk (value d.symbols id).symbol (value d.symbols id).binary
            (value d.locations id).location (value d.locations id).address
            (if decide (parent = []) = true then n else 0) n
            (chainNodes d.locations d.symbols n false rest)).addCost 1
              (if parent = [] then 1 else 0)) hrest hf']
        · simp only [hpar, List.length_cons, List.replicate_succ, List.append_assoc,
            List.singleton_append, Option.some.injEq, Prod.mk.injEq, and_true]
          rw [FrameData.modifyAt_modifyAt, FrameData.modifyAt_append]
          apply FrameData.modifyAt_congr _ _ parent tree sub hg
          cases sub
          simp only [FrameData.children] at hs
          subst hs
          by_cases hp : parent = [] <;>
            simp [hp, Function.comp, FrameData.modifyAt_cons, FrameData.modifyAt_nil_fun,
              FrameData.setChildren, FrameData.children, FrameData.modifyNth,
              FrameData.addCost, chainNodes]
        · rw [FrameData.getAt_modifyAt, FrameData.getAt_append, hg]
          simp [FrameData.getAt_cons, FrameData.getAt_nil, hs]
        · rw [hpar]
          simp [FrameData.addCost, FrameData.children]

theorem isChain_bounds (locations : List LocationData) (symbols : List SymbolData) :
    ∀ (ids : List Int) (id : Int), isChain locations symbols id ids = true →
      ∀ i ∈ ids, 0 ≤ i ∧ i < locations.length := by
  intro ids
  induction ids with
  | nil => intro id _ i hi; simp at hi
  | cons j rest ih =>
    intro id hc i hi
    simp only [isChain, Bool.and_eq_true, beq_iff_eq, decide_eq_true_eq] at hc
    obtain ⟨⟨⟨⟨_, h0⟩, h1⟩, _⟩, hrest⟩ := hc
    rcases List.mem_cons.mp hi with rfl | hi'
    · exact ⟨h0, h1⟩
    · exact ih _ hrest i hi'

/-- Distinct ids of registered locations are at most as many as the locations. -/
theorem length_le_of_nodup_of_bounds (ids : List Int) (n : Nat) (hnd : ids.Nodup)
    (hb : ∀ i ∈ ids, 0 ≤ i ∧ i < (n : Int)) : ids.length ≤ n := by
  have h1 : (ids.map Int.toNat).Nodup := by
    apply List.Nodup.map_on _ hnd
    intro a ha b hb' hab
    have := hb a ha
    have := hb b hb'
    omega
  have h2 : ids.map Int.toNat ⊆ List.range n := by
    intro x hx
    obtain ⟨a, ha, rfl⟩ := List.mem_map.mp hx
    have := hb a ha
    exact List.mem_range.mpr (by omega)
  have h3 := (List.subperm_of_subset h1 h2).length_le
  simpa using h3

/-- One sample of a chain of locations, folded into the path of `n` earlier
samples of the chain. -/
theorem addSample_chain (d : PerfParserPrivate) (n : Nat) (id : Int) (ids : List Int)
    (sample : Sample)
    (hroot : d.bottomUpResult =
      FrameData.mk "" "" "" "" 0 n (chainNodes d.locations d.symbols n true ids))
    (hchain : isChain d.locations d.symbols id ids = true)
    (hlen : ids.length ≤ d.locations.length) (hframes : sample.frames = [id]) :
    ∃ d', d.addSample sample = some d' ∧
      d'.bottomUpResult =
        FrameData.mk "" "" "" "" 0 (n + 1) (chainNodes d.locations d.symbols (n + 1) true ids) ∧
      d'.locations = d.locations ∧ d'.symbols = d.symbols := by
  have hloop := addFrameLoop_chain d n ids id (d.locations.length + 2)
    (d.bottomUpResult.addCost 1 0) [] (d.bottomUpResult.addCost 1 0) hchain (by omega)
    (FrameData.getAt_nil _) (by rw [hroot]; rfl)
  have hb : ∃ d1 : PerfParserPrivate, d.addSampleToBottomUp sample = some d1 ∧
      d1.bottomUpResult = FrameData.mk "" "" "" "" 0 (n + 1)
        (chainNodes d.locations d.symbols (n + 1) true ids) ∧
      d1.locations = d.locations ∧ d1.symbols = d.symbols := by
    simp only [PerfParserPrivate.addSampleToBottomUp, hframes, PerfParserPrivate.addFrames,
      PerfParserPrivate.addFrame, hloop]
    refine ⟨_, rfl, ?_, rfl, rfl⟩
    rw [hroot]
    rfl
  obtain ⟨d1, hd1, hr1, hl1, hs1⟩ := hb
  refine ⟨_, by rw [PerfParserPrivate.addSample, hd1], ?_, ?_, ?_⟩
  · rw [← hr1]
    simp only [PerfParserPrivate.addSampleToSummary]
    split_ifs <;> rfl
  · rw [← hl1]
    simp only [PerfParserPrivate.addSampleToSummary]
    split_ifs <;> rfl
  · rw [← hs1]
    simp only [PerfParserPrivate.addSampleToSummary]
    split_ifs <;> rfl

theorem addSamples_chain (id : Int) (ids : List Int) :
    ∀ (samples : List Sample) (d : PerfParserPrivate) (n : Nat),
      d.bottomUpResult =
        FrameData.mk "" "" "" "" 0 n (chainNodes d.locations d.symbols n true ids) →
      isChain d.locations d.symbols id ids = true →
      ids.length ≤ d.locations.length →
      (∀ s ∈ samples, s.frames = [id]) →
      ∃ d', addSamples d samples = some d' ∧
        d'.bottomUpResult = FrameData.mk "" "" "" "" 0 (n + samples.length)
          (chainNodes d.locations d.symbols (n + samples.length) true ids) := by
  intro samples
  induction samples with
  | nil => intro d n hroot _ _ _; exact ⟨d, rfl, hroot⟩
  | cons s ss ih =>
    intro d n hroot hchain hlen hframes
    obtain ⟨d1, h1, hr1, hl1, hs1⟩ := addSample_chain d n id ids s hroot hchain hlen
      (hframes s (List.mem_cons_self _ _))
    obtain ⟨d', h2, hr2⟩ := ih d1 (n + 1) (by rw [hl1, hs1]; exact hr1)
      (by rw [hl1, hs1]; exact hchain) (by rw [hl1]; exact hlen)
      (fun s' hs' => hframes s' (List.mem_cons_of_mem _ hs'))
    refine ⟨d', by rw [addSamples, h1]; exact h2, ?_⟩
    have hadd : n + 1 + ss.length = n + (ss.length + 1) := by omega
    rw [hr2, hl1, hs1, List.length_cons, hadd]

/-- C10: from an empty bottom-up tree, `N ≥ 1` samples whose frame list is the
innermost location `id` of one chain `id :: rest` of registered locations
(each the parent of the one before, the last without parent, all with valid
pairwise distinct symbols) fold into a single path below the root, innermost
location first: the root has inclusive cost `N` and one child, which has self
cost `N` and inclusive cost `N`; every node below has inclusive cost `N` and
self cost `0`, one child each, and the outermost node has no children. -/
theorem bottomUp_common_chain (d : PerfParserPrivate) (id : Int) (rest : List Int)
    (samples : List Sample) (hempty : d.bottomUpResult = FrameData.empty)
    (hchain : isChain d.locations d.symbols id (id :: rest) = true)
    (hdistinct : ((id :: rest).map (value d.symbols)).Nodup)
    (hframes : ∀ s ∈ samples, s.frames = [id]) (hN : samples ≠ []) :
    ∃ d', addSamples d samples = some d' ∧
      d'.bottomUpResult = FrameData.mk "" "" "" "" 0 samples.length
        [FrameData.mk (value d.symbols id).symbol (value d.symbols id).binary
          (value d.locations id).location (value d.locations id).address
          samples.length samples.length
          (chainNodes d.locations d.symbols samples.length false rest)] := by
  have hlen : (id :: rest).length ≤ d.locations.length :=
    length_le_of_nodup_of_bounds _ _ (List.Nodup.of_map _ hdistinct)
      (isChain_bounds _ _ _ _ hchain)
  obtain ⟨d', h1, h2⟩ := addSamples_chain id (id :: rest) samples d 0
    (by rw [hempty, chainNodes_zero]; rfl) hchain hlen hframes
  refine ⟨d', h1, ?_⟩
  have hpos : samples.length ≠ 0 := by
    intro h; exact hN (List.length_eq_zero.mp h)
  rw [h2]
  simp [chainNodes, hpos]

theorem bottomUp_common_chain_witness :
    ∃ d', addSamples
        { strings := ["main"],
          locations := [{ parentLocationId := -1, address := "400" }],
          symbols := [{ symbol := "main" }] }
        [{ pid := 1, tid := 1, time := 100, frames := [0] }] = some d' ∧
      d'.bottomUpResult =
        FrameData.mk "" "" "" "" 0 1 [FrameData.mk "main" "" "" "400" 1 1 []] :=
  bottomUp_common_chain
    { strings := ["main"],
      locations := [{ parentLocationId := -1, address := "400" }],
      symbols := [{ symbol := "main" }] }
    0 [] [{ pid := 1, tid := 1, time := 100, frames := [0] }] rfl (by decide) (by decide)
    (by simp) (by simp)

/-! ## The bound on the walk of `addFrame` -/

theorem addFrameLoop_mono (d : PerfParserPrivate) :
    ∀ (fuel : Nat) (tree : FrameData) (parent : List Nat) (id : Int) (skip : Bool)
      (r : FrameData × List Nat),
      d.addFrameLoop fuel tree parent id skip = some r →
      ∀ fuel', fuel ≤ fuel' → d.addFrameLoop fuel' tree parent id skip = some r := by
  intro fuel
  induction fuel with
  | zero => intro tree parent id skip r h; simp [PerfParserPrivate.addFrameLoop] at h
  | succ fuel ih =>
    intro tree parent id skip r h fuel' hle
    obtain ⟨f, rfl⟩ : ∃ f, fuel' = f + 1 := ⟨fuel' - 1, by omega⟩
    have hle' : fuel ≤ f := by omega
    simp only [PerfParserPrivate.addFrameLoop] at h ⊢
    by_cases hid : id = -1
    · simpa [hid] using h
    · simp only [hid, if_false] at h ⊢
      cases skip with
      | true =>
        simp only [if_true] at h ⊢
        exact ih _ _ _ _ _ h f hle'
      | false =>
        simp only [Bool.false_eq_true, if_false] at h ⊢
        exact ih _ _ _ _ _ h f hle'

/-- The loop runs out of fuel exactly when none of the ids it meets within
the fuel is `-1`. -/
theorem addFrameLoop_eq_none_iff (d : PerfParserPrivate) :
    ∀ (fuel : Nat) (tree : FrameData) (parent : List Nat) (id : Int) (skip : Bool),
      d.addFrameLoop fuel tree parent id skip = none ↔
        ∀ j, j < fuel → (parentOf d)^[j] id ≠ -1 := by
  intro fuel
  induction fuel with
  | zero => intro tree parent id skip; simp [PerfParserPrivate.addFrameLoop]
  | succ fuel ih =>
    intro tree parent id skip
    simp only [PerfParserPrivate.addFrameLoop]
    by_cases hid : id = -1
    · simp only [hid, if_true]
      constructor
      · intro h; cases h
      · intro h; exact absurd rfl (h 0 (by omega))
    · simp only [hid, if_false]
      have key : (∀ j, j < fuel + 1 → (parentOf d)^[j] id ≠ -1) ↔
          ∀ j, j < fuel → (parentOf d)^[j] (parentOf d id) ≠ -1 := by
        constructor
        · intro h j hj
          have := h (j + 1) (by omega)
          rwa [Function.iterate_succ_apply] at this
        · intro h j hj
          cases j with
          | zero => exact hid
          | succ j =>
            rw [Function.iterate_succ_apply]
            exact h j (by omega)
      rw [key]
      cases skip with
      | true =>
        simp only [if_true]
        exact ih _ _ _ _
      | false =>
        simp only [Bool.false_eq_true, if_false]
        exact ih _ _ _ _

theorem parentOf_of_not_range (d : PerfParserPrivate) (id : Int)
    (h : ¬ (0 ≤ id ∧ id < d.locations.length)) : parentOf d id = -1 := by
  simp only [parentOf, value, h, if_false]
  rfl

/-- A walk that meets no `-1` among its first `locations.size() + 2` ids meets
none at all: it has come back to an id it met before. -/
theorem iterate_parentOf_ne (d : PerfParserPrivate) (id : Int)
    (h : ∀ j, j < d.locations.length + 2 → (parentOf d)^[j] id ≠ -1) :
    ∀ j, (parentOf d)^[j] id ≠ -1 := by
  have hrange : ∀ j, j ≤ d.locations.length →
      0 ≤ (parentOf d)^[j] id ∧ (parentOf d)^[j] id < d.locations.length := by
    intro j hj
    by_contra hc
    have := parentOf_of_not_range d _ hc
    rw [show parentOf d ((parentOf d)^[j] id) = (parentOf d)^[j + 1] id from
      (Function.iterate_succ_apply' _ _ _).symm] at this
    exact h (j + 1) (by omega) this
  -- two of the first `locations.size() + 1` ids are equal
  obtain ⟨a, ha, b, hb, hab, heq⟩ :=
    Finset.exists_ne_map_eq_of_card_lt_of_maps_to
      (s := Finset.range (d.locations.length + 1)) (t := Finset.range d.locations.length)
      (f := fun j => ((parentOf d)^[j] id).toNat) (by simp)
      (by
        intro j hj
        have := hrange j (by simpa [Nat.lt_succ_iff] using hj)
        show ((parentOf d)^[j] id).toNat ∈ (Finset.range d.locations.length : Set Nat)
        simp only [Finset.coe_range, Set.mem_Iio]
        omega)
  have ha' : a ≤ d.locations.length := by simpa [Nat.lt_succ_iff] using ha
  have hb' : b ≤ d.locations.length := by simpa [Nat.lt_succ_iff] using hb
  have heq' : (parentOf d)^[a] id = (parentOf d)^[b] id := by
    have h1 := hrange a ha'
    have h2 := hrange b hb'
    have : ((parentOf d)^[a] id).toNat = ((parentOf d)^[b] id).toNat := heq
    omega
  -- without loss of generality `a < b`
  have main : ∀ a b, a < b → b ≤ d.locations.length →
      (parentOf d)^[a] id = (parentOf d)^[b] id → ∀ j, (parentOf d)^[j] id ≠ -1 := by
    intro a b hlt hbl hab' j
    induction j using Nat.strong_induction_on with
    | _ j ih =>
      by_cases hj : j < b
      · exact h j (by omega)
      · have hper : (parentOf d)^[j] id = (parentOf d)^[j - (b - a)] id := by
          have e1 : j = (j - b) + b := by omega
          have e2 : j - (b - a) = (j - b) + a := by omega
          rw [e2, Function.iterate_add_apply, hab', ← Function.iterate_add_apply, ← e1]
        rw [hper]
        exact ih _ (by omega)
  rcases Nat.lt_or_gt_of_ne hab with hlt | hgt
  · exact main a b hlt hb' heq'
  · exact main b a hgt ha' heq'.symm

/-- The bound in `addFrame` loses nothing: with any larger amount of fuel the
loop gives the same result, which is `none` exactly when the walk never meets
the id `-1`. -/
theorem addFrame_fuel (d : PerfParserPrivate) (tree : FrameData) (parent : List Nat)
    (id : Int) :
    (∀ fuel, d.locations.length + 2 ≤ fuel →
      d.addFrameLoop fuel tree parent id false = d.addFrame tree parent id) ∧
    (d.addFrame tree parent id = none ↔ ∀ j, (parentOf d)^[j] id ≠ -1) := by
  have hnone : d.addFrame tree parent id = none ↔ ∀ j, (parentOf d)^[j] id ≠ -1 := by
    unfold PerfParserPrivate.addFrame
    rw [addFrameLoop_eq_none_iff]
    exact ⟨iterate_parentOf_ne d id, fun h j _ => h j⟩
  refine ⟨fun fuel hle => ?_, hnone⟩
  cases hr : d.addFrame tree parent id with
  | none =>
    rw [addFrameLoop_eq_none_iff]
    exact fun j _ => hnone.mp hr j
  | some r => exact addFrameLoop_mono d _ _ _ _ _ r hr fuel hle

/-! ## Symbol-less locations -/

theorem value_neg_one_symbol (symbols : List SymbolData) :
    (value symbols (-1)).isValid = false := by
  have h : ¬ ((0 : Int) ≤ -1 ∧ (-1 : Int) < symbols.length) := by omega
  simp only [value, h, if_false, SymbolData.isValid, default]
  decide

theorem parentOf_neg_one (d : PerfParserPrivate) : parentOf d (-1) = -1 := by
  have h : ¬ ((0 : Int) ≤ -1 ∧ (-1 : Int) < d.locations.length) := by omega
  simp only [parentOf, value, h, if_false, default]

/-! ## The summary -/

/-- C15 fails for a single sample: whatever the sample is, after it is folded into a
new summary the start time is its time stamp and the end time is still 0; for the time
stamp 100 the running time that `finalize` computes is `2^64 - 100`, not 0. With
the time stamps 100, 100, 150 the second sample sets the end time, and the
bounds are 100 and 150 with the running time 50. -/
theorem summary_single_sample_end_time :
    (∀ sample : Sample,
      (PerfParserPrivate.addSampleToSummary {} sample).applicationStartTime = sample.time ∧
      (PerfParserPrivate.addSampleToSummary {} sample).applicationEndTime = 0) ∧
    (addSamples {} [{ time := 100 }]).map
        (fun d => (d.applicationStartTime, d.applicationEndTime,
          d.finalize.summaryResult.applicationRunningTime))
      = some (100, 0, 2 ^ 64 - 100) ∧
    (addSamples {} [{ time := 100 }, { time := 100 }, { time := 150 }]).map
        (fun d => (d.applicationStartTime, d.applicationEndTime,
          d.finalize.summaryResult.applicationRunningTime))
      = some (100, 150, 50) := by
  refine ⟨?_, by decide!, by decide!⟩
  intro sample
  simp [PerfParserPrivate.addSampleToSummary]

theorem joinArgs_eq_intercalate (args : List (List Byte)) :
    PerfParserPrivate.joinArgs args = List.intercalate [32] args := by
  match args with
  | [] => rfl
  | [a] => simp [PerfParserPrivate.joinArgs, List.intercalate]
  | a :: b :: rest =>
    have ih := joinArgs_eq_intercalate (b :: rest)
    rw [PerfParserPrivate.joinArgs, ih]
    simp [List.intercalate, List.intersperse]

/-- C16, as claimed, fails: for the command line `perf`, `record`, `ls` the command
string is `perf record ls`, while the arguments after the first joined by spaces are
`record ls`: the literal `perf` and a space stand before them. -/
theorem setFeatures_command_has_prefix :
    ((PerfParserPrivate.setFeatures {}
        { cmdline := [[112, 101, 114, 102], [114, 101, 99, 111, 114, 100], [108, 115]] }
      ).summaryResult.command = "perf record ls") ∧
    fromUtf8 (PerfParserPrivate.joinArgs [[114, 101, 99, 111, 114, 100], [108, 115]])
      = "record ls" := by
  constructor <;> decide

/-- C16, amended: for a non-empty `cmdline` the command string is the literal `perf`
and a space, followed by the arguments after the first one joined by single spaces, in
their order; the first argument has no influence on it and the rest of the summary is
left as it was. -/
theorem setFeatures_command (d : PerfParserPrivate) (features : FeaturesDefinition)
    (first : List Byte) (rest : List (List Byte)) (h : features.cmdline = first :: rest) :
    (d.setFeatures features).summaryResult =
      { d.summaryResult with
        command := "perf " ++ fromUtf8 (List.intercalate [32] rest) } := by
  simp only [PerfParserPrivate.setFeatures, h, List.drop_succ_cons, List.drop_zero,
    joinArgs_eq_intercalate]

theorem setFeatures_command_witness :
    (PerfParserPrivate.setFeatures {}
        { cmdline := [[47, 112], [114, 101, 99], [108, 115]] }).summaryResult =
      { ({} : PerfParserPrivate).summaryResult with
        command := "perf " ++ fromUtf8 (List.intercalate [32] [[114, 101, 99], [108, 115]]) } :=
  setFeatures_command {} { cmdline := [[47, 112], [114, 101, 99], [108, 115]] }
    [47, 112] [[114, 101, 99], [108, 115]] rfl

/-! ## Walks along identity keys -/

namespace FrameData

theorem hasKey_iff (row : FrameData) (k : FrameKey) :
    row.hasKey k.symbol k.binary k.location k.address = true ↔ row.key = k := by
  cases k
  simp [hasKey, key, and_assoc]

theorem findKey_nil (k : FrameKey) : findKey k [] = none := rfl

theorem findKey_cons (k : FrameKey) (c : FrameData) (cs : List FrameData) :
    findKey k (c :: cs) = if c.key = k then some 0 else (findKey k cs).map (· + 1) := by
  unfold findKey
  rw [findRow]
  by_cases h : c.key = k
  · rw [if_pos h, if_pos ((hasKey_iff c k).mpr h)]
  · rw [if_neg h, if_neg (fun h1 => h ((hasKey_iff c k).mp h1))]

theorem findKey_some (k : FrameKey) :
    ∀ (cs : List FrameData) (i : Nat), findKey k cs = some i →
      ∃ c, cs.get? i = some c ∧ c.key = k
  | [], i, h => by simp [findKey_nil] at h
  | c :: cs, i, h => by
    rw [findKey_cons] at h
    by_cases hc : c.key = k
    · rw [if_pos hc] at h
      cases h
      exact ⟨c, rfl, hc⟩
    · rw [if_neg hc] at h
      cases hf : findKey k cs with
      | none => rw [hf] at h; cases h
      | some j =>
        rw [hf] at h
        cases h
        exact findKey_some k cs j hf

theorem findKey_none (k : FrameKey) :
    ∀ (cs : List FrameData), findKey k cs = none → ∀ c ∈ cs, c.key ≠ k
  | [], _, c, hc => by cases hc
  | c0 :: cs, h, c, hc => by
    rw [findKey_cons] at h
    by_cases h0 : c0.key = k
    · rw [if_pos h0] at h; cases h
    · rw [if_neg h0] at h
      cases hf : findKey k cs with
      | some j => rw [hf] at h; cases h
      | none =>
        rcases List.mem_cons.mp hc with rfl | hc
        · exact h0
        · exact findKey_none k cs hf c hc

theorem findKey_congr (k : FrameKey) :
    ∀ (cs cs' : List FrameData), cs.map key = cs'.map key → findKey k cs = findKey k cs'
  | [], [], _ => rfl
  | [], _ :: _, h => by cases h
  | _ :: _, [], h => by cases h
  | c :: cs, c' :: cs', h => by
    simp only [List.map_cons, List.cons.injEq] at h
    rw [findKey_cons, findKey_cons, h.1, findKey_congr k cs cs' h.2]

theorem findKey_append (k : FrameKey) (cs' : List FrameData) :
    ∀ (cs : List FrameData), findKey k (cs ++ cs') =
      match findKey k cs with
      | some i => some i
      | none => (findKey k cs').map (· + cs.length)
  | [] => by
    simp only [List.nil_append, findKey_nil, List.length_nil, Nat.add_zero]
    cases findKey k cs' <;> rfl
  | c :: cs => by
    rw [List.cons_append, findKey_cons, findKey_cons, findKey_append k cs' cs]
    by_cases hc : c.key = k
    · simp only [if_pos hc]
    · simp only [if_neg hc]
      cases findKey k cs with
      | some i => rfl
      | none =>
        cases findKey k cs' with
        | none => rfl
        | some j => simp [Nat.add_assoc]

@[simp] theorem key_addCost (inc self : Nat) (t : FrameData) :
    (t.addCost inc self).key = t.key := by
  cases t; rfl

@[simp] theorem key_setChildren (t : FrameData) (cs : List FrameData) :
    (t.setChildren cs).key = t.key := by
  cases t; rfl

@[simp] theorem selfCost_setChildren (t : FrameData) (cs : List FrameData) :
    (t.setChildren cs).selfCost = t.selfCost := by
  cases t; rfl

@[simp] theorem selfCost_addCost (inc self : Nat) (t : FrameData) :
    (t.addCost inc self).selfCost = t.selfCost + self := by
  cases t; rfl

theorem key_insertPath (inc : Nat) :
    ∀ (ks : List FrameKey) (self : Nat) (t : FrameData), (insertPath inc self ks t).key = t.key
  | [], _, _ => rfl
  | k :: ks, self, t => by
    rw [insertPath]
    cases findKey k t.children <;> simp only [key_setChildren]

theorem inclusiveCost_insertPath (inc : Nat) :
    ∀ (ks : List FrameKey) (self : Nat) (t : FrameData),
      (insertPath inc self ks t).inclusiveCost = t.inclusiveCost
  | [], _, _ => rfl
  | k :: ks, self, t => by
    rw [insertPath]
    cases findKey k t.children <;> simp only [inclusiveCost_setChildren]

theorem selfCost_insertPath (inc : Nat) :
    ∀ (ks : List FrameKey) (self : Nat) (t : FrameData),
      (insertPath inc self ks t).selfCost = t.selfCost
  | [], _, _ => rfl
  | k :: ks, self, t => by
    rw [insertPath]
    cases findKey k t.children <;> simp only [selfCost_setChildren]

theorem map_key_modifyNth (f : FrameData → FrameData) (hf : ∀ c, (f c).key = c.key) :
    ∀ (i : Nat) (cs : List FrameData), (modifyNth f i cs).map key = cs.map key
  | _, [] => by simp [modifyNth]
  | 0, c :: cs => by simp [modifyNth, hf]
  | i + 1, c :: cs => by simp [modifyNth, map_key_modifyNth f hf i cs]

/-- One step of a walk, seen from the node the cursor points to. -/
theorem walk_step (inc self : Nat) (k : FrameKey) (tree : FrameData) (cursor : List Nat)
    (sub : FrameData) (h : tree.getAt cursor = some sub) :
    ∃ sub', ((addFrame tree cursor k.symbol k.binary k.location k.address).1.modifyAt
          (addCost inc self)
          (addFrame tree cursor k.symbol k.binary k.location k.address).2).getAt
        (addFrame tree cursor k.symbol k.binary k.location k.address).2 = some sub' ∧
      ∀ ks, ((addFrame tree cursor k.symbol k.binary k.location k.address).1.modifyAt
          (addCost inc self)
          (addFrame tree cursor k.symbol k.binary k.location k.address).2).modifyAt
          (insertPath inc 0 ks)
          (addFrame tree cursor k.symbol k.binary k.location k.address).2 =
        tree.modifyAt (insertPath inc self (k :: ks)) cursor := by
  unfold addFrame
  rw [h]
  dsimp only
  cases hf : findRow k.symbol k.binary k.location k.address sub.children with
  | some i =>
    dsimp only
    obtain ⟨c, hc, -⟩ := findKey_some k sub.children i hf
    have hg : tree.getAt (cursor ++ [i]) = some c := by
      rw [getAt_append, h]
      rw [Option.some_bind, getAt_cons, hc]
      rfl
    refine ⟨c.addCost inc self, ?_, ?_⟩
    · rw [getAt_modifyAt, hg]; rfl
    · intro ks
      rw [modifyAt_modifyAt, modifyAt_append]
      apply modifyAt_congr _ _ cursor tree sub h
      rw [modifyAt_cons, modifyAt_nil_fun, insertPath]
      have hf' : findKey k sub.children = some i := hf
      rw [hf']
      rfl
  | none =>
    dsimp only
    have hg : (modifyAt (fun n => n.setChildren (n.children ++
          [mk k.symbol k.binary k.location k.address 0 0 []])) cursor tree).getAt
        (cursor ++ [sub.children.length]) =
          some (mk k.symbol k.binary k.location k.address 0 0 []) := by
      rw [getAt_append, getAt_modifyAt, h]
      simp [getAt_cons, getAt_nil]
    refine ⟨(mk k.symbol k.binary k.location k.address 0 0 []).addCost inc self, ?_, ?_⟩
    · rw [getAt_modifyAt, hg]; rfl
    · intro ks
      rw [modifyAt_modifyAt, modifyAt_append, modifyAt_modifyAt]
      apply modifyAt_congr _ _ cursor tree sub h
      simp only [Function.comp, modifyAt_cons, modifyAt_nil_fun, children_setChildren]
      rw [insertPath]
      have hf' : findKey k sub.children = none := hf
      rw [hf']
      have hm : modifyNth (insertPath inc 0 ks ∘ addCost inc self)
          sub.children.length
          (sub.children ++ [mk k.symbol k.binary k.location k.address 0 0 []]) =
          sub.children ++ [insertPath inc 0 ks
            (mk k.symbol k.binary k.location k.address self inc [])] := by
        generalize sub.children = cs
        induction cs with
        | nil => simp [modifyNth, addCost]
        | cons c cs ih => simp [modifyNth, ih]
      rw [hm]
      cases sub
      rfl

/-- The tree a walk leaves is the tree with the walk applied to the node at the cursor. -/
theorem walk_fst (inc : Nat) :
    ∀ (ks : List FrameKey) (self : Nat) (tree : FrameData) (cursor : List Nat) (sub : FrameData),
      tree.getAt cursor = some sub →
      (walk inc self ks tree cursor).1 = tree.modifyAt (insertPath inc self ks) cursor
  | [], self, tree, cursor, sub, h => by
    rw [walk]
    exact (modifyAt_id_of_getAt _ cursor tree sub h rfl).symm
  | k :: ks, self, tree, cursor, sub, h => by
    rw [walk]
    obtain ⟨sub', h1, h2⟩ := walk_step inc self k tree cursor sub h
    rw [walk_fst inc ks 0 _ _ sub' h1, h2 ks]

end FrameData

namespace FrameData

theorem find_cons (t : FrameData) (k : FrameKey) (ks : List FrameKey) :
    t.find (k :: ks) = (t.childAt k).bind (fun c => c.find ks) := by
  rw [find, childAt]
  cases findKey k t.children with
  | none => rfl
  | some i =>
    simp only [Option.some_bind]
    cases t.children.get? i <;> rfl

theorem childAt_key (t : FrameData) (k : FrameKey) (c : FrameData) (h : t.childAt k = some c) :
    c.key = k := by
  unfold childAt at h
  cases hf : findKey k t.children with
  | none => rw [hf] at h; cases h
  | some i =>
    rw [hf] at h
    obtain ⟨c', hc', hk⟩ := findKey_some k _ i hf
    simp only [Option.some_bind] at h
    rw [hc'] at h
    cases h
    exact hk

theorem childAt_congr_children (t t' : FrameData) (h : t.children = t'.children)
    (k : FrameKey) : t.childAt k = t'.childAt k := by
  unfold childAt
  rw [h]

theorem find_congr_children (t t' : FrameData) (h : t.children = t'.children)
    (k : FrameKey) (ks : List FrameKey) : t.find (k :: ks) = t'.find (k :: ks) := by
  rw [find_cons, find_cons, childAt_congr_children t t' h]

theorem get?_modifyNth_ne (f : FrameData → FrameData) :
    ∀ (i j : Nat) (cs : List FrameData), i ≠ j → (modifyNth f i cs).get? j = cs.get? j
  | _, _, [], _ => by simp [modifyNth]
  | 0, 0, _ :: _, h => absurd rfl h
  | 0, j + 1, c :: cs, _ => by simp [modifyNth]
  | i + 1, 0, c :: cs, _ => by simp [modifyNth]
  | i + 1, j + 1, c :: cs, h => by
    simp only [modifyNth, List.get?_cons_succ]
    exact get?_modifyNth_ne f i j cs (fun h' => h (by rw [h']))

/-- The children of a node after a walk from it, looked up by key. -/
theorem childAt_insertPath (inc self : Nat) (k : FrameKey) (ks : List FrameKey)
    (t : FrameData) (k0 : FrameKey) :
    (insertPath inc self (k :: ks) t).childAt k0 =
      if k0 = k then
        some (insertPath inc 0 ks
          (match t.childAt k with
            | some c => c.addCost inc self
            | none => mk k.symbol k.binary k.location k.address self inc []))
      else t.childAt k0 := by
  rw [insertPath]
  cases hf : findKey k t.children with
  | some i =>
    dsimp only
    obtain ⟨c, hc, hck⟩ := findKey_some k _ i hf
    have hkeys : (modifyNth (fun c => insertPath inc 0 ks (c.addCost inc self)) i
        t.children).map key = t.children.map key :=
      map_key_modifyNth _ (fun c => by rw [key_insertPath, key_addCost]) i _
    have hfind : ∀ k1, findKey k1 (modifyNth (fun c => insertPath inc 0 ks
        (c.addCost inc self)) i t.children) = findKey k1 t.children :=
      fun k1 => findKey_congr k1 _ _ hkeys
    unfold childAt
    rw [children_setChildren, hfind]
    by_cases h0 : k0 = k
    · subst h0
      rw [if_pos rfl, hf]
      simp only [Option.some_bind]
      rw [get?_modifyNth, hc]
      rfl
    · rw [if_neg h0]
      cases hf0 : findKey k0 t.children with
      | none => rfl
      | some j =>
        simp only [Option.some_bind]
        obtain ⟨c0, hc0, hck0⟩ := findKey_some k0 _ j hf0
        have hij : i ≠ j := by
          intro hij
          subst hij
          rw [hc] at hc0
          cases hc0
          exact h0 (hck0.symm.trans hck)
        exact get?_modifyNth_ne _ i j _ hij
  | none =>
    dsimp only
    have hnone : t.childAt k = none := by
      unfold childAt
      rw [hf]
      rfl
    rw [hnone]
    unfold childAt
    rw [children_setChildren, findKey_append]
    by_cases h0 : k0 = k
    · subst h0
      rw [if_pos rfl, hf]
      dsimp only
      rw [findKey_cons, if_pos (by rw [key_insertPath]; rfl)]
      simp only [Option.map_some', Nat.zero_add, Option.some_bind]
      rw [List.get?_eq_getElem?, List.getElem?_append_right (Nat.le_refl _)]
      simp
    · rw [if_neg h0]
      cases hf0 : findKey k0 t.children with
      | some j =>
        dsimp only
        simp only [Option.some_bind]
        obtain ⟨c0, hc0, -⟩ := findKey_some k0 _ j hf0
        have hj : j < t.children.length := by
          rcases Nat.lt_or_ge j t.children.length with h | h
          · exact h
          · rw [List.get?_eq_none.mpr h] at hc0
            cases hc0
        rw [List.get?_eq_getElem?, List.get?_eq_getElem?, List.getElem?_append_left hj]
      | none =>
        dsimp only
        rw [findKey_cons, if_neg (by rw [key_insertPath]; exact fun h => h0 h.symm)]
        rfl

theorem costOf_insertPath (b : Bool) (inc self : Nat) (ks : List FrameKey) (t : FrameData) :
    costOf b (insertPath inc self ks t) = costOf b t := by
  cases b
  · simp only [costOf, Bool.false_eq_true, if_false, selfCost_insertPath]
  · simp only [costOf, if_true, inclusiveCost_insertPath]

theorem costOf_addCost (b : Bool) (inc self : Nat) (t : FrameData) :
    costOf b (t.addCost inc self) = costOf b t + (if b then inc else self) := by
  cases b
  · simp only [costOf, Bool.false_eq_true, if_false, selfCost_addCost]
  · simp only [costOf, if_true, inclusiveCost_addCost]

theorem costAt_cons (b : Bool) (t : FrameData) (k : FrameKey) (ks : List FrameKey) :
    costAt b t (k :: ks) =
      match t.childAt k with
      | some c => costAt b c ks
      | none => 0 := by
  unfold costAt
  rw [find_cons]
  cases t.childAt k <;> rfl

theorem costAt_nil (b : Bool) (t : FrameData) : costAt b t [] = costOf b t := rfl

theorem costAt_congr_children (b : Bool) (t t' : FrameData) (h : t.children = t'.children)
    (k : FrameKey) (ks : List FrameKey) : costAt b t (k :: ks) = costAt b t' (k :: ks) := by
  unfold costAt
  rw [find_congr_children t t' h]

/-- The costs after a walk from a node: the walk adds `inc` to the inclusive
cost of the nodes on its path and `self` to the self cost of the first of
them; the costs at all other paths of keys are as before. -/
theorem costAt_insertPath (b : Bool) (inc : Nat) :
    ∀ (ks : List FrameKey) (self : Nat) (t : FrameData) (path : List FrameKey), path ≠ [] →
      costAt b (insertPath inc self ks t) path =
        costAt b t path +
          (if path <+: ks then (if b then inc else if path.length = 1 then self else 0) else 0)
  | [], self, t, path, hp => by
    rw [insertPath, if_neg (fun h => hp (List.prefix_nil.mp h))]
    rfl
  | k :: ks, self, t, [], hp => absurd rfl hp
  | k :: ks, self, t, k0 :: path, _ => by
    rw [costAt_cons, childAt_insertPath, costAt_cons]
    by_cases h0 : k0 = k
    · subst h0
      rw [if_pos rfl]
      dsimp only
      have hpre : (k0 :: path <+: k0 :: ks) ↔ path <+: ks := by
        simp [List.cons_prefix_cons]
      simp only [hpre]
      cases path with
      | nil =>
        rw [costAt_nil, costOf_insertPath, if_pos (List.nil_prefix)]
        cases t.childAt k0 with
        | none =>
          cases b <;> simp [costOf, selfCost, inclusiveCost]
        | some c =>
          dsimp only
          rw [costOf_addCost, costAt_nil]
          cases b <;> simp
      | cons k1 path =>
        rw [costAt_insertPath b inc ks 0 _ (k1 :: path) (by simp)]
        have hlen : (k0 :: k1 :: path).length ≠ 1 := by simp
        simp only [hlen, if_false, ite_self]
        cases t.childAt k0 with
        | none =>
          dsimp only
          have : costAt b (mk k0.symbol k0.binary k0.location k0.address self inc [])
              (k1 :: path) = 0 := by
            rw [costAt_cons]
            rfl
          rw [this]
        | some c =>
          dsimp only
          rw [costAt_congr_children b (c.addCost inc self) c (children_addCost _ _ _)]
    · rw [if_neg h0]
      have hpre : ¬ (k0 :: path <+: k :: ks) := by
        intro h
        rw [List.cons_prefix_cons] at h
        exact h0 h.1
      rw [if_neg hpre, Nat.add_zero]

end FrameData

theorem addFrame_snd_ne_nil (t : FrameData) (parent : List Nat) (s b l a : String) :
    (FrameData.addFrame t parent s b l a).2 ≠ [] := by
  rcases FrameData.addFrame_snd t parent s b l a with ⟨h1, h2⟩ | ⟨j, hj⟩
  · rw [h2]
    intro h
    rw [show parent = [] from h, FrameData.getAt_nil] at h1
    cases h1
  · rw [hj]
    simp

namespace FrameData

theorem walk_snd_ne_nil (inc : Nat) :
    ∀ (ks : List FrameKey) (self : Nat) (tree : FrameData) (cursor : List Nat),
      cursor ≠ [] ∨ ks ≠ [] → (walk inc self ks tree cursor).2 ≠ []
  | [], _, _, cursor, h => by
    rw [walk]
    rcases h with h | h
    · exact h
    · exact absurd rfl h
  | k :: ks, self, tree, cursor, _ => by
    rw [walk]
    exact walk_snd_ne_nil inc ks 0 _ _ (Or.inl (addFrame_snd_ne_nil _ _ _ _ _ _))

theorem walk_append (inc : Nat) (ks' : List FrameKey) :
    ∀ (ks : List FrameKey) (self : Nat) (tree : FrameData) (cursor : List Nat),
      walk inc self (ks ++ ks') tree cursor =
        walk inc (if ks = [] then self else 0) ks'
          (walk inc self ks tree cursor).1 (walk inc self ks tree cursor).2
  | [], _, _, _ => rfl
  | k :: ks, self, tree, cursor => by
    rw [List.cons_append, walk, walk, walk_append inc ks' ks]
    by_cases h : ks = []
    · subst h; rfl
    · simp only [if_neg h, reduceCtorEq, if_false]

/-- The pointer a walk returns points into the tree it returns. -/
theorem walk_getAt (inc : Nat) :
    ∀ (ks : List FrameKey) (self : Nat) (tree : FrameData) (cursor : List Nat) (sub : FrameData),
      tree.getAt cursor = some sub →
      ∃ sub', (walk inc self ks tree cursor).1.getAt (walk inc self ks tree cursor).2 = some sub'
  | [], _, _, _, sub, h => ⟨sub, h⟩
  | k :: ks, self, tree, cursor, sub, h => by
    rw [walk]
    obtain ⟨sub', h1, -⟩ := walk_step inc self k tree cursor sub h
    exact walk_getAt inc ks 0 _ _ sub' h1

end FrameData

/-- The loop of the static `buildTopDownResult` is a walk along the keys of the
leaf and its parents. -/
theorem topDownWalk_eq_walk (rowCost : Nat) :
    ∀ (nodes : List FrameData) (isRow : Bool) (topDownData : FrameData) (stack : List Nat),
      PerfParserPrivate.topDownWalk rowCost nodes isRow topDownData stack =
        (FrameData.walk rowCost (if isRow then 1 else 0) (nodes.map FrameData.key)
          topDownData stack).1
  | [], _, _, _ => rfl
  | node :: nodes, isRow, topDownData, stack => by
    rw [PerfParserPrivate.topDownWalk, List.map_cons, FrameData.walk,
      topDownWalk_eq_walk rowCost nodes false]
    rfl

theorem topDownWalk_eq_insertPath (rowCost : Nat) (nodes : List FrameData)
    (topDownData : FrameData) :
    PerfParserPrivate.topDownWalk rowCost nodes true topDownData [] =
      FrameData.insertPath rowCost 1 (nodes.map FrameData.key) topDownData := by
  rw [topDownWalk_eq_walk, FrameData.walk_fst rowCost _ _ _ [] topDownData rfl]
  rfl

/-- The loop of `addFrame(parent, id)` is the walk along the keys it visits. -/
theorem addFrameLoop_eq_walk (d : PerfParserPrivate) :
    ∀ (fuel : Nat) (tree : FrameData) (parent : List Nat) (id : Int) (skip : Bool),
      d.addFrameLoop fuel tree parent id skip =
        (visitedKeys d fuel id skip).map
          (fun ks => FrameData.walk 1 (if parent = [] then 1 else 0) ks tree parent)
  | 0, _, _, _, _ => rfl
  | fuel + 1, tree, parent, id, skip => by
    rw [PerfParserPrivate.addFrameLoop, visitedKeys]
    by_cases hid : id = -1
    · simp only [hid, if_true, Option.map_some']
      rfl
    · simp only [hid, if_false]
      cases skip with
      | true =>
        simp only [if_true]
        exact addFrameLoop_eq_walk d fuel tree parent _ false
      | false =>
        simp only [Bool.false_eq_true, if_false]
        rw [addFrameLoop_eq_walk d fuel, Option.map_map]
        congr 1
        funext ks
        simp only [Function.comp, FrameData.walk, if_neg (addFrame_snd_ne_nil _ _ _ _ _ _)]

theorem sampleKeys_cons (d : PerfParserPrivate) (id : Int) (ids : List Int) :
    sampleKeys d (id :: ids) =
      (visitedKeys d (d.locations.length + 2) id false).bind
        (fun ks => (sampleKeys d ids).map (fun rest => ks ++ rest)) := by
  rw [sampleKeys]
  cases visitedKeys d (d.locations.length + 2) id false <;> rfl

/-- The `for` loop of `addSampleToBottomUp` is the walk along the keys it visits. -/
theorem addFrames_eq_walk (d : PerfParserPrivate) :
    ∀ (ids : List Int) (tree : FrameData) (parent : List Nat),
      d.addFrames ids tree parent =
        (sampleKeys d ids).map
          (fun ks => FrameData.walk 1 (if parent = [] then 1 else 0) ks tree parent)
  | [], _, _ => rfl
  | id :: ids, tree, parent => by
    rw [PerfParserPrivate.addFrames, PerfParserPrivate.addFrame, addFrameLoop_eq_walk,
      sampleKeys_cons]
    cases visitedKeys d (d.locations.length + 2) id false with
    | none => rfl
    | some ks =>
      simp only [Option.map_some', Option.some_bind]
      rw [addFrames_eq_walk d ids, Option.map_map]
      congr 1
      funext rest
      simp only [Function.comp, FrameData.walk_append]
      by_cases hks : ks = []
      · subst hks
        rfl
      · have h2 := FrameData.walk_snd_ne_nil 1 ks (if parent = [] then 1 else 0) tree parent
          (Or.inr hks)
        rw [if_neg h2, if_neg hks]

/-- The bottom-up tree after a sample: the root has counted the sample and the
keys the sample visits are walked from the root, with self cost at the first. -/
theorem addSampleToBottomUp_eq (d : PerfParserPrivate) (sample : Sample) :
    d.addSampleToBottomUp sample =
      (sampleKeys d sample.frames).map (fun ks =>
        { d with bottomUpResult :=
            FrameData.insertPath 1 1 ks (d.bottomUpResult.addCost 1 0) }) := by
  rw [PerfParserPrivate.addSampleToBottomUp, addFrames_eq_walk]
  cases sampleKeys d sample.frames with
  | none => rfl
  | some ks =>
    simp only [Option.map_some']
    rw [FrameData.walk_fst 1 ks _ _ [] _ rfl]
    rfl

/-! ## Costs of the bottom-up tree -/

theorem visitedKeys_congr (d d' : PerfParserPrivate) (hl : d'.locations = d.locations)
    (hs : d'.symbols = d.symbols) :
    ∀ (fuel : Nat) (id : Int) (skip : Bool),
      visitedKeys d' fuel id skip = visitedKeys d fuel id skip
  | 0, _, _ => rfl
  | fuel + 1, id, skip => by
    rw [visitedKeys, visitedKeys, hl, hs]
    simp only [visitedKeys_congr d d' hl hs fuel]

theorem sampleKeys_congr (d d' : PerfParserPrivate) (hl : d'.locations = d.locations)
    (hs : d'.symbols = d.symbols) :
    ∀ (ids : List Int), sampleKeys d' ids = sampleKeys d ids
  | [] => rfl
  | id :: ids => by
    rw [sampleKeys_cons, sampleKeys_cons, hl, visitedKeys_congr d d' hl hs,
      sampleKeys_congr d d' hl hs ids]

/-- A sample whose walk ends is folded: the tree is walked along its keys, the
sample is counted, and the registries and the derived trees stay. -/
theorem addSample_some (d : PerfParserPrivate) (sample : Sample) (ks : List FrameKey)
    (h : sampleKeys d sample.frames = some ks) :
    ∃ d', d.addSample sample = some d' ∧
      d'.bottomUpResult = FrameData.insertPath 1 1 ks (d.bottomUpResult.addCost 1 0) ∧
      d'.summaryResult.sampleCount = d.summaryResult.sampleCount + 1 ∧
      d'.locations = d.locations ∧ d'.symbols = d.symbols ∧
      d'.topDownResult = d.topDownResult ∧ d'.callerCalleeResult = d.callerCalleeResult := by
  rw [PerfParserPrivate.addSample, addSampleToBottomUp_eq, h]
  refine ⟨_, rfl, ?_⟩
  simp only [PerfParserPrivate.addSampleToSummary]
  split_ifs <;> exact ⟨rfl, rfl, rfl, rfl, rfl, rfl⟩

/-- C14: when the walks of the samples end (as they do for an empty frame list
and for ids outside the registry), the samples are folded, and both the
`inclusiveCost` of the bottom-up root and the `sampleCount` of the summary have
grown by the number of samples; from a new decoder both are that number. -/
theorem addSamples_counts :
    ∀ (samples : List Sample) (d : PerfParserPrivate),
      (∀ s ∈ samples, (sampleKeys d s.frames).isSome = true) →
      ∃ d', addSamples d samples = some d' ∧
        d'.bottomUpResult.inclusiveCost = d.bottomUpResult.inclusiveCost + samples.length ∧
        d'.summaryResult.sampleCount = d.summaryResult.sampleCount + samples.length
  | [], d, _ => ⟨d, rfl, rfl, rfl⟩
  | s :: samples, d, h => by
    have hs := h s (List.mem_cons_self _ _)
    cases hk : sampleKeys d s.frames with
    | none => rw [hk] at hs; cases hs
    | some ks =>
      obtain ⟨d1, h1, hb, hc, hl, hsy, -, -⟩ := addSample_some d s ks hk
      obtain ⟨d', h2, hb', hc'⟩ := addSamples_counts samples d1 (fun s' hs' => by
        rw [sampleKeys_congr d d1 hl hsy]
        exact h s' (List.mem_cons_of_mem _ hs'))
      refine ⟨d', ?_, ?_, ?_⟩
      · rw [addSamples, h1]
        exact h2
      · rw [hb', hb, FrameData.inclusiveCost_insertPath, FrameData.inclusiveCost_addCost,
          List.length_cons]
        omega
      · rw [hc', hc, List.length_cons]
        omega

theorem addSamples_counts_witness :
    ∃ d', addSamples {} [{ frames := [] }, { frames := [7] }, { frames := [-3, 7] }] = some d' ∧
      d'.bottomUpResult.inclusiveCost = 3 ∧ d'.summaryResult.sampleCount = 3 :=
  addSamples_counts [{ frames := [] }, { frames := [7] }, { frames := [-3, 7] }] {}
    (by decide)

theorem inclusiveAt_eq (t : FrameData) (path : List FrameKey) :
    t.inclusiveAt path = FrameData.costAt true t path := by
  unfold FrameData.inclusiveAt FrameData.costAt
  cases t.find path <;> rfl

theorem selfAt_eq (t : FrameData) (path : List FrameKey) :
    t.selfAt path = FrameData.costAt false t path := by
  unfold FrameData.selfAt FrameData.costAt
  cases t.find path <;> rfl

theorem costAt_addCost (b : Bool) (inc self : Nat) (t : FrameData) (path : List FrameKey)
    (h : path ≠ []) :
    FrameData.costAt b (t.addCost inc self) path = FrameData.costAt b t path := by
  cases path with
  | nil => exact absurd rfl h
  | cons k ks => exact FrameData.costAt_congr_children b _ _ (FrameData.children_addCost _ _ _) k ks

/-- C17, as claimed, fails: for a sample with the frame list `[0, 1]`, where both
locations have no parent, the node of the second entry (`main`, inserted below
`foo`) is the first node visited for that entry and its `selfCost` stays 0;
only `foo`, the node below the root, gets self cost. -/
theorem bottomUp_second_entry_no_selfCost :
    (twoRoots.addSampleToBottomUp { frames := [0, 1] }).map
      (fun d =>
        (d.bottomUpResult.children.map (fun c => (c.symbol, c.selfCost, c.inclusiveCost)),
          (d.bottomUpResult.children.flatMap FrameData.children).map
            (fun c => (c.symbol, c.selfCost, c.inclusiveCost))))
      = some ([("foo", 1, 1)], [("main", 0, 1)]) := by
  decide!

/-- C17, amended: a sample whose walk ends is folded, and of all nodes below the
root only the first node visited for the whole sample (the node directly below
the root, with the first of the keys `ks` the sample visits) has its `selfCost`
incremented by 1; the `selfCost` at every other path of keys, and of the root,
is as before, while `inclusiveCost` grows by 1 at every node on the path of the
sample. -/
theorem bottomUp_selfCost_first_node (d : PerfParserPrivate) (sample : Sample)
    (ks : List FrameKey) (h : sampleKeys d sample.frames = some ks) :
    ∃ d', d.addSampleToBottomUp sample = some d' ∧
      d'.bottomUpResult.selfCost = d.bottomUpResult.selfCost ∧
      ∀ path, path ≠ [] →
        d'.bottomUpResult.selfAt path =
          d.bottomUpResult.selfAt path + (if ks ≠ [] ∧ path = ks.take 1 then 1 else 0) ∧
        d'.bottomUpResult.inclusiveAt path =
          d.bottomUpResult.inclusiveAt path + (if path <+: ks then 1 else 0) := by
  rw [addSampleToBottomUp_eq, h]
  refine ⟨_, rfl, ?_, ?_⟩
  · dsimp only
    rw [FrameData.selfCost_insertPath, FrameData.selfCost_addCost, Nat.add_zero]
  · intro path hp
    dsimp only
    rw [selfAt_eq, selfAt_eq, inclusiveAt_eq, inclusiveAt_eq,
      FrameData.costAt_insertPath false 1 ks 1 _ path hp,
      FrameData.costAt_insertPath true 1 ks 1 _ path hp,
      costAt_addCost _ _ _ _ _ hp, costAt_addCost _ _ _ _ _ hp]
    refine ⟨?_, by simp⟩
    congr 1
    simp only [Bool.false_eq_true, if_false]
    by_cases h1 : ks ≠ [] ∧ path = ks.take 1
    · rw [if_pos h1]
      obtain ⟨hks, hpath⟩ := h1
      have hpre : path <+: ks := by rw [hpath]; exact List.take_prefix 1 ks
      have hlen : path.length = 1 := by
        rw [hpath]
        cases ks with
        | nil => exact absurd rfl hks
        | cons k ks => rfl
      rw [if_pos hpre, if_pos hlen]
    · rw [if_neg h1]
      by_cases hpre : path <+: ks
      · rw [if_pos hpre]
        by_cases hlen : path.length = 1
        · exfalso
          apply h1
          obtain ⟨r, hr⟩ := hpre
          match path, hlen with
          | [k], _ =>
            subst hr
            exact ⟨by simp, rfl⟩
        · rw [if_neg hlen]
      · rw [if_neg hpre]

theorem bottomUp_selfCost_first_node_witness :
    ∃ d', twoRoots.addSampleToBottomUp { frames := [0, 1] } = some d' ∧
      d'.bottomUpResult.selfAt [⟨"foo", "", "", "f"⟩] = 1 ∧
      d'.bottomUpResult.selfAt [⟨"foo", "", "", "f"⟩, ⟨"main", "", "", "m"⟩] = 0 ∧
      d'.bottomUpResult.inclusiveAt [⟨"foo", "", "", "f"⟩, ⟨"main", "", "", "m"⟩] = 1 := by
  obtain ⟨d', h1, -, h2⟩ := bottomUp_selfCost_first_node twoRoots { frames := [0, 1] }
    [⟨"foo", "", "", "f"⟩, ⟨"main", "", "", "m"⟩] (by decide)
  exact ⟨d', h1, (h2 _ (by decide)).1, (h2 _ (by decide)).1, (h2 _ (by decide)).2⟩

/-! ## The sibling invariant and the top-down tree -/

namespace FrameData

theorem distinctKeysRows_iff :
    ∀ (cs : List FrameData), distinctKeysRows cs = true ↔ ∀ c ∈ cs, c.distinctKeys = true
  | [] => by simp [distinctKeysRows]
  | c :: cs => by
    rw [distinctKeysRows, Bool.and_eq_true, distinctKeysRows_iff cs]
    simp

theorem distinctKeys_iff (t : FrameData) :
    t.distinctKeys = true ↔
      (t.children.map key).Nodup ∧ ∀ c ∈ t.children, c.distinctKeys = true := by
  cases t with
  | mk s b l a sc ic cs =>
    rw [distinctKeys, Bool.and_eq_true, distinctKeysRows_iff, decide_eq_true_iff]
    rfl

theorem distinctKeys_addCost (inc self : Nat) (t : FrameData) :
    (t.addCost inc self).distinctKeys = t.distinctKeys := by
  cases t; rfl

theorem distinctKeys_leaf (s b l a : String) (sc ic : Nat) :
    (mk s b l a sc ic []).distinctKeys = true := by
  rw [distinctKeys_iff]
  exact ⟨List.nodup_nil, fun c hc => by cases hc⟩

theorem mem_modifyNth (f : FrameData → FrameData) (c' : FrameData) :
    ∀ (i : Nat) (cs : List FrameData), c' ∈ modifyNth f i cs →
      c' ∈ cs ∨ ∃ c, cs.get? i = some c ∧ c' = f c
  | _, [], h => by simp [modifyNth] at h
  | 0, c :: cs, h => by
    simp only [modifyNth, List.mem_cons] at h
    rcases h with h | h
    · exact Or.inr ⟨c, rfl, h⟩
    · exact Or.inl (List.mem_cons_of_mem _ h)
  | i + 1, c :: cs, h => by
    simp only [modifyNth, List.mem_cons] at h
    rcases h with h | h
    · exact Or.inl (by rw [h]; exact List.mem_cons_self _ _)
    · rcases mem_modifyNth f c' i cs h with h1 | ⟨c1, h1, h2⟩
      · exact Or.inl (List.mem_cons_of_mem _ h1)
      · exact Or.inr ⟨c1, h1, h2⟩

theorem map_key_modifyNth_of (f : FrameData → FrameData) :
    ∀ (i : Nat) (cs : List FrameData), (∀ c, cs.get? i = some c → (f c).key = c.key) →
      (modifyNth f i cs).map key = cs.map key
  | _, [], _ => by simp [modifyNth]
  | 0, c :: cs, h => by simp [modifyNth, h c rfl]
  | i + 1, c :: cs, h => by
    simp only [modifyNth, List.map_cons, List.cons.injEq, true_and]
    exact map_key_modifyNth_of f i cs (fun c1 hc1 => h c1 hc1)

/-- A change of the `i`-th child that keeps its key and its invariant keeps the
invariant of the node. -/
theorem distinctKeys_setChildren_modifyNth (f : FrameData → FrameData) (t : FrameData)
    (i : Nat) (ht : t.distinctKeys = true)
    (hf : ∀ c, t.children.get? i = some c → (f c).key = c.key ∧ (f c).distinctKeys = true) :
    (t.setChildren (modifyNth f i t.children)).distinctKeys = true := by
  rw [distinctKeys_iff] at ht ⊢
  rw [children_setChildren]
  constructor
  · rw [map_key_modifyNth_of _ i _ (fun c hc => (hf c hc).1)]
    exact ht.1
  · intro c' hc'
    rcases mem_modifyNth f c' i _ hc' with h | ⟨c, h1, h2⟩
    · exact ht.2 c' h
    · rw [h2]
      exact (hf c h1).2

theorem distinctKeys_insertPath (inc : Nat) :
    ∀ (ks : List FrameKey) (self : Nat) (t : FrameData), t.distinctKeys = true →
      (insertPath inc self ks t).distinctKeys = true
  | [], _, _, h => h
  | k :: ks, self, t, h => by
    rw [insertPath]
    cases hf : findKey k t.children with
    | some i =>
      dsimp only
      apply distinctKeys_setChildren_modifyNth _ t i h
      intro c hc
      refine ⟨by rw [key_insertPath, key_addCost], ?_⟩
      apply distinctKeys_insertPath inc ks 0
      rw [distinctKeys_addCost]
      exact ((distinctKeys_iff t).mp h).2 c (List.get?_mem hc)
    | none =>
      dsimp only
      rw [distinctKeys_iff] at h ⊢
      rw [children_setChildren]
      constructor
      · rw [List.map_append, List.map_cons, List.map_nil, key_insertPath]
        apply List.Nodup.append h.1 (List.nodup_singleton _)
        intro x hx hx'
        rw [List.mem_singleton] at hx'
        subst hx'
        obtain ⟨c, hc, hck⟩ := List.mem_map.mp hx
        exact findKey_none k _ hf c hc hck
      · intro c hc
        rcases List.mem_append.mp hc with hc | hc
        · exact h.2 c hc
        · rw [List.mem_singleton] at hc
          rw [hc]
          exact distinctKeys_insertPath inc ks 0 _ (distinctKeys_leaf _ _ _ _ _ _)

theorem key_modifyAt (f : FrameData → FrameData) (p : List Nat) (t sub : FrameData)
    (h : t.getAt p = some sub) (hf : (f sub).key = sub.key) : (modifyAt f p t).key = t.key := by
  cases p with
  | nil =>
    rw [getAt_nil] at h
    cases h
    exact hf
  | cons i p => rw [modifyAt_cons, key_setChildren]

/-- A change of the node at `p` that keeps its key and leaves it with the
invariant keeps the invariant of the tree. -/
theorem distinctKeys_modifyAt (f : FrameData → FrameData) (sub : FrameData)
    (hk : (f sub).key = sub.key) (hd : (f sub).distinctKeys = true) :
    ∀ (p : List Nat) (t : FrameData), t.getAt p = some sub → t.distinctKeys = true →
      (modifyAt f p t).distinctKeys = true
  | [], t, h, _ => by
    rw [getAt_nil] at h
    cases h
    exact hd
  | i :: p, t, h, ht => by
    rw [modifyAt_cons]
    apply distinctKeys_setChildren_modifyNth _ t i ht
    intro c hc
    rw [getAt_cons, hc] at h
    exact ⟨key_modifyAt f p c sub h hk,
      distinctKeys_modifyAt f sub hk hd p c h
        (((distinctKeys_iff t).mp ht).2 c (List.get?_mem hc))⟩

end FrameData

theorem insertPaths_append (ws ws' : List (List FrameKey × Nat)) (t : FrameData) :
    insertPaths (ws ++ ws') t = insertPaths ws' (insertPaths ws t) := by
  unfold insertPaths
  rw [List.foldl_append]

mutual
theorem buildTopDownRow_eq (ancestors : List FrameData) :
    ∀ (row topDownData : FrameData),
      PerfParserPrivate.buildTopDownRow ancestors row topDownData =
        insertPaths (leafPaths (ancestors.map FrameData.key) row) topDownData
  | .mk s b l a sc ic [], topDownData => by
    rw [PerfParserPrivate.buildTopDownRow, topDownWalk_eq_insertPath, leafPaths]
    rfl
  | .mk s b l a sc ic (c :: cs), topDownData => by
    rw [PerfParserPrivate.buildTopDownRow, leafPaths]
    exact buildTopDownRows_eq _ (c :: cs) topDownData
theorem buildTopDownRows_eq (ancestors : List FrameData) :
    ∀ (rows : List FrameData) (topDownData : FrameData),
      PerfParserPrivate.buildTopDownRows ancestors rows topDownData =
        insertPaths (leafPathsRows (ancestors.map FrameData.key) rows) topDownData
  | [], topDownData => by
    rw [PerfParserPrivate.buildTopDownRows, leafPathsRows]; rfl
  | row :: rows, topDownData => by
    rw [PerfParserPrivate.buildTopDownRows, leafPathsRows, insertPaths_append,
      buildTopDownRow_eq ancestors row, buildTopDownRows_eq ancestors rows]
end

theorem inclusiveAt_insertPaths (path : List FrameKey) (hp : path ≠ []) :
    ∀ (walks : List (List FrameKey × Nat)) (t : FrameData),
      (insertPaths walks t).inclusiveAt path = t.inclusiveAt path + passingCost walks path
  | [], t => rfl
  | w :: walks, t => by
    have ih := inclusiveAt_insertPaths path hp walks (FrameData.insertPath w.2 1 w.1 t)
    rw [show insertPaths (w :: walks) t =
      insertPaths walks (FrameData.insertPath w.2 1 w.1 t) from rfl, ih, inclusiveAt_eq,
      FrameData.costAt_insertPath true w.2 w.1 1 t path hp, ← inclusiveAt_eq]
    unfold passingCost
    rw [List.filter_cons]
    by_cases h : path <+: w.1
    · simp only [h, decide_True, if_true, List.map_cons, List.sum_cons]
      omega
    · simp only [h, decide_False, if_false, Bool.false_eq_true]
      omega

theorem prefix_length_one_iff (path ks : List FrameKey) :
    (path <+: ks ∧ path.length = 1) ↔ (ks ≠ [] ∧ path = ks.take 1) := by
  constructor
  · rintro ⟨⟨r, hr⟩, hlen⟩
    match path, hlen with
    | [k], _ =>
      subst hr
      exact ⟨by simp, rfl⟩
  · rintro ⟨h1, h2⟩
    refine ⟨by rw [h2]; exact List.take_prefix 1 _, ?_⟩
    rw [h2]
    cases ks with
    | nil => exact absurd rfl h1
    | cons k ks => rfl

theorem selfAt_insertPaths (path : List FrameKey) (hp : path ≠ []) :
    ∀ (walks : List (List FrameKey × Nat)) (t : FrameData),
      (insertPaths walks t).selfAt path = t.selfAt path + startingAt walks path
  | [], t => rfl
  | w :: walks, t => by
    have ih := selfAt_insertPaths path hp walks (FrameData.insertPath w.2 1 w.1 t)
    rw [show insertPaths (w :: walks) t =
      insertPaths walks (FrameData.insertPath w.2 1 w.1 t) from rfl, ih, selfAt_eq,
      FrameData.costAt_insertPath false w.2 w.1 1 t path hp, ← selfAt_eq]
    unfold startingAt
    rw [List.filter_cons]
    simp only [Bool.false_eq_true, if_false]
    have hiff := prefix_length_one_iff path w.1
    by_cases h : w.1 ≠ [] ∧ path = w.1.take 1
    · have h' := hiff.mpr h
      have hb : (decide (w.1 ≠ []) && decide (path = w.1.take 1)) = true := by
        rw [Bool.and_eq_true]
        exact ⟨decide_eq_true h.1, decide_eq_true h.2⟩
      rw [hb, if_pos h'.1, if_pos h'.2, if_pos rfl, List.length_cons]
      omega
    · have h' : ¬ (path <+: w.1 ∧ path.length = 1) := fun h1 => h (hiff.mp h1)
      have hb : (decide (w.1 ≠ []) && decide (path = w.1.take 1)) = false := by
        rw [Bool.and_eq_false_iff]
        by_cases h1 : w.1 ≠ []
        · right; exact decide_eq_false (fun h2 => h ⟨h1, h2⟩)
        · left; exact decide_eq_false h1
      rw [hb]
      simp only [Bool.false_eq_true, if_false]
      by_cases h1 : path <+: w.1
      · rw [if_pos h1, if_neg (fun h2 => h' ⟨h1, h2⟩), Nat.add_zero]
      · rw [if_neg h1, Nat.add_zero]

theorem finalize_topDownResult (d : PerfParserPrivate) :
    d.finalize.topDownResult =
      insertPaths (leafPathsRows [] d.bottomUpResult.children) d.topDownResult := by
  have h := buildTopDownRows_eq [] d.bottomUpResult.children d.topDownResult
  rw [List.map_nil] at h
  rw [← h]
  rfl

theorem finalize_bottomUpResult (d : PerfParserPrivate) :
    d.finalize.bottomUpResult = d.bottomUpResult := rfl

theorem distinctKeys_getAt :
    ∀ (p : List Nat) (t sub : FrameData), t.distinctKeys = true → t.getAt p = some sub →
      sub.distinctKeys = true
  | [], t, sub, ht, h => by
    rw [FrameData.getAt_nil] at h
    cases h
    exact ht
  | i :: p, t, sub, ht, h => by
    rw [FrameData.getAt_cons] at h
    cases hc : t.children.get? i with
    | none => rw [hc] at h; cases h
    | some c =>
      rw [hc] at h
      exact distinctKeys_getAt p c sub
        (((FrameData.distinctKeys_iff t).mp ht).2 c (List.get?_mem hc)) h

/-- A node with the invariant keeps it when a childless node with a key that
none of its children has is appended to them. -/
theorem distinctKeys_append_leaf (p : FrameData) (s b l a : String)
    (hp : p.distinctKeys = true) (hnone : ∀ c ∈ p.children, c.key ≠ ⟨s, b, l, a⟩) :
    (p.setChildren (p.children ++ [FrameData.mk s b l a 0 0 []])).distinctKeys = true := by
  rw [FrameData.distinctKeys_iff] at hp ⊢
  rw [FrameData.children_setChildren]
  constructor
  · rw [List.map_append, List.map_cons, List.map_nil]
    apply List.Nodup.append hp.1 (List.nodup_singleton _)
    intro x hx hx'
    rw [List.mem_singleton] at hx'
    subst hx'
    obtain ⟨c, hc, hck⟩ := List.mem_map.mp hx
    exact hnone c hc hck
  · intro c hc
    rcases List.mem_append.mp hc with hc | hc
    · exact hp.2 c hc
    · rw [List.mem_singleton] at hc
      rw [hc]
      exact FrameData.distinctKeys_leaf _ _ _ _ _ _

theorem distinctKeys_insertPaths :
    ∀ (walks : List (List FrameKey × Nat)) (t : FrameData), t.distinctKeys = true →
      (insertPaths walks t).distinctKeys = true
  | [], _, h => h
  | w :: walks, t, h =>
    distinctKeys_insertPaths walks _ (FrameData.distinctKeys_insertPath w.2 w.1 1 t h)

/-- A property of the bottom-up tree that every walk of a sample keeps holds
after any sequence of samples whose walks end; the samples are folded and leave
the registries and the derived trees as they are. -/
theorem addSamples_invariant (I : FrameData → Prop)
    (hI : ∀ t ks, I t → I (FrameData.insertPath 1 1 ks (t.addCost 1 0))) :
    ∀ (samples : List Sample) (d : PerfParserPrivate),
      (∀ s ∈ samples, (sampleKeys d s.frames).isSome = true) → I d.bottomUpResult →
      ∃ d', addSamples d samples = some d' ∧ I d'.bottomUpResult ∧
        d'.locations = d.locations ∧ d'.symbols = d.symbols ∧
        d'.topDownResult = d.topDownResult ∧ d'.callerCalleeResult = d.callerCalleeResult
  | [], d, _, h => ⟨d, rfl, h, rfl, rfl, rfl, rfl⟩
  | s :: samples, d, h, hd => by
    have hs := h s (List.mem_cons_self _ _)
    cases hk : sampleKeys d s.frames with
    | none => rw [hk] at hs; cases hs
    | some ks =>
      obtain ⟨d1, h1, hb, -, hl, hsy, htd, hcc⟩ := addSample_some d s ks hk
      obtain ⟨d', h2, hb', hl', hsy', htd', hcc'⟩ := addSamples_invariant I hI samples d1
        (fun s' hs' => by
          rw [sampleKeys_congr d d1 hl hsy]
          exact h s' (List.mem_cons_of_mem _ hs'))
        (by rw [hb]; exact hI _ ks hd)
      refine ⟨d', ?_, hb', hl'.trans hl, hsy'.trans hsy, htd'.trans htd, hcc'.trans hcc⟩
      rw [addSamples, h1]
      exact h2

/-- C13: from trees in which no two children of one node share the identity
key (the empty trees of a new decoder are such), after any sequence of samples
whose walks end the bottom-up tree has this property, as have the bottom-up and
the top-down tree after `finalize`. The static `addFrame` keeps the property of
any tree: when a child of `parent` has the key it returns that child and leaves
the tree as it is; otherwise no child has the key, and it appends one childless
node to the children of `parent` and returns it. -/
theorem sibling_keys_distinct (d : PerfParserPrivate) (samples : List Sample)
    (hb : d.bottomUpResult.distinctKeys = true) (ht : d.topDownResult.distinctKeys = true)
    (hs : ∀ s ∈ samples, (sampleKeys d s.frames).isSome = true) :
    (∃ d', addSamples d samples = some d' ∧
      d'.bottomUpResult.distinctKeys = true ∧
      d'.finalize.bottomUpResult.distinctKeys = true ∧
      d'.finalize.topDownResult.distinctKeys = true) ∧
    ∀ (tree : FrameData) (parent : List Nat) (p : FrameData) (s b l a : String),
      tree.distinctKeys = true → tree.getAt parent = some p →
      (FrameData.addFrame tree parent s b l a).1.distinctKeys = true ∧
      ((∃ i c, p.children.get? i = some c ∧ c.key = ⟨s, b, l, a⟩ ∧
          FrameData.addFrame tree parent s b l a = (tree, parent ++ [i])) ∨
        ((∀ c ∈ p.children, c.key ≠ ⟨s, b, l, a⟩) ∧
          (FrameData.addFrame tree parent s b l a).2 = parent ++ [p.children.length] ∧
          ((FrameData.addFrame tree parent s b l a).1.getAt parent).map FrameData.children =
            some (p.children ++ [FrameData.mk s b l a 0 0 []]))) := by
  constructor
  · obtain ⟨d', h1, h2, -, -, h3, -⟩ := addSamples_invariant
      (fun t => t.distinctKeys = true)
      (fun t ks h => FrameData.distinctKeys_insertPath 1 ks 1 _
        (by rw [FrameData.distinctKeys_addCost]; exact h)) samples d hs hb
    refine ⟨d', h1, h2, h2, ?_⟩
    rw [finalize_topDownResult, h3]
    exact distinctKeys_insertPaths _ _ ht
  · intro tree parent p s b l a hd hget
    unfold FrameData.addFrame
    rw [hget]
    dsimp only
    cases hf : FrameData.findRow s b l a p.children with
    | some i =>
      dsimp only
      obtain ⟨c, hc, hck⟩ := FrameData.findKey_some ⟨s, b, l, a⟩ p.children i hf
      exact ⟨hd, Or.inl ⟨i, c, hc, hck, rfl⟩⟩
    | none =>
      dsimp only
      have hnone := FrameData.findKey_none ⟨s, b, l, a⟩ p.children hf
      have hpd : p.distinctKeys = true := distinctKeys_getAt parent tree p hd hget
      refine ⟨?_, Or.inr ⟨hnone, rfl, ?_⟩⟩
      · exact FrameData.distinctKeys_modifyAt _ p (FrameData.key_setChildren _ _)
          (distinctKeys_append_leaf p s b l a hpd hnone) parent tree hget hd
      · rw [FrameData.getAt_modifyAt, hget]
        simp

theorem sibling_keys_distinct_witness :
    ∃ d', addSamples twoRoots [{ frames := [0, 1] }, { frames := [1] }] = some d' ∧
      d'.bottomUpResult.distinctKeys = true ∧
      d'.finalize.bottomUpResult.distinctKeys = true ∧
      d'.finalize.topDownResult.distinctKeys = true :=
  (sibling_keys_distinct twoRoots [{ frames := [0, 1] }, { frames := [1] }]
    (by decide) (by decide) (by decide)).1

namespace FrameData

theorem find_isSome_of_children (t t' : FrameData) (h : t.children = t'.children)
    (path : List FrameKey) (hf : (t.find path).isSome = true) : (t'.find path).isSome = true := by
  cases path with
  | nil => rfl
  | cons k ks => rw [← find_congr_children t t' h]; exact hf

/-- A walk keeps the nodes there are and leaves a node at every prefix of its
path. -/
theorem find_insertPath_isSome (inc : Nat) :
    ∀ (ks : List FrameKey) (self : Nat) (t : FrameData) (path : List FrameKey),
      (t.find path).isSome = true ∨ path <+: ks →
      ((insertPath inc self ks t).find path).isSome = true
  | _, _, _, [], _ => rfl
  | [], _, t, k0 :: path, h => by
    rcases h with h | h
    · exact h
    · cases List.prefix_nil.mp h
  | k :: ks, self, t, k0 :: path, h => by
    rw [find_cons, childAt_insertPath]
    by_cases h0 : k0 = k
    · subst h0
      rw [if_pos rfl, Option.some_bind]
      apply find_insertPath_isSome inc ks 0
      rcases h with h | h
      · left
        rw [find_cons] at h
        cases hc : t.childAt k0 with
        | none => rw [hc] at h; cases h
        | some c =>
          rw [hc, Option.some_bind] at h
          exact find_isSome_of_children c _ (children_addCost _ _ _).symm path h
      · right
        exact (List.cons_prefix_cons.mp h).2
    · rw [if_neg h0]
      rcases h with h | h
      · rw [find_cons] at h
        exact h
      · exact absurd (List.cons_prefix_cons.mp h).1 h0

/-- With distinct keys among the children of every node, the node at the end of
an index path is the one that the path of its keys finds. -/
theorem find_keyPath :
    ∀ (p : List Nat) (t n : FrameData), t.distinctKeys = true → t.getAt p = some n →
      t.find (keyPath t p) = some n
  | [], t, n, _, h => h
  | i :: p, t, n, ht, h => by
    rw [getAt_cons] at h
    cases hc : t.children.get? i with
    | none => rw [hc] at h; cases h
    | some c =>
      rw [hc] at h
      rw [keyPath, hc]
      dsimp only
      rw [find_cons]
      have hd := (distinctKeys_iff t).mp ht
      have hchild : t.childAt c.key = some c := by
        unfold childAt
        cases hf : findKey c.key t.children with
        | none => exact absurd rfl (findKey_none _ _ hf c (List.get?_mem hc))
        | some j =>
          rw [Option.some_bind]
          obtain ⟨c', hc', hk⟩ := findKey_some _ _ j hf
          have hij : j = i := by
            have hi : i < t.children.length := by
              rcases Nat.lt_or_ge i t.children.length with h1 | h1
              · exact h1
              · rw [List.get?_eq_none.mpr h1] at hc; cases hc
            have hj : j < t.children.length := by
              rcases Nat.lt_or_ge j t.children.length with h1 | h1
              · exact h1
              · rw [List.get?_eq_none.mpr h1] at hc'; cases hc'
            have hinj := List.nodup_iff_injective_get.mp hd.1
            have e1 : (t.children.map key).get ⟨i, by rw [List.length_map]; exact hi⟩ = c.key := by
              rw [List.get_eq_getElem, List.getElem_map]
              rw [List.get?_eq_getElem?, List.getElem?_eq_getElem hi] at hc
              cases hc; rfl
            have e2 : (t.children.map key).get ⟨j, by rw [List.length_map]; exact hj⟩ = c.key := by
              rw [List.get_eq_getElem, List.getElem_map]
              rw [List.get?_eq_getElem?, List.getElem?_eq_getElem hj] at hc'
              cases hc'; exact hk
            have := hinj (e2.trans e1.symm)
            exact congrArg Fin.val this
          rw [hij]
          exact hc
      rw [hchild, Option.some_bind]
      exact find_keyPath p c n (hd.2 c (List.get?_mem hc)) h

end FrameData

theorem find_insertPaths_isSome (path : List FrameKey) :
    ∀ (walks : List (List FrameKey × Nat)) (t : FrameData),
      (t.find path).isSome = true ∨ (∃ w ∈ walks, path <+: w.1) →
      ((insertPaths walks t).find path).isSome = true
  | [], t, h => by
    rcases h with h | ⟨w, hw, -⟩
    · exact h
    · cases hw
  | w :: walks, t, h => by
    apply find_insertPaths_isSome path walks
    rcases h with h | ⟨w', hw', hp⟩
    · exact Or.inl (FrameData.find_insertPath_isSome _ _ _ _ _ (Or.inl h))
    · rcases List.mem_cons.mp hw' with rfl | hw'
      · exact Or.inl (FrameData.find_insertPath_isSome _ _ _ _ _ (Or.inr hp))
      · exact Or.inr ⟨w', hw', hp⟩

theorem leafPaths_subset_rows (ancestors : List FrameKey) (c : FrameData) :
    ∀ (rows : List FrameData), c ∈ rows → ∀ w ∈ leafPaths ancestors c,
      w ∈ leafPathsRows ancestors rows
  | [], h, _, _ => by cases h
  | row :: rows, h, w, hw => by
    rw [leafPathsRows, List.mem_append]
    rcases List.mem_cons.mp h with rfl | h
    · exact Or.inl hw
    · exact Or.inr (leafPaths_subset_rows ancestors c rows h w hw)

/-- The walk of a leaf: the keys from the leaf up to the row its path starts at,
then the keys of the parents of the row. -/
theorem leaf_mem_leafPaths :
    ∀ (p : List Nat) (ancestors : List FrameKey) (row n : FrameData),
      row.getAt p = some n → n.children = [] →
      ((keyPath row p).reverse ++ row.key :: ancestors, n.inclusiveCost) ∈
        leafPaths ancestors row
  | [], ancestors, row, n, h, hn => by
    rw [FrameData.getAt_nil] at h
    cases h
    cases row with
    | mk s b l a sc ic cs =>
      have : cs = [] := hn
      subst this
      rw [leafPaths]
      exact List.mem_singleton.mpr rfl
  | i :: p, ancestors, row, n, h, hn => by
    rw [FrameData.getAt_cons] at h
    cases hc : row.children.get? i with
    | none => rw [hc] at h; cases h
    | some c =>
      rw [hc] at h
      have ih := leaf_mem_leafPaths p (row.key :: ancestors) c n h hn
      rw [keyPath, hc]
      dsimp only
      rw [List.reverse_cons, List.append_assoc, List.singleton_append]
      cases row with
      | mk s b l a sc ic cs =>
        cases cs with
        | nil => cases hc
        | cons c0 cs =>
          rw [leafPaths]
          exact leafPaths_subset_rows _ c (c0 :: cs) (List.get?_mem hc) _ ih

theorem leaf_mem_leafPathsRows (root n : FrameData) (p : List Nat) (hp : p ≠ [])
    (h : root.getAt p = some n) (hn : n.children = []) :
    ((keyPath root p).reverse, n.inclusiveCost) ∈ leafPathsRows [] root.children := by
  cases p with
  | nil => exact absurd rfl hp
  | cons i p =>
    rw [FrameData.getAt_cons] at h
    cases hc : root.children.get? i with
    | none => rw [hc] at h; cases h
    | some c =>
      rw [hc] at h
      have hm := leaf_mem_leafPaths p [] c n h hn
      rw [keyPath, hc]
      dsimp only
      rw [List.reverse_cons]
      exact leafPaths_subset_rows [] c _ (List.get?_mem hc) _ hm

theorem keyPath_ne_nil (t n : FrameData) (p : List Nat) (hp : p ≠ [])
    (h : t.getAt p = some n) : keyPath t p ≠ [] := by
  cases p with
  | nil => exact absurd rfl hp
  | cons i p =>
    rw [FrameData.getAt_cons] at h
    cases hc : t.children.get? i with
    | none => rw [hc] at h; cases h
    | some c =>
      rw [keyPath, hc]
      exact List.cons_ne_nil _ _

theorem distinctKeys_of_children_nil (t : FrameData) (h : t.children = []) :
    t.distinctKeys = true := by
  rw [FrameData.distinctKeys_iff, h]
  exact ⟨List.nodup_nil, fun c hc => by cases hc⟩

theorem inclusiveAt_of_children_nil (t : FrameData) (h : t.children = [])
    (path : List FrameKey) (hp : path ≠ []) : t.inclusiveAt path = 0 := by
  cases path with
  | nil => exact absurd rfl hp
  | cons k ks =>
    rw [inclusiveAt_eq, FrameData.costAt_cons]
    unfold FrameData.childAt
    rw [h]
    rfl

theorem inclusiveCost_insertPaths :
    ∀ (walks : List (List FrameKey × Nat)) (t : FrameData),
      (insertPaths walks t).inclusiveCost = t.inclusiveCost
  | [], _ => rfl
  | w :: walks, t =>
    (inclusiveCost_insertPaths walks _).trans (FrameData.inclusiveCost_insertPath w.2 w.1 1 t)

/-- C20: with a top-down tree that is empty before `finalize`, for every leaf of
the bottom-up tree the top-down tree has the node whose path of keys is the
reversed path of keys of the leaf; the `inclusiveCost` at every path of keys is
the sum of the `inclusiveCost` of the bottom-up leaves whose reversed path
passes through it; and so is the `inclusiveCost` of every node below the
top-down root, taken at the path of its keys. The root itself, which has no
key, keeps the `inclusiveCost` it had. -/
theorem topDown_mirrors (d : PerfParserPrivate) (ht : d.topDownResult.children = []) :
    (∀ (p : List Nat) (n : FrameData), p ≠ [] → d.bottomUpResult.getAt p = some n →
      n.children = [] →
      (d.finalize.topDownResult.find (keyPath d.bottomUpResult p).reverse).isSome = true) ∧
    (∀ path, path ≠ [] →
      d.finalize.topDownResult.inclusiveAt path =
        passingCost (leafPathsRows [] d.bottomUpResult.children) path) ∧
    (∀ (q : List Nat) (m : FrameData), q ≠ [] → d.finalize.topDownResult.getAt q = some m →
      m.inclusiveCost =
        passingCost (leafPathsRows [] d.bottomUpResult.children)
          (keyPath d.finalize.topDownResult q)) ∧
    d.finalize.topDownResult.inclusiveCost = d.topDownResult.inclusiveCost := by
  have hpath : ∀ path, path ≠ [] →
      d.finalize.topDownResult.inclusiveAt path =
        passingCost (leafPathsRows [] d.bottomUpResult.children) path := by
    intro path hp
    rw [finalize_topDownResult, inclusiveAt_insertPaths path hp,
      inclusiveAt_of_children_nil _ ht path hp, Nat.zero_add]
  refine ⟨?_, hpath, ?_, ?_⟩
  · intro p n hp h hn
    rw [finalize_topDownResult]
    exact find_insertPaths_isSome _ _ _
      (Or.inr ⟨_, leaf_mem_leafPathsRows _ n p hp h hn, List.prefix_refl _⟩)
  · intro q m hq h
    have hd : d.finalize.topDownResult.distinctKeys = true := by
      rw [finalize_topDownResult]
      exact distinctKeys_insertPaths _ _ (distinctKeys_of_children_nil _ ht)
    rw [← hpath _ (keyPath_ne_nil _ m q hq h)]
    unfold FrameData.inclusiveAt
    rw [FrameData.find_keyPath q _ m hd h]
  · rw [finalize_topDownResult]
    exact inclusiveCost_insertPaths _ _

theorem topDown_mirrors_witness :
    (mirrorExample.finalize.topDownResult.find
      [⟨"main", "", "", "m"⟩, ⟨"foo", "", "", "f"⟩]).isSome = true ∧
    (mirrorExample.finalize.topDownResult.find
      [⟨"start", "", "", "s"⟩, ⟨"foo", "", "", "f"⟩]).isSome = true ∧
    mirrorExample.finalize.topDownResult.inclusiveAt [⟨"main", "", "", "m"⟩] = 2 ∧
    mirrorExample.finalize.topDownResult.inclusiveAt
      [⟨"start", "", "", "s"⟩, ⟨"foo", "", "", "f"⟩] = 1 :=
  ⟨(topDown_mirrors mirrorExample rfl).1 [0, 0] (.mk "main" "" "" "m" 0 2 []) (by decide) rfl rfl,
    (topDown_mirrors mirrorExample rfl).1 [0, 1] (.mk "start" "" "" "s" 0 1 []) (by decide)
      rfl rfl,
    ((topDown_mirrors mirrorExample rfl).2.1 _ (by decide)).trans (by decide),
    ((topDown_mirrors mirrorExample rfl).2.1 _ (by decide)).trans (by decide)⟩

/-- C18 fails: for one sample of `foo` called from `main` the top-down tree is
`main` → `foo`, and the `selfCost` 1 is at `main`, the first node of the
mirrored path, while the deepest node `foo` has `selfCost` 0. In general the
walk of a bottom-up leaf adds 1 to the `selfCost` at the path that is its first
key alone, and nothing at any other path of keys. -/
theorem topDown_selfCost_at_first_node :
    (addSamples callChain [{ frames := [0] }]).map (fun d =>
        d.finalize.topDownResult.children.map
          (fun c => (c.symbol, c.selfCost, c.inclusiveCost)))
      = some [("main", 1, 1)] ∧
    (addSamples callChain [{ frames := [0] }]).map (fun d =>
        (d.finalize.topDownResult.children.flatMap FrameData.children).map
          (fun c => (c.symbol, c.selfCost, c.children.length)))
      = some [("foo", 0, 0)] ∧
    ∀ (d : PerfParserPrivate) (k : FrameKey) (ks : List FrameKey),
      d.finalize.topDownResult.selfAt (k :: ks) =
        d.topDownResult.selfAt (k :: ks) +
          startingAt (leafPathsRows [] d.bottomUpResult.children) (k :: ks) := by
  refine ⟨by decide!, by decide!, ?_⟩
  · intro d k ks
    rw [finalize_topDownResult]
    exact selfAt_insertPaths (k :: ks) (List.cons_ne_nil _ _) _ _

/-! ## The caller-callee table -/

theorem lowerBoundLoop_le (children : List FrameData) (needle : CallerCalleeLocation) :
    ∀ (fuel first len : Nat),
      PerfParserPrivate.lowerBoundLoop children needle fuel first len ≤ first + len
  | 0, first, len => by
    rw [PerfParserPrivate.lowerBoundLoop]
    omega
  | fuel + 1, first, len => by
    rw [PerfParserPrivate.lowerBoundLoop]
    by_cases hlen : 0 < len
    · rw [if_pos hlen]
      dsimp only
      split
      · have := lowerBoundLoop_le children needle fuel (first + len / 2 + 1) (len - len / 2 - 1)
        have h2 : len / 2 < len := Nat.div_lt_self hlen (by decide)
        omega
      · have := lowerBoundLoop_le children needle fuel first (len / 2)
        have h2 : len / 2 < len := Nat.div_lt_self hlen (by decide)
        omega
    · rw [if_neg hlen]
      omega

theorem lowerBound_le (children : List FrameData) (needle : CallerCalleeLocation) :
    PerfParserPrivate.lowerBound children needle ≤ children.length := by
  have := lowerBoundLoop_le children needle (children.length + 1) 0 children.length
  unfold PerfParserPrivate.lowerBound
  omega

theorem costOfPair_append (b : Bool) (l r : List FrameData) (n : CallerCalleeLocation) :
    costOfPair b (l ++ r) n = costOfPair b l n + costOfPair b r n := by
  unfold costOfPair
  rw [List.filter_append, List.map_append, List.sum_append]

theorem costOfPair_cons (b : Bool) (c : FrameData) (cs : List FrameData)
    (n : CallerCalleeLocation) :
    costOfPair b (c :: cs) n =
      (if c.pair = n then FrameData.costOf b c else 0) + costOfPair b cs n := by
  unfold costOfPair
  rw [List.filter_cons]
  by_cases h : c.pair = n
  · rw [if_pos h, if_pos (decide_eq_true h), List.map_cons, List.sum_cons]
  · rw [if_neg h, if_neg (by rw [decide_eq_false h]; exact Bool.false_ne_true), Nat.zero_add]

theorem costOfPair_insertNth (b : Bool) (i : Nat) (x : FrameData) (cs : List FrameData)
    (n : CallerCalleeLocation) :
    costOfPair b (PerfParserPrivate.insertNth i x cs) n =
      costOfPair b cs n + (if x.pair = n then FrameData.costOf b x else 0) := by
  unfold PerfParserPrivate.insertNth
  rw [costOfPair_append, costOfPair_cons]
  nth_rewrite 3 [← List.take_append_drop i cs]
  rw [costOfPair_append]
  omega

theorem get?_insertNth (i : Nat) (x : FrameData) (cs : List FrameData) (h : i ≤ cs.length) :
    (PerfParserPrivate.insertNth i x cs).get? i = some x := by
  unfold PerfParserPrivate.insertNth
  have hl : (cs.take i).length = i := by rw [List.length_take]; omega
  rw [List.get?_eq_getElem?, List.getElem?_append_right (by omega), hl, Nat.sub_self]
  simp

theorem costOfPair_modifyNth (b : Bool) (inc self : Nat) (n : CallerCalleeLocation) :
    ∀ (i : Nat) (cs : List FrameData) (c : FrameData), cs.get? i = some c →
      costOfPair b (FrameData.modifyNth (FrameData.addCost inc self) i cs) n =
        costOfPair b cs n + (if c.pair = n then (if b then inc else self) else 0)
  | _, [], _, h => by cases h
  | 0, c0 :: cs, c, h => by
    cases h
    rw [FrameData.modifyNth, costOfPair_cons, costOfPair_cons]
    have hp : (FrameData.addCost inc self c0).pair = c0.pair := by cases c0; rfl
    rw [hp, FrameData.costOf_addCost]
    by_cases hc : c0.pair = n
    · simp only [if_pos hc]; omega
    · simp only [if_neg hc]; omega
  | i + 1, c0 :: cs, c, h => by
    rw [FrameData.modifyNth, costOfPair_cons, costOfPair_cons,
      costOfPair_modifyNth b inc self n i cs c h]
    omega

/-- One counted step of the caller-callee walk adds 1 to the inclusive cost,
and `self` to the self cost, of the pair of the node and nothing for any other
pair. -/
theorem costOfPair_step (b : Bool) (node : FrameData) (self : Nat) (children : List FrameData)
    (n : CallerCalleeLocation) :
    costOfPair b
      (FrameData.modifyNth (FrameData.addCost 1 self)
        (PerfParserPrivate.lowerBound children node.pair)
        (if PerfParserPrivate.lowerBound children node.pair = children.length ∨
            (⟨(children.getD (PerfParserPrivate.lowerBound children node.pair)
                FrameData.empty).symbol,
              (children.getD (PerfParserPrivate.lowerBound children node.pair)
                FrameData.empty).binary⟩ : CallerCalleeLocation) ≠ node.pair
          then PerfParserPrivate.insertNth (PerfParserPrivate.lowerBound children node.pair)
            (.mk node.symbol node.binary node.location node.address 0 0 []) children
          else children)) n =
      costOfPair b children n + (if node.pair = n then (if b then 1 else self) else 0) := by
  have hle := lowerBound_le children node.pair
  generalize PerfParserPrivate.lowerBound children node.pair = it at hle ⊢
  split
  · rw [costOfPair_modifyNth b 1 self n it _ _ (get?_insertNth it _ children hle),
      costOfPair_insertNth]
    have hp : (FrameData.mk node.symbol node.binary node.location node.address 0 0 []).pair =
      node.pair := rfl
    have h0 : FrameData.costOf b
        (FrameData.mk node.symbol node.binary node.location node.address 0 0 []) = 0 := by
      cases b <;> rfl
    rw [hp, h0]
    simp only [ite_self, Nat.add_zero]
  · rename_i hcond
    rw [not_or, not_not] at hcond
    have hlt : it < children.length := by omega
    have hget : children.get? it = some (children.getD it FrameData.empty) := by
      rw [List.get?_eq_getElem?, List.getD_eq_getElem?_getD, List.getElem?_eq_getElem hlt]
      rfl
    rw [costOfPair_modifyNth b 1 self n it _ _ hget]
    have hp : (children.getD it FrameData.empty).pair = node.pair := hcond.2
    rw [hp]

theorem contains_pair (recursionGuard : List CallerCalleeLocation) (node : FrameData) :
    (recursionGuard.contains (⟨node.symbol, node.binary⟩ : CallerCalleeLocation)) = true ↔
      node.pair ∈ recursionGuard := by
  simp [FrameData.pair]

/-- The caller-callee walk when the pair of the node was counted on it before. -/
theorem callerCalleeWalk_seen (node : FrameData) (parents : List FrameData)
    (recursionGuard : List CallerCalleeLocation) (callerCalleeData : FrameData)
    (h : node.pair ∈ recursionGuard) :
    PerfParserPrivate.callerCalleeWalk (node :: parents) recursionGuard callerCalleeData =
      PerfParserPrivate.callerCalleeWalk parents recursionGuard callerCalleeData := by
  rw [PerfParserPrivate.callerCalleeWalk]
  dsimp only
  rw [if_neg (by rw [(contains_pair recursionGuard node).mpr h]; decide)]

/-- The cost of a pair after the caller-callee walk when the pair of the node
was not counted on it before. -/
theorem callerCalleeWalk_new (b : Bool) (node : FrameData) (parents : List FrameData)
    (recursionGuard : List CallerCalleeLocation) (callerCalleeData : FrameData)
    (h : node.pair ∉ recursionGuard) :
    ∃ cc, PerfParserPrivate.callerCalleeWalk (node :: parents) recursionGuard callerCalleeData =
        PerfParserPrivate.callerCalleeWalk parents (recursionGuard ++ [node.pair]) cc ∧
      ∀ n, costOfPair b cc.children n = costOfPair b callerCalleeData.children n +
        (if node.pair = n then (if b then 1 else if parents.isEmpty then 1 else 0) else 0) := by
  rw [PerfParserPrivate.callerCalleeWalk]
  dsimp only
  have hb : (recursionGuard.contains
      (⟨node.symbol, node.binary⟩ : CallerCalleeLocation)) = false := by
    cases hc : recursionGuard.contains
        (⟨node.symbol, node.binary⟩ : CallerCalleeLocation) with
    | false => rfl
    | true => exact absurd ((contains_pair recursionGuard node).mp hc) h
  rw [if_pos (by rw [hb]; rfl)]
  refine ⟨_, rfl, ?_⟩
  intro n
  rw [FrameData.children_setChildren]
  exact costOfPair_step b node (if parents.isEmpty then 1 else 0) callerCalleeData.children n

theorem callerCalleeCost_walk (n : CallerCalleeLocation) :
    ∀ (nodes : List FrameData) (recursionGuard : List CallerCalleeLocation)
      (callerCalleeData : FrameData),
      callerCalleeCost
          (PerfParserPrivate.callerCalleeWalk nodes recursionGuard callerCalleeData) n =
        callerCalleeCost callerCalleeData n +
          (if n ∈ nodes.map FrameData.pair ∧ n ∉ recursionGuard then 1 else 0)
  | [], _, _ => by
    rw [PerfParserPrivate.callerCalleeWalk]
    simp
  | node :: parents, recursionGuard, callerCalleeData => by
    by_cases hg : node.pair ∈ recursionGuard
    · rw [callerCalleeWalk_seen node parents _ _ hg, callerCalleeCost_walk n parents]
      congr 1
      apply if_congr _ rfl rfl
      rw [List.map_cons, List.mem_cons]
      constructor
      · rintro ⟨h1, h2⟩
        exact ⟨Or.inr h1, h2⟩
      · rintro ⟨h1 | h1, h2⟩
        · exact absurd (h1 ▸ hg) h2
        · exact ⟨h1, h2⟩
    · obtain ⟨cc, hw, hc⟩ := callerCalleeWalk_new true node parents _ callerCalleeData hg
      rw [hw, callerCalleeCost_walk n parents]
      unfold callerCalleeCost
      rw [hc n]
      simp only [if_true]
      by_cases hn : node.pair = n
      · have hP : ¬ (n ∈ parents.map FrameData.pair ∧ n ∉ recursionGuard ++ [node.pair]) := by
          rintro ⟨-, h2⟩
          exact h2 (List.mem_append.mpr (Or.inr (List.mem_singleton.mpr hn.symm)))
        have hQ : n ∈ (node :: parents).map FrameData.pair ∧ n ∉ recursionGuard := by
          rw [List.map_cons, List.mem_cons]
          exact ⟨Or.inl hn.symm, fun h => hg (by rw [hn]; exact h)⟩
        rw [if_pos hn, if_neg hP, if_pos hQ]
      · rw [if_neg hn, Nat.add_zero]
        by_cases hQ : n ∈ (node :: parents).map FrameData.pair ∧ n ∉ recursionGuard
        · have hP : n ∈ parents.map FrameData.pair ∧ n ∉ recursionGuard ++ [node.pair] := by
            obtain ⟨h1, h2⟩ := hQ
            rw [List.map_cons, List.mem_cons] at h1
            rcases h1 with h1 | h1
            · exact absurd h1.symm hn
            · refine ⟨h1, fun h3 => ?_⟩
              rcases List.mem_append.mp h3 with h4 | h4
              · exact h2 h4
              · exact hn (List.mem_singleton.mp h4).symm
          rw [if_pos hP, if_pos hQ]
        · have hP : ¬ (n ∈ parents.map FrameData.pair ∧
              n ∉ recursionGuard ++ [node.pair]) := by
            rintro ⟨h1, h2⟩
            apply hQ
            rw [List.map_cons, List.mem_cons]
            exact ⟨Or.inr h1, fun h3 => h2 (List.mem_append.mpr (Or.inl h3))⟩
          rw [if_neg hP, if_neg hQ]

theorem callerCalleeSelfCost_walk (n : CallerCalleeLocation) :
    ∀ (nodes : List FrameData) (recursionGuard : List CallerCalleeLocation)
      (callerCalleeData : FrameData),
      callerCalleeSelfCost
          (PerfParserPrivate.callerCalleeWalk nodes recursionGuard callerCalleeData) n =
        callerCalleeSelfCost callerCalleeData n +
          (if nodes.getLast?.map FrameData.pair = some n ∧ n ∉ recursionGuard ∧
              n ∉ nodes.dropLast.map FrameData.pair then 1 else 0)
  | [], _, _ => by
    rw [PerfParserPrivate.callerCalleeWalk]
    simp
  | [node], recursionGuard, callerCalleeData => by
    by_cases hg : node.pair ∈ recursionGuard
    · rw [callerCalleeWalk_seen node [] _ _ hg, PerfParserPrivate.callerCalleeWalk]
      have hQ : ¬ ([node].getLast?.map FrameData.pair = some n ∧ n ∉ recursionGuard ∧
          n ∉ [node].dropLast.map FrameData.pair) := by
        rintro ⟨h1, h2, -⟩
        simp only [List.getLast?_singleton, Option.map_some', Option.some.injEq] at h1
        exact h2 (h1 ▸ hg)
      rw [if_neg hQ, Nat.add_zero]
    · obtain ⟨cc, hw, hc⟩ := callerCalleeWalk_new false node [] _ callerCalleeData hg
      rw [hw, PerfParserPrivate.callerCalleeWalk]
      unfold callerCalleeSelfCost
      rw [hc n]
      congr 1
      simp only [Bool.false_eq_true, if_false, List.isEmpty_nil, if_true]
      apply if_congr _ rfl rfl
      simp only [List.getLast?_singleton, Option.map_some', Option.some.injEq,
        List.dropLast_single, List.map_nil, List.not_mem_nil, not_false_eq_true, and_true]
      constructor
      · intro h
        exact ⟨h, fun h2 => hg (by rw [h]; exact h2)⟩
      · exact fun h => h.1
  | node :: p :: ps, recursionGuard, callerCalleeData => by
    have hlast : (node :: p :: ps).getLast? = (p :: ps).getLast? := by
      simp [List.getLast?_cons_cons]
    have hdrop : (node :: p :: ps).dropLast = node :: (p :: ps).dropLast := rfl
    rw [hlast, hdrop, List.map_cons]
    by_cases hg : node.pair ∈ recursionGuard
    · rw [callerCalleeWalk_seen node (p :: ps) _ _ hg, callerCalleeSelfCost_walk n (p :: ps)]
      congr 1
      apply if_congr _ rfl rfl
      constructor
      · rintro ⟨h1, h2, h3⟩
        refine ⟨h1, h2, fun h4 => ?_⟩
        rcases List.mem_cons.mp h4 with h5 | h5
        · exact h2 (h5 ▸ hg)
        · exact h3 h5
      · rintro ⟨h1, h2, h3⟩
        exact ⟨h1, h2, fun h4 => h3 (List.mem_cons_of_mem _ h4)⟩
    · obtain ⟨cc, hw, hc⟩ := callerCalleeWalk_new false node (p :: ps) _ callerCalleeData hg
      rw [hw, callerCalleeSelfCost_walk n (p :: ps)]
      unfold callerCalleeSelfCost
      rw [hc n]
      simp only [Bool.false_eq_true, if_false, List.isEmpty_cons, ite_self, Nat.add_zero]
      congr 1
      apply if_congr _ rfl rfl
      constructor
      · rintro ⟨h1, h2, h3⟩
        refine ⟨h1, fun h4 => h2 (List.mem_append.mpr (Or.inl h4)), fun h4 => ?_⟩
        rcases List.mem_cons.mp h4 with h5 | h5
        · exact h2 (List.mem_append.mpr (Or.inr (List.mem_singleton.mpr h5)))
        · exact h3 h5
      · rintro ⟨h1, h2, h3⟩
        refine ⟨h1, fun h4 => ?_, fun h4 => h3 (List.mem_cons_of_mem _ h4)⟩
        rcases List.mem_append.mp h4 with h5 | h5
        · exact h2 h5
        · exact h3 (List.mem_cons.mpr (Or.inl (List.mem_singleton.mp h5)))

/-- C11: the walk of the caller-callee builder for a bottom-up leaf adds exactly
1 to the `inclusiveCost` recorded for every pair of symbol and binary that
occurs on the path from the leaf to the top-level node, however often it
occurs there, and nothing for any other pair; and the recursive chain `A` →
`A` → `B`, sampled once, gives `A` the `inclusiveCost` 1 and `B` the
`inclusiveCost` 1 and the `selfCost` 1. -/
theorem callerCallee_recursion_guard :
    (∀ (ancestors : List FrameData) (s b l a : String) (sc ic : Nat)
        (callerCalleeData : FrameData) (n : CallerCalleeLocation),
      callerCalleeCost
          (PerfParserPrivate.buildCallerCalleeRow ancestors (.mk s b l a sc ic [])
            callerCalleeData) n =
        callerCalleeCost callerCalleeData n +
          (if n ∈ (FrameData.mk s b l a sc ic [] :: ancestors).map FrameData.pair
            then 1 else 0)) ∧
    (addSamples recursiveChain [{ frames := [0] }]).map (fun d =>
        d.finalize.callerCalleeResult.children.map
          (fun c => (c.symbol, c.selfCost, c.inclusiveCost)))
      = some [("A", 0, 1), ("B", 1, 1)] := by
  refine ⟨?_, by decide!⟩
  intro ancestors s b l a sc ic callerCalleeData n
  rw [PerfParserPrivate.buildCallerCalleeRow, callerCalleeCost_walk]
  simp only [List.not_mem_nil, not_false_eq_true, and_true]

/-- C19 fails: for one sample of the chain `A` → `B` → `A` the bottom-up tree has
one leaf and the caller-callee entries of `A` and `B` both have `selfCost` 0.
In general a walk adds 1 to the `selfCost` recorded for the pair of its last
node (the node without a parent) only when that pair does not occur earlier on
the walk, and nothing for any other pair. -/
theorem callerCallee_selfCost_lost_on_recursion :
    (addSamples recursiveSelf [{ frames := [0] }]).map (fun d =>
        ((leafPathsRows [] d.bottomUpResult.children).length,
          d.finalize.callerCalleeResult.children.map
            (fun c => (c.symbol, c.selfCost, c.inclusiveCost))))
      = some (1, [("A", 0, 1), ("B", 0, 1)]) ∧
    ∀ (nodes : List FrameData) (callerCalleeData : FrameData) (n : CallerCalleeLocation),
      callerCalleeSelfCost (PerfParserPrivate.callerCalleeWalk nodes [] callerCalleeData) n =
        callerCalleeSelfCost callerCalleeData n +
          (if nodes.getLast?.map FrameData.pair = some n ∧
              n ∉ nodes.dropLast.map FrameData.pair then 1 else 0) := by
  refine ⟨by decide!, ?_⟩
  intro nodes callerCalleeData n
  rw [callerCalleeSelfCost_walk]
  simp only [List.not_mem_nil, not_false_eq_true, true_and]

/-! ## Labels, registries and cost invariants -/

/-- The node that the static `addFrame` returns has the key it was called with. -/
theorem addFrame_node_key (tree : FrameData) (parent : List Nat) (p : FrameData)
    (s b l a : String) (h : tree.getAt parent = some p) :
    ∃ n, (FrameData.addFrame tree parent s b l a).1.getAt
        (FrameData.addFrame tree parent s b l a).2 = some n ∧ n.key = ⟨s, b, l, a⟩ := by
  unfold FrameData.addFrame
  rw [h]
  dsimp only
  cases hf : FrameData.findRow s b l a p.children with
  | some i =>
    dsimp only
    obtain ⟨c, hc, hk⟩ := FrameData.findKey_some ⟨s, b, l, a⟩ p.children i hf
    refine ⟨c, ?_, hk⟩
    rw [FrameData.getAt_append, h, Option.some_bind, FrameData.getAt_cons, hc]
    rfl
  | none =>
    dsimp only
    refine ⟨FrameData.mk s b l a 0 0 [], ?_, rfl⟩
    rw [FrameData.getAt_append, FrameData.getAt_modifyAt, h]
    simp [FrameData.getAt_cons, FrameData.getAt_nil]

/-- The node of a visit has the symbol and binary of `symbol` and the labels of
`location`. -/
theorem visit_node_key (tree : FrameData) (parent : List Nat) (p : FrameData)
    (symbol : SymbolData) (location : LocationData) (h : tree.getAt parent = some p) :
    ∃ n, (visit tree parent symbol location).1.getAt (visit tree parent symbol location).2 =
        some n ∧
      n.key = ⟨symbol.symbol, symbol.binary, location.location, location.address⟩ := by
  obtain ⟨n, hn, hk⟩ := addFrame_node_key tree parent p symbol.symbol symbol.binary
    location.location location.address h
  refine ⟨n.addCost 1 (if parent = [] then 1 else 0), ?_, by rw [FrameData.key_addCost, hk]⟩
  unfold visit
  dsimp only
  rw [FrameData.getAt_modifyAt, hn]
  rfl

/-- C22, as claimed, fails: for a sample of the symbol-less location 0, labelled
`entry.S:1`, whose parent `foo` is labelled `foo.c:10`, the node inserted has the
symbol and binary of the parent but the location label and the address label
of location 0 itself. -/
theorem symbolless_node_keeps_own_label :
    (trampolineLabels.addSample { frames := [0] }).map
        (fun d => d.bottomUpResult.children.map
          (fun c => (c.symbol, c.binary, c.location, c.address, c.children.length)))
      = some [("foo", "app", "entry.S:1", "t", 0)] ∧
    (value trampolineLabels.locations (parentOf trampolineLabels 0)).location = "foo.c:10" := by
  constructor <;> decide!

/-- C22, amended: when the symbol of the current location `id` is empty, the
iteration visits a node with the symbol and binary of the parent location and
with the location label and address label of `id` itself, and goes on at the
parent with the skip flag set; the iteration at the parent then only moves on
to the parent's parent, so the parent is not visited. -/
theorem symbolless_node_label (d : PerfParserPrivate) (fuel : Nat) (tree : FrameData)
    (parent : List Nat) (id : Int) (hne : id ≠ -1)
    (hid : (value d.symbols id).isValid = false) :
    d.addFrameLoop (fuel + 1) tree parent id false =
      d.addFrameLoop fuel
        (visit tree parent (value d.symbols (parentOf d id)) (value d.locations id)).1
        (visit tree parent (value d.symbols (parentOf d id)) (value d.locations id)).2
        (parentOf d id) true ∧
    (∀ (t : FrameData) (cursor : List Nat), parentOf d id ≠ -1 →
      d.addFrameLoop (fuel + 1) t cursor (parentOf d id) true =
        d.addFrameLoop fuel t cursor (parentOf d (parentOf d id)) false) ∧
    (∀ p, tree.getAt parent = some p →
      ∃ n, (visit tree parent (value d.symbols (parentOf d id)) (value d.locations id)).1.getAt
          (visit tree parent (value d.symbols (parentOf d id)) (value d.locations id)).2 =
            some n ∧
        n.key = ⟨(value d.symbols (parentOf d id)).symbol,
          (value d.symbols (parentOf d id)).binary,
          (value d.locations id).location, (value d.locations id).address⟩) := by
  refine ⟨?_, ?_, ?_⟩
  · rw [PerfParserPrivate.addFrameLoop]
    simp only [hne, if_false, Bool.false_eq_true, hid, Bool.not_false, if_true]
    rfl
  · intro t cursor hp
    rw [PerfParserPrivate.addFrameLoop]
    simp only [hp, if_false, if_true]
    rfl
  · intro p hp
    exact visit_node_key tree parent p _ _ hp

theorem symbolless_node_label_witness :
    trampolineLabels.addFrameLoop 3 FrameData.empty [] 0 false =
      trampolineLabels.addFrameLoop 2
        (visit FrameData.empty [] (value trampolineLabels.symbols
          (parentOf trampolineLabels 0)) (value trampolineLabels.locations 0)).1
        (visit FrameData.empty [] (value trampolineLabels.symbols
          (parentOf trampolineLabels 0)) (value trampolineLabels.locations 0)).2
        (parentOf trampolineLabels 0) true :=
  (symbolless_node_label trampolineLabels 2 FrameData.empty [] 0 (by decide) (by decide)).1

/-- C23: `addLocation` appends an entry that keeps `parentLocationId`, renders the
address in hexadecimal digits, and has as label the empty string when the file
string id is -1, otherwise the value of the string table at that id, followed
by `:` and the decimal line number exactly when the line is not -1; the value
of the string table at a registered id is the string registered there. For
`main.c`, line 42, address 1024 the entry is `main.c:42` at `400`. -/
theorem addLocation_label (d : PerfParserPrivate) (location : LocationDefinition) :
    (∃ e, (d.addLocation location).locations = d.locations ++ [e] ∧
      e.parentLocationId = location.location.parentLocationId ∧
      e.address = String.mk (Nat.toDigits 16 location.location.address) ∧
      e.location =
        (if location.location.file.id = -1 then ""
        else if location.location.line = -1 then value d.strings location.location.file.id
        else value d.strings location.location.file.id ++ ":" ++
          toString location.location.line)) ∧
    (∀ (i : Nat) (s : String), d.strings.get? i = some s → value d.strings (i : Int) = s) ∧
    (({ strings := ["main.c"] } : PerfParserPrivate).addLocation
        { id := 0, location := { address := 1024, file := { id := 0 }, line := 42,
                                   parentLocationId := 7 } }).locations =
      [{ parentLocationId := 7, location := "main.c:42", address := "400" }] := by
  refine ⟨⟨_, rfl, rfl, rfl, ?_⟩, ?_, by decide⟩
  · by_cases hf : location.location.file.id = -1
    · simp only [hf, ne_eq, not_true_eq_false, if_false, if_true]
    · by_cases hl : location.location.line = -1
      · simp only [hf, hl, ne_eq, not_false_eq_true, not_true_eq_false, if_true, if_false]
      · simp only [hf, hl, ne_eq, not_false_eq_true, if_true, if_false]
        rfl
  · intro i s h
    have hi : i < d.strings.length := by
      rcases Nat.lt_or_ge i d.strings.length with h1 | h1
      · exact h1
      · rw [List.get?_eq_none.mpr h1] at h; cases h
    unfold value
    rw [if_pos ⟨by omega, by omega⟩, Int.toNat_ofNat, List.getD_eq_getElem?_getD,
      ← List.get?_eq_getElem?, h]
    rfl

theorem addLocation_label_witness :
    value ({ strings := ["main.c"] } : PerfParserPrivate).strings ((0 : Nat) : Int) = "main.c" :=
  (addLocation_label { strings := ["main.c"] } {}).2.1 0 "main.c" rfl

theorem apply_lengths (d : PerfParserPrivate) (call : RegistryCall)
    (h : d.symbols.length = d.locations.length) :
    (call.apply d).symbols.length = (call.apply d).locations.length := by
  cases call with
  | string definition => exact h
  | location definition =>
    simp only [RegistryCall.apply, PerfParserPrivate.addLocation, List.length_append,
      List.length_singleton, h]
  | symbol definition =>
    simp only [RegistryCall.apply, PerfParserPrivate.addSymbol]
    split
    · simp only [List.length_set]
      exact h
    · exact h

theorem applyCalls_lengths :
    ∀ (calls : List RegistryCall) (d : PerfParserPrivate),
      d.symbols.length = d.locations.length →
      (applyCalls d calls).symbols.length = (applyCalls d calls).locations.length
  | [], _, h => h
  | call :: calls, d, h => applyCalls_lengths calls _ (apply_lengths d call h)

/-- C24: after a sequence of `addString`, `addLocation` and `addSymbol` calls that
satisfy their id preconditions, from tables of the same length, the symbol
table and the location table have the same length; `addLocation` appends one
entry to each, an empty symbol to the symbol table; and `addSymbol` with an id
below the length writes entry `id` of the symbol table and leaves its length,
its other entries and the location table as they are. -/
theorem registries_coindexed (d : PerfParserPrivate) (calls : List RegistryCall)
    (h : d.symbols.length = d.locations.length) (_hok : callsOk d calls = true) :
    (applyCalls d calls).symbols.length = (applyCalls d calls).locations.length ∧
    (∀ (d0 : PerfParserPrivate) (location : LocationDefinition),
      (∃ e, (d0.addLocation location).locations = d0.locations ++ [e]) ∧
      (∃ e : SymbolData, (d0.addLocation location).symbols = d0.symbols ++ [e] ∧
        e.symbol = "" ∧ e.binary = "" ∧ e.isValid = false)) ∧
    (∀ (d0 : PerfParserPrivate) (symbol : SymbolDefinition),
      0 ≤ symbol.id → symbol.id < d0.symbols.length →
      (d0.addSymbol symbol).locations = d0.locations ∧
      (d0.addSymbol symbol).symbols.length = d0.symbols.length ∧
      (d0.addSymbol symbol).symbols.get? symbol.id.toNat =
        some { symbol := value d0.strings symbol.symbol.name.id,
               binary := value d0.strings symbol.symbol.binary.id } ∧
      ∀ j, j ≠ symbol.id.toNat → (d0.addSymbol symbol).symbols.get? j = d0.symbols.get? j) := by
  refine ⟨applyCalls_lengths calls d h, ?_, ?_⟩
  · intro d0 location
    exact ⟨⟨_, rfl⟩, ⟨{}, rfl, rfl, rfl, by decide⟩⟩
  · intro d0 symbol h0 hlt
    have hlt' : symbol.id.toNat < d0.symbols.length := by omega
    rw [PerfParserPrivate.addSymbol, if_pos h0]
    refine ⟨rfl, List.length_set .., ?_, ?_⟩
    · rw [List.get?_eq_getElem?, List.getElem?_set_self hlt']
    · intro j hj
      rw [List.get?_eq_getElem?, List.get?_eq_getElem?, List.getElem?_set_ne (Ne.symm hj)]

theorem registries_coindexed_witness :
    (applyCalls {} [.string { id := 0, string := [102] }, .location { id := 0 },
      .symbol { id := 0, symbol := { name := { id := 0 } } }]).symbols.length =
    (applyCalls {} [.string { id := 0, string := [102] }, .location { id := 0 },
      .symbol { id := 0, symbol := { name := { id := 0 } } }]).locations.length :=
  (registries_coindexed {} _ rfl (by decide)).1

namespace FrameData

theorem allNodesRows_iff (P : FrameData → Bool) :
    ∀ (cs : List FrameData), allNodesRows P cs = true ↔ ∀ c ∈ cs, allNodes P c = true
  | [] => by simp [allNodesRows]
  | c :: cs => by
    rw [allNodesRows, Bool.and_eq_true, allNodesRows_iff P cs]
    simp

theorem allNodes_iff (P : FrameData → Bool) (t : FrameData) :
    allNodes P t = true ↔ P t = true ∧ ∀ c ∈ t.children, allNodes P c = true := by
  cases t with
  | mk s b l a sc ic cs =>
    rw [allNodes, Bool.and_eq_true, allNodesRows_iff]
    rfl

/-- A test that holds of all nodes holds of the node at the end of a path. -/
theorem allNodes_getAt (P : FrameData → Bool) :
    ∀ (p : List Nat) (t n : FrameData), allNodes P t = true → t.getAt p = some n →
      allNodes P n = true
  | [], t, n, ht, h => by
    rw [getAt_nil] at h
    cases h
    exact ht
  | i :: p, t, n, ht, h => by
    rw [getAt_cons] at h
    cases hc : t.children.get? i with
    | none => rw [hc] at h; cases h
    | some c =>
      rw [hc] at h
      exact allNodes_getAt P p c n (((allNodes_iff P t).mp ht).2 c (List.get?_mem hc)) h

theorem sum_inclusiveCost_modifyNth (f : FrameData → FrameData) (inc : Nat)
    (hf : ∀ c, (f c).inclusiveCost = c.inclusiveCost + inc) :
    ∀ (i : Nat) (cs : List FrameData), i < cs.length →
      ((modifyNth f i cs).map inclusiveCost).sum = (cs.map inclusiveCost).sum + inc
  | _, [], h => by cases h
  | 0, c :: cs, _ => by
    simp only [modifyNth, List.map_cons, List.sum_cons, hf]
    omega
  | i + 1, c :: cs, h => by
    have := sum_inclusiveCost_modifyNth f inc hf i cs (Nat.lt_of_succ_lt_succ h)
    simp only [modifyNth, List.map_cons, List.sum_cons, this]
    omega

theorem leaf_eq_addCost (k : FrameKey) (inc self : Nat) :
    mk k.symbol k.binary k.location k.address self inc [] =
      (mk k.symbol k.binary k.location k.address 0 0 []).addCost inc self := by
  simp [addCost]

theorem findKey_lt (k : FrameKey) (cs : List FrameData) (i : Nat) (h : findKey k cs = some i) :
    i < cs.length := findRow_lt _ _ _ _ cs i h

/-- A walk from a node that gets the cost of the walk itself keeps the
dominance of inclusive costs. -/
theorem dominates_insertPath (inc : Nat) :
    ∀ (ks : List FrameKey) (self self0 : Nat) (t : FrameData),
      allNodes dominates t = true →
      allNodes dominates (insertPath inc self ks (t.addCost inc self0)) = true
  | [], self, self0, t, h => by
    rw [insertPath]
    rw [allNodes_iff] at h ⊢
    rw [children_addCost]
    refine ⟨?_, h.2⟩
    have h1 := of_decide_eq_true h.1
    unfold dominates
    rw [children_addCost, inclusiveCost_addCost]
    exact decide_eq_true (by omega)
  | k :: ks, self, self0, t, h => by
    rw [insertPath, children_addCost]
    have h' := (allNodes_iff _ t).mp h
    have h1 := of_decide_eq_true h'.1
    cases hf : findKey k t.children with
    | some i =>
      dsimp only
      rw [allNodes_iff, children_setChildren]
      constructor
      · unfold dominates
        rw [children_setChildren, inclusiveCost_setChildren, inclusiveCost_addCost,
          sum_inclusiveCost_modifyNth _ inc
            (fun c => by rw [inclusiveCost_insertPath, inclusiveCost_addCost]) i _
            (findKey_lt k _ i hf)]
        exact decide_eq_true (by omega)
      · intro c' hc'
        rcases mem_modifyNth _ c' i _ hc' with hm | ⟨c, hc, rfl⟩
        · exact h'.2 c' hm
        · exact dominates_insertPath inc ks 0 self c (h'.2 c (List.get?_mem hc))
    | none =>
      dsimp only
      rw [allNodes_iff, children_setChildren]
      constructor
      · unfold dominates
        rw [children_setChildren, inclusiveCost_setChildren, inclusiveCost_addCost,
          List.map_append, List.sum_append, List.map_cons, List.map_nil, List.sum_cons,
          List.sum_nil, inclusiveCost_insertPath,
          show (mk k.symbol k.binary k.location k.address self inc []).inclusiveCost = inc
            from rfl]
        exact decide_eq_true (by omega)
      · intro c' hc'
        rcases List.mem_append.mp hc' with hm | hm
        · exact h'.2 c' hm
        · rw [List.mem_singleton] at hm
          rw [hm, leaf_eq_addCost]
          apply dominates_insertPath inc ks 0 self
          rw [allNodes_iff]
          exact ⟨decide_eq_true (Nat.le_refl 0), fun c hc => by cases hc⟩

/-- A walk without self cost keeps the self costs below a node at 0. -/
theorem selfFree_insertPath (inc : Nat) :
    ∀ (ks : List FrameKey) (t : FrameData),
      (∀ c ∈ t.children, allNodes selfFree c = true) →
      ∀ c ∈ (insertPath inc 0 ks t).children, allNodes selfFree c = true
  | [], t, h => h
  | k :: ks, t, h => by
    rw [insertPath]
    cases hf : findKey k t.children with
    | some i =>
      dsimp only
      rw [children_setChildren]
      intro c' hc'
      rcases mem_modifyNth _ c' i _ hc' with hm | ⟨c, hc, rfl⟩
      · exact h c' hm
      · have hc0 := (allNodes_iff _ c).mp (h c (List.get?_mem hc))
        rw [allNodes_iff]
        constructor
        · unfold selfFree
          rw [selfCost_insertPath, selfCost_addCost]
          exact decide_eq_true (by have := of_decide_eq_true hc0.1; omega)
        · exact selfFree_insertPath inc ks _ (by rw [children_addCost]; exact hc0.2)
    | none =>
      dsimp only
      rw [children_setChildren]
      intro c' hc'
      rcases List.mem_append.mp hc' with hm | hm
      · exact h c' hm
      · rw [List.mem_singleton] at hm
        rw [hm, allNodes_iff]
        constructor
        · unfold selfFree
          rw [selfCost_insertPath]
          rfl
        · exact selfFree_insertPath inc ks _ (fun c hc => by cases hc)

/-- A sample keeps the shape of the self costs. -/
theorem selfShape_insertPath (ks : List FrameKey) (t : FrameData) (h : selfShape t) :
    selfShape (insertPath 1 1 ks (t.addCost 1 0)) := by
  cases ks with
  | nil =>
    rw [insertPath]
    unfold selfShape
    rw [children_addCost]
    exact h
  | cons k ks =>
    rw [insertPath, children_addCost]
    cases hf : findKey k t.children with
    | some i =>
      dsimp only
      unfold selfShape
      rw [children_setChildren]
      intro c' hc'
      rcases mem_modifyNth _ c' i _ hc' with hm | ⟨c, hc, rfl⟩
      · exact h c' hm
      · have hc0 := h c (List.get?_mem hc)
        refine ⟨?_, selfFree_insertPath 1 ks _ (by rw [children_addCost]; exact hc0.2)⟩
        rw [selfCost_insertPath, inclusiveCost_insertPath, selfCost_addCost,
          inclusiveCost_addCost, hc0.1]
    | none =>
      dsimp only
      unfold selfShape
      rw [children_setChildren]
      intro c' hc'
      rcases List.mem_append.mp hc' with hm | hm
      · exact h c' hm
      · rw [List.mem_singleton] at hm
        rw [hm]
        refine ⟨?_, selfFree_insertPath 1 ks _ (fun c hc => by cases hc)⟩
        rw [selfCost_insertPath, inclusiveCost_insertPath]
        rfl

end FrameData

mutual
theorem leafCostSum_le :
    ∀ (t : FrameData), FrameData.allNodes FrameData.dominates t = true →
      leafCostSum t ≤ t.inclusiveCost
  | .mk s b l a sc ic [], _ => by
    rw [leafCostSum]
    exact Nat.le_refl _
  | .mk s b l a sc ic (c :: cs), h => by
    rw [leafCostSum]
    have h' := (FrameData.allNodes_iff _ _).mp h
    exact Nat.le_trans (leafCostSumRows_le (c :: cs) h'.2) (of_decide_eq_true h'.1)
theorem leafCostSumRows_le :
    ∀ (cs : List FrameData), (∀ c ∈ cs, FrameData.allNodes FrameData.dominates c = true) →
      leafCostSumRows cs ≤ (cs.map FrameData.inclusiveCost).sum
  | [], _ => by
    rw [leafCostSumRows]
    exact Nat.zero_le _
  | c :: cs, h => by
    rw [leafCostSumRows, List.map_cons, List.sum_cons]
    exact Nat.add_le_add (leafCostSum_le c (h c (List.mem_cons_self _ _)))
      (leafCostSumRows_le cs (fun c' hc' => h c' (List.mem_cons_of_mem _ hc')))
end

/-- A property of the bottom-up tree and of the number of samples folded that
every walk of a sample carries on holds after any sequence of samples whose
walks end. -/
theorem addSamples_invariant_count (I : Nat → FrameData → Prop)
    (hI : ∀ n t ks, I n t → I (n + 1) (FrameData.insertPath 1 1 ks (t.addCost 1 0))) :
    ∀ (samples : List Sample) (d : PerfParserPrivate) (n : Nat),
      (∀ s ∈ samples, (sampleKeys d s.frames).isSome = true) → I n d.bottomUpResult →
      ∃ d', addSamples d samples = some d' ∧ I (n + samples.length) d'.bottomUpResult ∧
        d'.topDownResult = d.topDownResult ∧ d'.callerCalleeResult = d.callerCalleeResult
  | [], d, n, _, h => ⟨d, rfl, h, rfl, rfl⟩
  | s :: samples, d, n, h, hd => by
    have hs := h s (List.mem_cons_self _ _)
    cases hk : sampleKeys d s.frames with
    | none => rw [hk] at hs; cases hs
    | some ks =>
      obtain ⟨d1, h1, hb, -, hl, hsy, htd, hcc⟩ := addSample_some d s ks hk
      obtain ⟨d', h2, hb', htd', hcc'⟩ := addSamples_invariant_count I hI samples d1 (n + 1)
        (fun s' hs' => by
          rw [sampleKeys_congr d d1 hl hsy]
          exact h s' (List.mem_cons_of_mem _ hs'))
        (by rw [hb]; exact hI n _ ks hd)
      refine ⟨d', ?_, ?_, htd'.trans htd, hcc'.trans hcc⟩
      · rw [addSamples, h1]
        exact h2
      · rw [List.length_cons, Nat.add_comm samples.length 1, ← Nat.add_assoc]
        exact hb'

/-- C9, amended: from a decoder with an empty top-down tree, after any sequence
of samples whose walks end and after `finalize` the sum of `inclusiveCost` over
the immediate children of the top-down root is the sum of `inclusiveCost` over
the leaves of the bottom-up tree. For every decoder `finalize` adds the costs
of the bottom-up leaves to what the children of the top-down root had. -/
theorem topDown_root_cost_eq_leaf_cost (d : PerfParserPrivate) (samples : List Sample)
    (ht : d.topDownResult.children = [])
    (hs : ∀ s ∈ samples, (sampleKeys d s.frames).isSome = true) :
    (∃ d', addSamples d samples = some d' ∧
      childCostSum d'.finalize.topDownResult = leafCostSumRows d'.bottomUpResult.children) ∧
    ∀ d0 : PerfParserPrivate,
      childCostSum d0.finalize.topDownResult =
        childCostSum d0.topDownResult + leafCostSumRows d0.bottomUpResult.children := by
  refine ⟨?_, fun d0 =>
    childCostSum_buildTopDownRows [] d0.bottomUpResult.children d0.topDownResult⟩
  obtain ⟨d', h1, -, -, -, h2, -⟩ := addSamples_invariant (fun _ => True)
    (fun _ _ _ => trivial) samples d hs trivial
  refine ⟨d', h1, ?_⟩
  have h3 := childCostSum_buildTopDownRows [] d'.bottomUpResult.children d'.topDownResult
  have h4 : childCostSum d'.topDownResult = 0 := by
    unfold childCostSum
    rw [h2, ht]
    rfl
  rw [h4, Nat.zero_add] at h3
  exact h3

theorem topDown_root_cost_eq_leaf_cost_witness :
    ∃ d', addSamples twoRoots [{ frames := [0] }, { frames := [0, 1] }, { frames := [] }] =
        some d' ∧
      childCostSum d'.finalize.topDownResult = leafCostSumRows d'.bottomUpResult.children :=
  (topDown_root_cost_eq_leaf_cost twoRoots
    [{ frames := [0] }, { frames := [0, 1] }, { frames := [] }] rfl (by decide)).1

/-- C25: from a bottom-up tree in which every node has an `inclusiveCost` of at
least the sum over its children (the empty tree of a new decoder is such),
after any sequence of samples whose walks end every node of the bottom-up
tree, the root included, has an `inclusiveCost` of at least the sum of the
`inclusiveCost` of its children. -/
theorem bottomUp_cost_dominance (d : PerfParserPrivate) (samples : List Sample)
    (hd : FrameData.allNodes FrameData.dominates d.bottomUpResult = true)
    (hs : ∀ s ∈ samples, (sampleKeys d s.frames).isSome = true) :
    ∃ d', addSamples d samples = some d' ∧
      ∀ (p : List Nat) (n : FrameData), d'.bottomUpResult.getAt p = some n →
        childCostSum n ≤ n.inclusiveCost := by
  obtain ⟨d', h1, h2, -⟩ := addSamples_invariant
    (fun t => FrameData.allNodes FrameData.dominates t = true)
    (fun t ks h => FrameData.dominates_insertPath 1 ks 1 0 t h) samples d hs hd
  refine ⟨d', h1, fun p n hn => ?_⟩
  have h3 := FrameData.allNodes_getAt _ p _ n h2 hn
  exact of_decide_eq_true ((FrameData.allNodes_iff _ n).mp h3).1

theorem bottomUp_cost_dominance_witness :
    ∃ d', addSamples twoRoots [{ frames := [0, 1] }, { frames := [] }, { frames := [1] }] =
        some d' ∧
      ∀ (p : List Nat) (n : FrameData), d'.bottomUpResult.getAt p = some n →
        childCostSum n ≤ n.inclusiveCost :=
  bottomUp_cost_dominance twoRoots [{ frames := [0, 1] }, { frames := [] }, { frames := [1] }]
    (by decide) (by decide)

/-- C26: from a new decoder (a bottom-up tree with the dominance of C25 and an
empty top-down tree), after any sequence of samples whose walks end and after
`finalize` the sum of `inclusiveCost` over the children of the top-down root is
the sum of `inclusiveCost` over the leaves of the bottom-up tree, which is at
most the `inclusiveCost` of the bottom-up root; and that has grown by the
number of samples. -/
theorem topDown_children_cost_le_samples (d : PerfParserPrivate) (samples : List Sample)
    (hd : FrameData.allNodes FrameData.dominates d.bottomUpResult = true)
    (ht : d.topDownResult.children = [])
    (hs : ∀ s ∈ samples, (sampleKeys d s.frames).isSome = true) :
    ∃ d', addSamples d samples = some d' ∧
      childCostSum d'.finalize.topDownResult = leafCostSumRows d'.bottomUpResult.children ∧
      leafCostSumRows d'.bottomUpResult.children ≤ d'.bottomUpResult.inclusiveCost ∧
      d'.bottomUpResult.inclusiveCost = d.bottomUpResult.inclusiveCost + samples.length := by
  obtain ⟨d', h1, ⟨h2, h3⟩, h4, -⟩ := addSamples_invariant_count
    (fun n t => FrameData.allNodes FrameData.dominates t = true ∧
      t.inclusiveCost = d.bottomUpResult.inclusiveCost + n)
    (fun n t ks h => ⟨FrameData.dominates_insertPath 1 ks 1 0 t h.1, by
      rw [FrameData.inclusiveCost_insertPath, FrameData.inclusiveCost_addCost, h.2,
        Nat.add_assoc]⟩)
    samples d 0 hs ⟨hd, rfl⟩
  refine ⟨d', h1, ?_, ?_, by rw [h3, Nat.zero_add]⟩
  · have h5 := childCostSum_buildTopDownRows [] d'.bottomUpResult.children d'.topDownResult
    have h6 : childCostSum d'.topDownResult = 0 := by
      unfold childCostSum
      rw [h4, ht]
      rfl
    rw [h6, Nat.zero_add] at h5
    exact h5
  · have h5 := (FrameData.allNodes_iff _ _).mp h2
    exact Nat.le_trans (leafCostSumRows_le _ h5.2) (of_decide_eq_true h5.1)

theorem topDown_children_cost_le_samples_witness :
    ∃ d', addSamples callChain [{ frames := [0] }, { frames := [] }, { frames := [1] }] =
        some d' ∧
      childCostSum d'.finalize.topDownResult = leafCostSumRows d'.bottomUpResult.children ∧
      leafCostSumRows d'.bottomUpResult.children ≤ d'.bottomUpResult.inclusiveCost ∧
      d'.bottomUpResult.inclusiveCost = callChain.bottomUpResult.inclusiveCost + 3 :=
  topDown_children_cost_le_samples callChain
    [{ frames := [0] }, { frames := [] }, { frames := [1] }] (by decide) rfl (by decide)

/-- C27: from an empty bottom-up tree, after any sequence of samples whose walks
end every child of the bottom-up root has `selfCost` equal to `inclusiveCost`,
and every node two or more levels below the root has `selfCost` 0. -/
theorem bottomUp_selfCost_shape (d : PerfParserPrivate) (samples : List Sample)
    (h0 : d.bottomUpResult.children = [])
    (hs : ∀ s ∈ samples, (sampleKeys d s.frames).isSome = true) :
    ∃ d', addSamples d samples = some d' ∧
      (∀ c ∈ d'.bottomUpResult.children, c.selfCost = c.inclusiveCost) ∧
      ∀ (p : List Nat) (n : FrameData), 2 ≤ p.length → d'.bottomUpResult.getAt p = some n →
        n.selfCost = 0 := by
  obtain ⟨d', h1, h2, -⟩ := addSamples_invariant FrameData.selfShape
    (fun t ks h => FrameData.selfShape_insertPath ks t h) samples d hs
    (fun c hc => by rw [h0] at hc; cases hc)
  refine ⟨d', h1, fun c hc => (h2 c hc).1, ?_⟩
  intro p n hp hn
  match p, hp with
  | i :: j :: q, _ =>
    rw [FrameData.getAt_cons] at hn
    cases hc : d'.bottomUpResult.children.get? i with
    | none => rw [hc] at hn; cases hn
    | some c =>
      rw [hc, Option.some_bind, FrameData.getAt_cons] at hn
      cases hg : c.children.get? j with
      | none => rw [hg] at hn; cases hn
      | some g =>
        rw [hg, Option.some_bind] at hn
        have h3 := (h2 c (List.get?_mem hc)).2 g (List.get?_mem hg)
        have h4 := FrameData.allNodes_getAt _ q g n h3 hn
        exact of_decide_eq_true ((FrameData.allNodes_iff _ n).mp h4).1

theorem bottomUp_selfCost_shape_witness :
    ∃ d', addSamples callChain [{ frames := [0] }, { frames := [1, 0] }] = some d' ∧
      (∀ c ∈ d'.bottomUpResult.children, c.selfCost = c.inclusiveCost) ∧
      ∀ (p : List Nat) (n : FrameData), 2 ≤ p.length → d'.bottomUpResult.getAt p = some n →
        n.selfCost = 0 :=
  bottomUp_selfCost_shape callChain [{ frames := [0] }, { frames := [1, 0] }] rfl (by decide)

/-! ## Termination of the walk and the order of the caller-callee list -/

theorem chainLength_mono (d : PerfParserPrivate) :
    ∀ (fuel : Nat) (id : Int) (m : Nat), chainLength d fuel id = some m →
      ∀ fuel', fuel ≤ fuel' → chainLength d fuel' id = some m
  | 0, _, _, h, _, _ => by cases h
  | fuel + 1, id, m, h, fuel', hle => by
    obtain ⟨f, rfl⟩ : ∃ f, fuel' = f + 1 := ⟨fuel' - 1, by omega⟩
    rw [chainLength] at h ⊢
    by_cases hid : id = -1
    · rw [if_pos hid] at h ⊢
      exact h
    · rw [if_neg hid] at h ⊢
      cases hc : chainLength d fuel (parentOf d id) with
      | none => rw [hc] at h; cases h
      | some n =>
        rw [hc] at h
        rw [chainLength_mono d fuel _ n hc f (by omega)]
        exact h

/-- When every registered location has no parent or a parent with a smaller
id, the parent chain of an id below `n` ends within `n + 2` steps. -/
theorem chainLength_isSome (d : PerfParserPrivate)
    (hacyc : ∀ i : Int, 0 ≤ i → i < d.locations.length →
      parentOf d i = -1 ∨ parentOf d i < i) :
    ∀ (n : Nat) (id : Int), id < n → ∃ m, chainLength d (n + 2) id = some m
  | 0, id, h => by
    by_cases hid : id = -1
    · exact ⟨0, by rw [chainLength, if_pos hid]⟩
    · have hp := parentOf_of_not_range d id (by omega)
      refine ⟨1, ?_⟩
      rw [chainLength, if_neg hid, hp, chainLength, if_pos rfl]
      rfl
  | n + 1, id, h => by
    by_cases hlt : id < n
    · obtain ⟨m, hm⟩ := chainLength_isSome d hacyc n id hlt
      exact ⟨m, chainLength_mono d _ _ m hm _ (by omega)⟩
    · have hid : id ≠ -1 := by omega
      have hstep : ∃ m, chainLength d (n + 2) (parentOf d id) = some m := by
        by_cases hr : 0 ≤ id ∧ id < d.locations.length
        · rcases hacyc id hr.1 hr.2 with hp | hp
          · exact ⟨0, by rw [hp, chainLength, if_pos rfl]⟩
          · exact chainLength_isSome d hacyc n _ (by omega)
        · exact ⟨0, by rw [parentOf_of_not_range d id hr, chainLength, if_pos rfl]⟩
      obtain ⟨m, hm⟩ := hstep
      refine ⟨m + 1, ?_⟩
      rw [chainLength, if_neg hid, hm]
      rfl

/-- The loop visits at most one node for every id of the parent chain. -/
theorem visitedKeys_length (d : PerfParserPrivate) :
    ∀ (fuel : Nat) (id : Int) (skip : Bool) (m : Nat), chainLength d fuel id = some m →
      ∃ ks, visitedKeys d fuel id skip = some ks ∧ ks.length ≤ m
  | 0, _, _, _, h => by cases h
  | fuel + 1, id, skip, m, h => by
    rw [chainLength] at h
    rw [visitedKeys]
    by_cases hid : id = -1
    · rw [if_pos hid]
      exact ⟨[], rfl, Nat.zero_le _⟩
    · rw [if_neg hid] at h ⊢
      cases hc : chainLength d fuel (parentOf d id) with
      | none => rw [hc] at h; cases h
      | some n =>
        rw [hc] at h
        cases h
        dsimp only
        cases skip with
        | true =>
          obtain ⟨ks, h1, h2⟩ := visitedKeys_length d fuel _ false n hc
          rw [if_pos rfl]
          exact ⟨ks, h1, by omega⟩
        | false =>
          obtain ⟨ks, h1, h2⟩ := visitedKeys_length d fuel _
            (!(value d.symbols id).isValid) n hc
          rw [if_neg (by decide)]
          have h1' : visitedKeys d fuel (value d.locations id).parentLocationId
            (!(value d.symbols id).isValid) = some ks := h1
          rw [h1']
          exact ⟨_, rfl, by rw [List.length_cons]; omega⟩

theorem iterate_selfParent : ∀ j : Nat, (parentOf selfParent)^[j] 0 = 0
  | 0 => rfl
  | j + 1 => by
    rw [Function.iterate_succ_apply]
    exact iterate_selfParent j

/-- C28: when every registered location has no parent or a parent with a
smaller id, `addFrame(parent, id)` returns for every `id`, registered or not:
the parent chain of `id` has a length `n`, the loop visits (inserts or finds)
the nodes of the keys `ks`, at most `n` of them, and its result is the walk
along `ks`. Without the hypothesis the loop does not return when the parent
chain of the id never meets -1, as for a location that is its own parent:
no amount of fuel gives a result. -/
theorem addFrame_terminates (d : PerfParserPrivate)
    (hacyc : ∀ i : Int, 0 ≤ i → i < d.locations.length →
      parentOf d i = -1 ∨ parentOf d i < i)
    (tree : FrameData) (parent : List Nat) (id : Int) :
    (∃ n ks, chainLength d (d.locations.length + 2) id = some n ∧
      visitedKeys d (d.locations.length + 2) id false = some ks ∧ ks.length ≤ n ∧
      d.addFrame tree parent id =
        some (FrameData.walk 1 (if parent = [] then 1 else 0) ks tree parent)) ∧
    (∀ (d0 : PerfParserPrivate) (id0 : Int) (fuel : Nat),
      (∀ j, (parentOf d0)^[j] id0 ≠ -1) →
      d0.addFrameLoop fuel tree parent id0 false = none) ∧
    ∀ fuel, selfParent.addFrameLoop fuel tree parent 0 false = none := by
  refine ⟨?_, ?_, ?_⟩
  · have hn : ∃ n, chainLength d (d.locations.length + 2) id = some n := by
      by_cases hlt : id < d.locations.length
      · exact chainLength_isSome d hacyc _ id hlt
      · by_cases hid : id = -1
        · exact ⟨0, by rw [chainLength, if_pos hid]⟩
        · refine ⟨1, ?_⟩
          rw [chainLength, if_neg hid, parentOf_of_not_range d id (by omega), chainLength,
            if_pos rfl]
          rfl
    obtain ⟨n, hn⟩ := hn
    obtain ⟨ks, hks, hlen⟩ := visitedKeys_length d _ id false n hn
    refine ⟨n, ks, hn, hks, hlen, ?_⟩
    rw [PerfParserPrivate.addFrame, addFrameLoop_eq_walk, hks]
    rfl
  · intro d0 id0 fuel h
    rw [addFrameLoop_eq_none_iff]
    exact fun j _ => h j
  · intro fuel
    rw [addFrameLoop_eq_none_iff]
    intro j _
    rw [iterate_selfParent]
    decide

theorem addFrame_terminates_witness :
    ∃ n ks, chainLength orderedChain (orderedChain.locations.length + 2) 1 = some n ∧
      visitedKeys orderedChain (orderedChain.locations.length + 2) 1 false = some ks ∧
      ks.length ≤ n ∧
      orderedChain.addFrame FrameData.empty [] 1 =
        some (FrameData.walk 1 (if ([] : List Nat) = [] then 1 else 0) ks FrameData.empty []) :=
  (addFrame_terminates orderedChain (by
    intro i h0 h1
    have h2 : i < 2 := h1
    have hi : i = 0 ∨ i = 1 := by omega
    rcases hi with rfl | rfl
    · left; decide
    · right; decide) FrameData.empty [] 1).1

namespace CallerCalleeLocation

theorem lt_iff (a b : CallerCalleeLocation) :
    lt a b = true ↔ a.symbol < b.symbol ∨ (a.symbol = b.symbol ∧ a.binary < b.binary) := by
  unfold lt
  rw [Bool.or_eq_true, Bool.and_eq_true, decide_eq_true_iff, decide_eq_true_iff,
    Bool.not_eq_true', decide_eq_false_iff_not]
  constructor
  · rintro (h | ⟨h1, h2⟩)
    · exact Or.inl h
    · rcases lt_trichotomy a.symbol b.symbol with h3 | h3 | h3
      · exact Or.inl h3
      · exact Or.inr ⟨h3, h2⟩
      · exact absurd h3 h1
  · rintro (h | ⟨h1, h2⟩)
    · exact Or.inl h
    · exact Or.inr ⟨by rw [h1]; exact lt_irrefl _, h2⟩

theorem lt_irrefl' (a : CallerCalleeLocation) : lt a a = false := by
  cases h : lt a a with
  | false => rfl
  | true =>
    rcases (lt_iff a a).mp h with h1 | ⟨-, h1⟩
    · exact absurd h1 (lt_irrefl _)
    · exact absurd h1 (lt_irrefl _)

theorem lt_trans' (a b c : CallerCalleeLocation) (h1 : lt a b = true) (h2 : lt b c = true) :
    lt a c = true := by
  rw [lt_iff] at h1 h2 ⊢
  rcases h1 with h1 | ⟨h1, h1'⟩
  · rcases h2 with h2 | ⟨h2, -⟩
    · exact Or.inl (lt_trans h1 h2)
    · exact Or.inl (by rw [← h2]; exact h1)
  · rcases h2 with h2 | ⟨h2, h2'⟩
    · exact Or.inl (by rw [h1]; exact h2)
    · exact Or.inr ⟨h1.trans h2, lt_trans h1' h2'⟩

theorem eq_of_not_lt (a b : CallerCalleeLocation) (h1 : lt a b = false) (h2 : lt b a = false) :
    a = b := by
  have h1' : ¬ (a.symbol < b.symbol ∨ (a.symbol = b.symbol ∧ a.binary < b.binary)) := by
    rw [← lt_iff, h1]; exact Bool.false_ne_true
  have h2' : ¬ (b.symbol < a.symbol ∨ (b.symbol = a.symbol ∧ b.binary < a.binary)) := by
    rw [← lt_iff, h2]; exact Bool.false_ne_true
  rw [not_or] at h1' h2'
  have hs : a.symbol = b.symbol :=
    le_antisymm (not_lt.mp h2'.1) (not_lt.mp h1'.1)
  have hb : a.binary = b.binary :=
    le_antisymm (not_lt.mp (fun h => h2'.2 ⟨hs.symm, h⟩)) (not_lt.mp (fun h => h1'.2 ⟨hs, h⟩))
  cases a; cases b
  simp only at hs hb
  rw [hs, hb]

end CallerCalleeLocation

/-- In a strictly increasing list a row before another row is smaller. -/
theorem strictlySorted_get (cs : List FrameData) (hs : strictlySorted cs) (i j : Nat)
    (a b : FrameData) (hij : i < j) (ha : cs.get? i = some a) (hb : cs.get? j = some b) :
    CallerCalleeLocation.lt a.pair b.pair = true := by
  unfold strictlySorted at hs
  rw [List.pairwise_map, List.pairwise_iff_getElem] at hs
  have hi : i < cs.length := by
    rcases Nat.lt_or_ge i cs.length with h | h
    · exact h
    · rw [List.get?_eq_none.mpr h] at ha; cases ha
  have hj : j < cs.length := by
    rcases Nat.lt_or_ge j cs.length with h | h
    · exact h
    · rw [List.get?_eq_none.mpr h] at hb; cases hb
  have := hs i j hi hj hij
  rw [List.get?_eq_getElem?, List.getElem?_eq_getElem hi] at ha
  rw [List.get?_eq_getElem?, List.getElem?_eq_getElem hj] at hb
  cases ha; cases hb
  exact this

/-- The bisection of `std::lower_bound` on a strictly increasing list: the rows
before the position it returns are smaller than the needle, the rows from it on
are not. -/
theorem lowerBoundLoop_spec (cs : List FrameData) (needle : CallerCalleeLocation)
    (hs : strictlySorted cs) :
    ∀ (fuel first len : Nat), len ≤ fuel → first + len ≤ cs.length →
      (∀ j c, j < first → cs.get? j = some c →
        CallerCalleeLocation.lt c.pair needle = true) →
      (∀ j c, first + len ≤ j → cs.get? j = some c →
        CallerCalleeLocation.lt c.pair needle = false) →
      (∀ j c, j < PerfParserPrivate.lowerBoundLoop cs needle fuel first len →
        cs.get? j = some c → CallerCalleeLocation.lt c.pair needle = true) ∧
      (∀ j c, PerfParserPrivate.lowerBoundLoop cs needle fuel first len ≤ j →
        cs.get? j = some c → CallerCalleeLocation.lt c.pair needle = false)
  | 0, first, len, hf, _, hlo, hhi => by
    rw [PerfParserPrivate.lowerBoundLoop]
    have : len = 0 := by omega
    subst this
    exact ⟨hlo, hhi⟩
  | fuel + 1, first, len, hf, hlen, hlo, hhi => by
    rw [PerfParserPrivate.lowerBoundLoop]
    by_cases h0 : 0 < len
    · rw [if_pos h0]
      dsimp only
      have hhalf : len / 2 < len := Nat.div_lt_self h0 (by decide)
      have hm : first + len / 2 < cs.length := by omega
      have hget : cs.get? (first + len / 2) =
          some (cs.getD (first + len / 2) FrameData.empty) := by
        rw [List.get?_eq_getElem?, List.getD_eq_getElem?_getD, List.getElem?_eq_getElem hm]
        rfl
      generalize cs.getD (first + len / 2) FrameData.empty = frame at hget
      cases hlt : CallerCalleeLocation.lt ⟨frame.symbol, frame.binary⟩ needle with
      | true =>
        rw [if_pos rfl]
        apply lowerBoundLoop_spec cs needle hs fuel _ _ (by omega) (by omega)
        · intro j c hj hc
          by_cases hjm : j = first + len / 2
          · subst hjm
            rw [hget] at hc
            cases hc
            exact hlt
          · exact CallerCalleeLocation.lt_trans' _ _ _
              (strictlySorted_get cs hs j _ c frame (by omega) hc hget) hlt
        · intro j c hj hc
          exact hhi j c (by omega) hc
      | false =>
        rw [if_neg Bool.false_ne_true]
        apply lowerBoundLoop_spec cs needle hs fuel _ _ (by omega) (by omega) hlo
        intro j c hj hc
        by_cases hjm : j = first + len / 2
        · subst hjm
          rw [hget] at hc
          cases hc
          exact hlt
        · cases hcn : CallerCalleeLocation.lt c.pair needle with
          | false => rfl
          | true =>
            have h1 := strictlySorted_get cs hs _ j frame c (by omega) hget hc
            have h2 := CallerCalleeLocation.lt_trans' _ _ _ h1 hcn
            have h3 : CallerCalleeLocation.lt frame.pair needle = false := hlt
            rw [h3] at h2
            cases h2
    · rw [if_neg h0]
      have : len = 0 := by omega
      subst this
      exact ⟨hlo, hhi⟩

theorem lowerBound_spec (cs : List FrameData) (needle : CallerCalleeLocation)
    (hs : strictlySorted cs) :
    (∀ j c, j < PerfParserPrivate.lowerBound cs needle → cs.get? j = some c →
      CallerCalleeLocation.lt c.pair needle = true) ∧
    (∀ j c, PerfParserPrivate.lowerBound cs needle ≤ j → cs.get? j = some c →
      CallerCalleeLocation.lt c.pair needle = false) := by
  unfold PerfParserPrivate.lowerBound
  apply lowerBoundLoop_spec cs needle hs _ 0 _ (by omega) (by omega)
  · intro j c hj
    cases hj
  · intro j c hj hc
    rw [List.get?_eq_none.mpr (by omega)] at hc
    cases hc

theorem mem_take_get? (cs : List FrameData) (r : Nat) (a : FrameData) (h : a ∈ cs.take r) :
    ∃ j, j < r ∧ cs.get? j = some a := by
  obtain ⟨n, hn⟩ := List.mem_iff_getElem?.mp h
  rw [List.getElem?_take] at hn
  by_cases hlt : n < r
  · rw [if_pos hlt] at hn
    exact ⟨n, hlt, by rw [List.get?_eq_getElem?]; exact hn⟩
  · rw [if_neg hlt] at hn
    cases hn

theorem mem_drop_get? (cs : List FrameData) (r : Nat) (b : FrameData) (h : b ∈ cs.drop r) :
    ∃ j, r ≤ j ∧ cs.get? j = some b := by
  obtain ⟨n, hn⟩ := List.mem_iff_getElem?.mp h
  rw [List.getElem?_drop] at hn
  exact ⟨r + n, by omega, by rw [List.get?_eq_getElem?]; exact hn⟩

/-- An insertion at the position of `std::lower_bound`, made when the row there
does not have the pair of the needle, keeps the list strictly increasing. -/
theorem strictlySorted_insertNth (cs : List FrameData) (x : FrameData)
    (hs : strictlySorted cs)
    (hcond : PerfParserPrivate.lowerBound cs x.pair = cs.length ∨
      (cs.getD (PerfParserPrivate.lowerBound cs x.pair) FrameData.empty).pair ≠ x.pair) :
    strictlySorted
      (PerfParserPrivate.insertNth (PerfParserPrivate.lowerBound cs x.pair) x cs) := by
  obtain ⟨hlo, hhi⟩ := lowerBound_spec cs x.pair hs
  have hle := lowerBound_le cs x.pair
  generalize PerfParserPrivate.lowerBound cs x.pair = it at hlo hhi hle hcond
  have hs' := hs
  unfold strictlySorted at hs ⊢
  unfold PerfParserPrivate.insertNth
  rw [List.pairwise_map] at hs ⊢
  rw [List.pairwise_append]
  have hgt : ∀ b ∈ cs.drop it, CallerCalleeLocation.lt x.pair b.pair = true := by
    intro b hb
    obtain ⟨j, hj, hbj⟩ := mem_drop_get? cs it b hb
    have h1 := hhi j b hj hbj
    cases h2 : CallerCalleeLocation.lt x.pair b.pair with
    | true => rfl
    | false =>
      exfalso
      have heq : b.pair = x.pair := CallerCalleeLocation.eq_of_not_lt _ _ h1 h2
      have hlt : it < cs.length := by
        rcases Nat.lt_or_ge j cs.length with h | h
        · omega
        · rw [List.get?_eq_none.mpr h] at hbj; cases hbj
      have hget : cs.get? it = some (cs.getD it FrameData.empty) := by
        rw [List.get?_eq_getElem?, List.getD_eq_getElem?_getD, List.getElem?_eq_getElem hlt]
        rfl
      rcases hcond with hc | hc
      · omega
      · by_cases hji : j = it
        · subst hji
          rw [hget] at hbj
          cases hbj
          exact hc heq
        · have h3 := strictlySorted_get cs hs' it j _ b (by omega) hget hbj
          rw [heq] at h3
          rw [hhi it _ (Nat.le_refl _) hget] at h3
          cases h3
  refine ⟨hs.sublist (List.take_sublist _ _), ?_, ?_⟩
  · rw [List.pairwise_cons]
    exact ⟨hgt, hs.sublist (List.drop_sublist _ _)⟩
  · intro a ha b hb
    obtain ⟨j, hj, haj⟩ := mem_take_get? cs it a ha
    have h1 := hlo j a hj haj
    rcases List.mem_cons.mp hb with rfl | hb
    · exact h1
    · exact CallerCalleeLocation.lt_trans' _ _ _ h1 (hgt b hb)

theorem map_pair_modifyNth (inc self : Nat) :
    ∀ (i : Nat) (cs : List FrameData),
      (FrameData.modifyNth (FrameData.addCost inc self) i cs).map FrameData.pair =
        cs.map FrameData.pair
  | _, [] => by simp [FrameData.modifyNth]
  | 0, c :: cs => by
    cases c
    simp [FrameData.modifyNth, FrameData.addCost, FrameData.pair, FrameData.symbol,
      FrameData.binary]
  | i + 1, c :: cs => by
    simp only [FrameData.modifyNth, List.map_cons, map_pair_modifyNth inc self i cs]

/-- The caller-callee walk keeps the list strictly increasing. -/
theorem strictlySorted_callerCalleeWalk :
    ∀ (nodes : List FrameData) (recursionGuard : List CallerCalleeLocation)
      (callerCalleeData : FrameData), strictlySorted callerCalleeData.children →
      strictlySorted
        (PerfParserPrivate.callerCalleeWalk nodes recursionGuard callerCalleeData).children
  | [], _, _, h => h
  | node :: parents, recursionGuard, callerCalleeData, h => by
    rw [PerfParserPrivate.callerCalleeWalk]
    dsimp only
    split
    · apply strictlySorted_callerCalleeWalk parents
      rw [FrameData.children_setChildren]
      unfold strictlySorted
      rw [map_pair_modifyNth]
      split
      · rename_i hcond
        exact strictlySorted_insertNth callerCalleeData.children
          (.mk node.symbol node.binary node.location node.address 0 0 []) h hcond
      · exact h
    · exact strictlySorted_callerCalleeWalk parents _ _ h

mutual
theorem strictlySorted_buildCallerCalleeRow (ancestors : List FrameData) :
    ∀ (row callerCalleeData : FrameData), strictlySorted callerCalleeData.children →
      strictlySorted
        (PerfParserPrivate.buildCallerCalleeRow ancestors row callerCalleeData).children
  | .mk s b l a sc ic [], callerCalleeData, h => by
    rw [PerfParserPrivate.buildCallerCalleeRow]
    exact strictlySorted_callerCalleeWalk _ _ _ h
  | .mk s b l a sc ic (c :: cs), callerCalleeData, h => by
    rw [PerfParserPrivate.buildCallerCalleeRow]
    exact strictlySorted_buildCallerCalleeRows _ (c :: cs) callerCalleeData h
theorem strictlySorted_buildCallerCalleeRows (ancestors : List FrameData) :
    ∀ (rows : List FrameData) (callerCalleeData : FrameData),
      strictlySorted callerCalleeData.children →
      strictlySorted
        (PerfParserPrivate.buildCallerCalleeRows ancestors rows callerCalleeData).children
  | [], callerCalleeData, h => by
    rw [PerfParserPrivate.buildCallerCalleeRows]
    exact h
  | row :: rows, callerCalleeData, h => by
    rw [PerfParserPrivate.buildCallerCalleeRows]
    exact strictlySorted_buildCallerCalleeRows ancestors rows _
      (strictlySorted_buildCallerCalleeRow ancestors row callerCalleeData h)
end

theorem nodup_of_strictlySorted (cs : List FrameData) (h : strictlySorted cs) :
    (cs.map FrameData.pair).Nodup := by
  unfold strictlySorted at h
  unfold List.Nodup
  exact h.imp (fun {a b} hab heq => by
    rw [heq, CallerCalleeLocation.lt_irrefl'] at hab
    cases hab)

/-- C21: from a caller-callee list that is strictly increasing in the order of
`CallerCalleeLocation::operator<` (the empty list of a new decoder is such),
after `buildCallerCalleeResult`, and so after `finalize`, on any bottom-up tree
the list is strictly increasing and no two entries have the same pair of
symbol and binary; and an insertion at the position of `std::lower_bound`,
made when that is the end or the row there has another pair, keeps a list
strictly increasing. -/
theorem callerCallee_strictly_sorted (d : PerfParserPrivate)
    (h : strictlySorted d.callerCalleeResult.children) :
    strictlySorted d.buildCallerCalleeResult.callerCalleeResult.children ∧
    strictlySorted d.finalize.callerCalleeResult.children ∧
    (d.finalize.callerCalleeResult.children.map FrameData.pair).Nodup ∧
    ∀ (rows : List FrameData) (x : FrameData), strictlySorted rows →
      PerfParserPrivate.lowerBound rows x.pair = rows.length ∨
        (rows.getD (PerfParserPrivate.lowerBound rows x.pair) FrameData.empty).pair ≠ x.pair →
      strictlySorted
        (PerfParserPrivate.insertNth (PerfParserPrivate.lowerBound rows x.pair) x rows) := by
  have h1 : strictlySorted d.finalize.callerCalleeResult.children :=
    strictlySorted_buildCallerCalleeRows [] _ _ h
  exact ⟨strictlySorted_buildCallerCalleeRows [] _ _ h, h1, nodup_of_strictlySorted _ h1,
    fun rows x hs hc => strictlySorted_insertNth rows x hs hc⟩

theorem callerCallee_strictly_sorted_witness :
    strictlySorted mirrorExample.finalize.callerCalleeResult.children ∧
    mirrorExample.finalize.callerCalleeResult.children.map FrameData.symbol =
      ["foo", "main", "start"] :=
  ⟨(callerCallee_strictly_sorted mirrorExample (by decide)).2.1, by decide!⟩

/-! ## Symbol-less locations in a row -/

namespace FrameData

theorem emptyNodes_eq (t : FrameData) :
    t.emptyNodes =
      (if t.symbol = "" ∧ t.binary = "" then 1 else 0) + emptyNodesRows t.children := by
  cases t
  rw [emptyNodes]
  rfl

theorem emptyNodesRows_append :
    ∀ (l r : List FrameData), emptyNodesRows (l ++ r) = emptyNodesRows l + emptyNodesRows r
  | [], r => by rw [List.nil_append, emptyNodesRows, Nat.zero_add]
  | c :: l, r => by
    rw [List.cons_append, emptyNodesRows, emptyNodesRows, emptyNodesRows_append l r,
      Nat.add_assoc]

theorem emptyNodes_addCost (inc self : Nat) (t : FrameData) :
    (t.addCost inc self).emptyNodes = t.emptyNodes := by
  cases t
  rw [addCost, emptyNodes, emptyNodes]

theorem emptyNodes_setChildren (t : FrameData) (cs : List FrameData) :
    (t.setChildren cs).emptyNodes =
      (if t.symbol = "" ∧ t.binary = "" then 1 else 0) + emptyNodesRows cs := by
  cases t
  rw [setChildren, emptyNodes]
  rfl

theorem emptyNodesRows_modifyNth (f : FrameData → FrameData) :
    ∀ (i : Nat) (cs : List FrameData),
      (∀ c, cs.get? i = some c → (f c).emptyNodes = c.emptyNodes) →
      emptyNodesRows (modifyNth f i cs) = emptyNodesRows cs
  | _, [], _ => by simp [modifyNth]
  | 0, c :: cs, h => by
    rw [modifyNth, emptyNodesRows, emptyNodesRows, h c rfl]
  | i + 1, c :: cs, h => by
    rw [modifyNth, emptyNodesRows, emptyNodesRows,
      emptyNodesRows_modifyNth f i cs (fun c1 hc1 => h c1 hc1)]

/-- A change of the node at `p` that keeps its number of empty nodes keeps the
number of the tree. -/
theorem emptyNodes_modifyAt (f : FrameData → FrameData) (sub : FrameData)
    (hf : (f sub).emptyNodes = sub.emptyNodes) :
    ∀ (p : List Nat) (t : FrameData), t.getAt p = some sub →
      (modifyAt f p t).emptyNodes = t.emptyNodes
  | [], t, h => by
    rw [getAt_nil] at h
    cases h
    exact hf
  | i :: p, t, h => by
    rw [modifyAt_cons, emptyNodes_setChildren, emptyNodes_eq t,
      emptyNodesRows_modifyNth _ i t.children (fun c hc => by
        rw [getAt_cons, hc] at h
        exact emptyNodes_modifyAt f sub hf p c h)]

/-- The static `addFrame` with a symbol or a binary that is not empty adds no
empty node. -/
theorem emptyNodes_addFrame (tree : FrameData) (parent : List Nat) (s b l a : String)
    (hsb : ¬ (s = "" ∧ b = "")) :
    (addFrame tree parent s b l a).1.emptyNodes = tree.emptyNodes := by
  unfold addFrame
  cases hg : tree.getAt parent with
  | none => rfl
  | some p =>
    dsimp only
    cases findRow s b l a p.children with
    | some i => rfl
    | none =>
      dsimp only
      apply emptyNodes_modifyAt _ p _ parent tree hg
      rw [emptyNodes_setChildren, emptyNodes_eq p, emptyNodesRows_append, emptyNodesRows,
        emptyNodesRows, emptyNodes, if_neg hsb, emptyNodesRows]
      omega

end FrameData

theorem not_empty_of_isValid (symbol : SymbolData) (h : symbol.isValid = true) :
    ¬ (symbol.symbol = "" ∧ symbol.binary = "") := by
  intro ⟨h1, h2⟩
  simp only [SymbolData.isValid, h1, h2] at h
  revert h
  decide

/-- A visit with a valid symbol adds no empty node. -/
theorem emptyNodes_visit (tree : FrameData) (parent : List Nat) (symbol : SymbolData)
    (location : LocationData) (h : symbol.isValid = true) :
    (visit tree parent symbol location).1.emptyNodes = tree.emptyNodes := by
  unfold visit
  dsimp only
  have h1 := FrameData.emptyNodes_addFrame tree parent symbol.symbol symbol.binary
    location.location location.address (not_empty_of_isValid symbol h)
  cases hg : (FrameData.addFrame tree parent symbol.symbol symbol.binary
      location.location location.address).1.getAt
      (FrameData.addFrame tree parent symbol.symbol symbol.binary
        location.location location.address).2 with
  | none => rw [FrameData.modifyAt_of_getAt_none _ _ _ hg, h1]
  | some n =>
    rw [FrameData.emptyNodes_modifyAt _ n (FrameData.emptyNodes_addCost _ _ n) _ _ hg, h1]

/-- C12, counterexample: location 1 has an empty symbol and its parent, location
2, is `foo`; a sample of location 0, which is symbol-less too and has the
parent 1, reaches location 1, and its fold creates a node with empty symbol
and empty binary below the root (with the address label of location 0 and
self cost 1), above the node of `foo`: location 0 takes the empty symbol of
location 1. The tree has two nodes with empty symbol and binary then, the root
and this one. -/
theorem trampoline_chain_creates_empty_node :
    (value doubleTrampoline.symbols 1).isValid = false ∧
    (value doubleTrampoline.symbols (parentOf doubleTrampoline 1)).isValid = true ∧
    sampleKeys doubleTrampoline [0] = some [⟨"", "", "", "c"⟩, ⟨"foo", "", "", "f"⟩] ∧
    (doubleTrampoline.addSample { frames := [0] }).map
        (fun d => d.bottomUpResult.children.map
          (fun c => (c.symbol, c.binary, c.address, c.selfCost)))
      = some [("", "", "c", 1)] ∧
    (doubleTrampoline.addSample { frames := [0] }).map
        (fun d => (d.bottomUpResult.children.flatMap FrameData.children).map
          (fun c => (c.symbol, c.address, c.children.length)))
      = some [("foo", "f", 0)] ∧
    (doubleTrampoline.addSample { frames := [0] }).map
        (fun d => (doubleTrampoline.bottomUpResult.emptyNodes, d.bottomUpResult.emptyNodes))
      = some (1, 2) := by
  refine ⟨by decide, by decide, by decide, by decide!, by decide!, by decide!⟩

/-- C12, amended: when the symbol of location `id` is empty and the symbol of its
parent location `p` is valid, the two iterations of the walk for `id` and `p`
make one visit, with the symbol and binary of `p`, which are not both empty:
with the labels of `id` when the walk arrives at `id` afresh, with the labels of
`p` when `id` itself is skipped, and in both cases the walk goes on at the
parent of `p` with the skip flag cleared, so `p` is not visited a second time.
Such a visit leaves the number of nodes with empty symbol and empty binary as
it is, and the node it returns has the symbol and binary of `p`. -/
theorem addFrame_trampoline (d : PerfParserPrivate) (fuel : Nat) (tree : FrameData)
    (parent : List Nat) (id : Int)
    (hid : (value d.symbols id).isValid = false)
    (hp : (value d.symbols (parentOf d id)).isValid = true) :
    (d.addFrameLoop (fuel + 2) tree parent id false =
      d.addFrameLoop fuel
        (visit tree parent (value d.symbols (parentOf d id)) (value d.locations id)).1
        (visit tree parent (value d.symbols (parentOf d id)) (value d.locations id)).2
        (parentOf d (parentOf d id)) false ∧
    d.addFrameLoop (fuel + 2) tree parent id true =
      d.addFrameLoop fuel
        (visit tree parent (value d.symbols (parentOf d id))
          (value d.locations (parentOf d id))).1
        (visit tree parent (value d.symbols (parentOf d id))
          (value d.locations (parentOf d id))).2
        (parentOf d (parentOf d id)) false) ∧
    ¬ ((value d.symbols (parentOf d id)).symbol = "" ∧
        (value d.symbols (parentOf d id)).binary = "") ∧
    (∀ location : LocationData,
      (visit tree parent (value d.symbols (parentOf d id)) location).1.emptyNodes =
        tree.emptyNodes) ∧
    (∀ (location : LocationData) (p : FrameData), tree.getAt parent = some p →
      ∃ n, (visit tree parent (value d.symbols (parentOf d id)) location).1.getAt
          (visit tree parent (value d.symbols (parentOf d id)) location).2 = some n ∧
        n.symbol = (value d.symbols (parentOf d id)).symbol ∧
        n.binary = (value d.symbols (parentOf d id)).binary) := by
  have hp1 : parentOf d id ≠ -1 := by
    intro h
    rw [h, value_neg_one_symbol] at hp
    cases hp
  have hid1 : id ≠ -1 := by
    intro h
    apply hp1
    rw [h, parentOf_neg_one]
  refine ⟨⟨?_, ?_⟩, not_empty_of_isValid _ hp, fun location => emptyNodes_visit _ _ _ _ hp, ?_⟩
  · rw [PerfParserPrivate.addFrameLoop]
    simp only [hid1, if_false, Bool.false_eq_true, hid, Bool.not_false, if_true]
    rw [PerfParserPrivate.addFrameLoop]
    have hp1' : (value d.locations id).parentLocationId ≠ -1 := hp1
    simp only [hp1', if_false, if_true]
    rfl
  · rw [PerfParserPrivate.addFrameLoop]
    simp only [hid1, if_false, if_true]
    rw [PerfParserPrivate.addFrameLoop]
    have hp1' : (value d.locations id).parentLocationId ≠ -1 := hp1
    have hp' : (value d.symbols (value d.locations id).parentLocationId).isValid = true := hp
    simp only [hp1', if_false, Bool.false_eq_true, hp', Bool.not_true]
    rfl
  · intro location p hg
    obtain ⟨n, hn, hk⟩ := visit_node_key tree parent p
      (value d.symbols (parentOf d id)) location hg
    refine ⟨n, hn, ?_, ?_⟩
    · exact congrArg FrameKey.symbol hk
    · exact congrArg FrameKey.binary hk

theorem addFrame_trampoline_witness :
    (visit FrameData.empty [] (value trampolineRegistry.symbols
        (parentOf trampolineRegistry 0)) (value trampolineRegistry.locations 0)).1.emptyNodes =
      FrameData.empty.emptyNodes ∧
    (trampolineRegistry.addSample { frames := [0] }).map
        (fun d => d.bottomUpResult.children.map
          (fun c => (c.symbol, c.address, c.selfCost, c.inclusiveCost, c.children.length)))
      = some [("foo", "t", 1, 1, 0)] :=
  ⟨(addFrame_trampoline trampolineRegistry 1 FrameData.empty [] 0 (by decide)
      (by decide)).2.2.1 _, by decide!⟩

end PerfParser
